import Mathlib

/-!
# libattkthread: sources, sink, bounded queue and attack threads

A shallow embedding of `brute_force.c`, `queue.c`, `read_file.c`,
`write_file.c`, `read_word_list.c` and the threads and the status call of
`libattkthread.c`, with the properties of the specification proved about it.

Conventions of the embedding.

* A byte is a `Nat`.  In the brute-force source a C string is the list of
  its bytes before the terminating NUL, so `strlen` is `List.length` and a
  `memcmp` of two strings over the length of one of them is list equality.
  A character array of a header or a read buffer is the list of all its
  bytes, and `c_strlen` finds its first NUL.
* `uint16_t` and `uint64_t` fields are `Nat`s reduced modulo `2 ^ 16` and
  `2 ^ 64` at every assignment that can overflow.
* A record slot of a block is the list of its `record_size` bytes; a block
  is the list of the slots that were written.
* Loops whose number of iterations is not structurally bounded carry a fuel
  argument and answer `none` (or `halt.fuel`) when it runs out.
* `records_per_block`, an `int`, is taken not to be negative.  The size of
  a block, `record_size * records_per_block`, is the product the code takes
  in `int`: `block_size` reduces it modulo `2 ^ 32` and answers `none`
  where it is negative, the allocation then returning `NULL`.
* A file of the operating system is the list of its bytes, `none` when
  there is no file.  What a system call answers and the code cannot know
  (the descriptor of `open`, the count of a `read` or `write`, `errno` on
  entry) is an argument of the model, and so is a byte the code reads in
  front of an array.
* A thread that locks a mutex it already holds does not come back
  (`halt.deadlock`), a failed `assert` ends the run (`halt.assertion`), and
  so do an integer division by zero (`halt.division`), a call through a
  `NULL` function pointer (`halt.null_call`) and a write through a `NULL`
  pointer (`halt.null_write`).
* An index or offset at which the code reaches in front of an array is
  reported as a negative `Int`.
-/

namespace Attk

/-! ## Error codes (`libattkthread.h`) -/

def E_ATTK_SYSTEM : Int := -1

def E_ATTK_STOPPED : Int := -2

def E_ATTK_RECORD_INVALID : Int := -3

def E_ATTK_RECORD_NO_MATCH : Int := -4

def E_ATTK_RECORD_SIZE_INVALID : Int := -5

def E_ATTK_FILE_INVALID : Int := -6

/-! ## The size of a block -/

/-- The statements `buf_size = file->record_size * file->records_per_block;
buffer = malloc(buf_size);` of the three sources, and their like in the
client thread: the product of the `uint16_t` and the `int` is taken in `int`
(32 bits, with the wrap of two's complement) and converted to `size_t`.  A
negative product becomes a size above `2 ^ 63`, which `malloc` refuses:
`none` stands for the `NULL` it returns.  Every other allocation is taken
to succeed. -/
def block_size (record_size records_per_block : Nat) : Option Nat :=
  if record_size * records_per_block % 2 ^ 32 < 2 ^ 31 then
    some (record_size * records_per_block % 2 ^ 32)
  else none

/-! ## `brute_force.c` -/

/-- Private data of the brute-force source (`brute_force_data_st`). -/
structure brute_force_data_st where
  start : List Nat
  end_ : List Nat
  alphabet : List Nat
  last : List Nat
deriving DecidableEq, Repr

/-- The fields of `file_st` the brute-force source uses.  `record_size` is a
`uint16_t`, `total_records` a `uint64_t`. -/
structure file_st where
  record_size : Nat
  records_per_block : Nat
  total_records : Nat
  file_data : brute_force_data_st
deriving DecidableEq, Repr

/-- Offset of `memchr(haystack, c, hay_size)` from `haystack`; the length of
the haystack stands for the `NULL` answer. -/
def alp_rank (haystack : List Nat) (c : Nat) : Nat := haystack.indexOf c

/-- The function `char_index`: `memchr` over the alphabet, `none` for `NULL`. -/
def char_index (haystack : List Nat) (needle : Nat) : Option Nat :=
  if alp_rank haystack needle < haystack.length then some (alp_rank haystack needle) else none

/-- The two loops "every character in start / end must be in the alphabet". -/
def all_in_alphabet (alphabet : List Nat) : List Nat → Bool
  | [] => true
  | c :: cs => if char_index alphabet c = none then false else all_in_alphabet alphabet cs

/-- The loop run when both strings have the same size: answers `true` when it
reaches the `return E_ATTK_SYSTEM` (a position where the start character sits
later in the alphabet than the end character, all earlier positions being
equal in rank). -/
def start_after_end (alphabet : List Nat) : List Nat → List Nat → Bool
  | s :: ss, e :: es =>
    if alp_rank alphabet s > alp_rank alphabet e then true
    else if alp_rank alphabet s < alp_rank alphabet e then false
    else start_after_end alphabet ss es
  | _, _ => false

/-- The function `brute_force_init`: the return value and the file structure
after the call.  The error returns precede the `memset` of the structure. -/
def brute_force_init (file : file_st) (records_per_block : Nat)
    (start end_ alphabet : List Nat) : Int × file_st :=
  if start.length > end_.length then (E_ATTK_SYSTEM, file)
  else if all_in_alphabet alphabet start = false then (E_ATTK_SYSTEM, file)
  else if all_in_alphabet alphabet end_ = false then (E_ATTK_SYSTEM, file)
  else if start.length = end_.length ∧ start_after_end alphabet start end_ = true then
    (E_ATTK_SYSTEM, file)
  else
    (0, { record_size := (end_.length + 1) % 2 ^ 16
          records_per_block := records_per_block
          total_records := 0
          file_data := { start := start, end_ := end_, alphabet := alphabet, last := [] } })

/-- The inner loops `for (...) temp *= alp_len;` on an `unsigned long`. -/
def mul_loop (alp_len : Nat) : Nat → Nat → Nat
  | 0, temp => temp
  | n + 1, temp => mul_loop alp_len n ((temp * alp_len) % 2 ^ 64)

/-- The loop "number of records to finish start string": `cs` holds the
characters still to visit, rightmost first, `k` is `start_end_p - curr_p`. -/
def finish_loop (alphabet : List Nat) : List Nat → Nat → Nat → Nat
  | [], _, total => total
  | c :: cs, k, total =>
    finish_loop alphabet cs (k + 1)
      ((total + mul_loop alphabet.length k
        ((alphabet.length - 1 - alp_rank alphabet c) % 2 ^ 64)) % 2 ^ 64)

/-- The loop "number of records to reach end's length": `n` iterations are
left and `i` is the loop counter. -/
def reach_loop (alp_len start_len : Nat) : Nat → Nat → Nat → Nat
  | 0, _, total => total
  | n + 1, i, total =>
    reach_loop alp_len start_len n (i + 1)
      ((total + mul_loop alp_len (start_len + i) (alp_len % 2 ^ 64)) % 2 ^ 64)

/-- The loop "remove possibilities that will not be generated", with the
wrapping subtraction of `uint64_t`. -/
def remove_loop (alphabet : List Nat) : List Nat → Nat → Nat → Nat
  | [], _, total => total
  | c :: cs, k, total =>
    remove_loop alphabet cs (k + 1)
      ((total + (2 ^ 64 - mul_loop alphabet.length k
        ((alphabet.length - 1 - alp_rank alphabet c) % 2 ^ 64))) % 2 ^ 64)

/-- The function `bf_open_file`: stores `total_records`, returns 0. -/
def bf_open_file (file : file_st) : Int × file_st :=
  let bf := file.file_data
  let t1 := finish_loop bf.alphabet bf.start.reverse 0 1
  let t2 := reach_loop bf.alphabet.length bf.start.length
    (bf.end_.length - bf.start.length) 0 t1
  let t3 := remove_loop bf.alphabet bf.end_.reverse 0 t2
  (0, { file with total_records := t3 })

/-- A record slot of a zeroed block after `memcpy(buf_p, last, strlen(last))`. -/
def pad (record_size : Nat) (s : List Nat) : List Nat :=
  s ++ List.replicate (record_size - s.length) 0

/-- The loop "find the first char to increase": `k` is `curr_p - last + 1`.
The answer is the offset of `curr_p` in `last`, or `none` when the loop ends
with `curr_p < bf_st->last` (the C loop then compares the byte in front of
the buffer once more, and ends with `curr_p < bf_st->last` whatever that
byte is). -/
def find_inc (last : List Nat) (alp_end : Nat) : Nat → Option Nat
  | 0 => none
  | k + 1 => if last.getD k 0 = alp_end then find_inc last alp_end k else some k

/-- One pass through the body of the generating loop of `bf_next_block`:
the next value of `last`, or `none` when the body leaves the loop through
one of its `break`s.  The body reads `bf_st->alphabet` and `bf_st->end`. -/
def bf_succ (alphabet end_ last : List Nat) : Option (List Nat) :=
  if last = end_ then none
  else
    match find_inc last (alphabet.getD (alphabet.length - 1) 0) last.length with
    | none =>
      if last.length < end_.length then
        some (List.replicate (last.length + 1) (alphabet.getD 0 0))
      else none
    | some k =>
      some (last.take k
        ++ [alphabet.getD (alp_rank alphabet (last.getD k 0) + 1) 0]
        ++ List.replicate (last.length - (k + 1)) (alphabet.getD 0 0))

/-- The generating loop `while (buf_p < buffer + buf_size)`: the state is the
offset `buf_p`, the string `last` and the slots written so far. -/
def bf_gen_loop (alphabet end_ : List Nat) (record_size buf_size : Nat) :
    Nat → Nat → List Nat → List (List Nat) → Option (Nat × List Nat × List (List Nat))
  | 0, _, _, _ => none
  | fuel + 1, buf_p, last, out =>
    if buf_p < buf_size then
      match bf_succ alphabet end_ last with
      | none => some (buf_p, last, out)
      | some next =>
        bf_gen_loop alphabet end_ record_size buf_size fuel (buf_p + record_size) next
          (out ++ [pad record_size next])
    else some (buf_p, last, out)

/-- The function `bf_next_block` called with `buf_size == 0`: the file
structure after the call, the slots written into the fresh zeroed block and
the return value `buf_p - buffer`.  `none` when the call does not come back:
the block could not be allocated and the `memset` writes through `NULL`, or
the fuel ran out.  A slot is shown whole also when the block ends inside it
(a block size that wrapped to less than a record): the zeros then stand
for bytes behind the block. -/
def bf_next_block (file : file_st) : Option (file_st × List (List Nat) × Nat) :=
  match block_size file.record_size file.records_per_block with
  | none => none
  | some buf_size =>
    let bf := file.file_data
    let first := decide (bf.last.length = 0)
    let last0 := if first then bf.start else bf.last
    let out0 := if first then [pad file.record_size last0] else []
    let buf_p0 := if first then file.record_size else 0
    match bf_gen_loop bf.alphabet bf.end_ file.record_size buf_size (buf_size + 1) buf_p0 last0
      out0
    with
    | none => none
    | some (buf_p, last, out) =>
      some ({ file with file_data := { bf with last := last } }, out, buf_p)

/-- Repeated `bf_next_block` calls up to the first zero-length block; the
records of the blocks are concatenated.  `none` when `fuel` calls did not
reach a zero-length block, or one of them did not come back. -/
def bf_drain : Nat → file_st → Option (List (List Nat))
  | 0, _ => none
  | fuel + 1, file =>
    match bf_next_block file with
    | none => none
    | some (file1, out, ret) =>
      if ret = 0 then some []
      else (bf_drain fuel file1).map (fun rest => out ++ rest)

/-! ## Brute force: the order of the specification -/

/-- Every character of the string occurs in the alphabet. -/
def over_alphabet (alphabet s : List Nat) : Prop := ∀ c ∈ s, c ∈ alphabet

instance (alphabet s : List Nat) : Decidable (over_alphabet alphabet s) :=
  inferInstanceAs (Decidable (∀ c ∈ s, c ∈ alphabet))

/-- Lexicographic comparison by alphabet rank of two strings of one length. -/
def lex_lt (alphabet : List Nat) : List Nat → List Nat → Bool
  | c :: s, d :: t =>
    decide (alp_rank alphabet c < alp_rank alphabet d)
      || (decide (alp_rank alphabet c = alp_rank alphabet d) && lex_lt alphabet s t)
  | _, _ => false

/-- The order of the enumeration: shorter strings first, strings of one
length lexicographically by alphabet rank. -/
def shortlex_lt (alphabet s t : List Nat) : Prop :=
  s.length < t.length ∨ (s.length = t.length ∧ lex_lt alphabet s t = true)

/-- The string lies between the two ends, ends included. -/
def between (alphabet start end_ s : List Nat) : Prop :=
  (s = start ∨ shortlex_lt alphabet start s) ∧ (s = end_ ∨ shortlex_lt alphabet s end_)

/-- The string read as a numeral whose digits are the alphabet ranks. -/
def str_val (alphabet : List Nat) : List Nat → Nat
  | [] => 0
  | c :: s => alp_rank alphabet c * alphabet.length ^ s.length + str_val alphabet s

/-- Number of strings shorter than `n` over an alphabet of `r` characters. -/
def geom (r : Nat) : Nat → Nat
  | 0 => 0
  | n + 1 => geom r n + r ^ n

/-- Position of a string in the enumeration of all strings over the
alphabet, shorter strings first. -/
def str_ord (alphabet s : List Nat) : Nat :=
  geom alphabet.length s.length + str_val alphabet s

/-- The loop body leads from `a` through the strings of `l`, one after the
other, and `b` is the last string reached (`a` itself when `l` is empty). -/
inductive Seg (alphabet end_ : List Nat) : List Nat → List (List Nat) → List Nat → Prop
  | nil (a : List Nat) : Seg alphabet end_ a [] a
  | cons {a t b : List Nat} {l : List (List Nat)} :
      bf_succ alphabet end_ a = some t → Seg alphabet end_ t l b → Seg alphabet end_ a (t :: l) b

/-- The conditions under which `brute_force_init` refuses its arguments. -/
def init_rejects (start end_ alphabet : List Nat) : Prop :=
  start.length > end_.length
    ∨ ¬ (over_alphabet alphabet start ∧ over_alphabet alphabet end_)
    ∨ (start.length = end_.length ∧ lex_lt alphabet end_ start = true)

instance (start end_ alphabet : List Nat) : Decidable (init_rejects start end_ alphabet) :=
  inferInstanceAs (Decidable (_ ∨ _ ∨ _))

/-! ## Brute force: the sums behind `bf_open_file` -/

/-- The sum the first and the third loop of `bf_open_file` accumulate. -/
def comp_sum (alphabet : List Nat) : List Nat → Nat → Nat
  | [], _ => 0
  | c :: cs, k =>
    (alphabet.length - 1 - alp_rank alphabet c) * alphabet.length ^ k
      + comp_sum alphabet cs (k + 1)

/-- The sum the second loop of `bf_open_file` accumulates. -/
def reach_sum (r n0 : Nat) : Nat → Nat → Nat
  | 0, _ => 0
  | n + 1, i => r ^ (n0 + i + 1) + reach_sum r n0 n (i + 1)

/-! ## Brute force: example inputs -/

/-- A file structure before `brute_force_init`, all fields zero. -/
def fileZero : file_st :=
  { record_size := 0, records_per_block := 0, total_records := 0,
    file_data := { start := [], end_ := [], alphabet := [], last := [] } }

/-- The source for alphabet "aba", start "a", end "b", one record per block. -/
def cex_dup : file_st :=
  { record_size := 2, records_per_block := 1, total_records := 0,
    file_data := { start := [97], end_ := [98], alphabet := [97, 98, 97], last := [] } }

/-- The source for alphabet "a", start "", end "a", one record per block. -/
def cex_empty_one : file_st :=
  { record_size := 2, records_per_block := 1, total_records := 0,
    file_data := { start := [], end_ := [97], alphabet := [97], last := [] } }

/-- The source for alphabet "a", start "", end "", two records per block. -/
def cex_empty_two : file_st :=
  { record_size := 1, records_per_block := 2, total_records := 0,
    file_data := { start := [], end_ := [], alphabet := [97], last := [] } }

/-- The source for alphabet "a", start "", an end of 65535 letters "a", two
records per block: the 16-bit record size is 0. -/
def cex_wrap : file_st :=
  { record_size := 0, records_per_block := 2, total_records := 0,
    file_data := { start := [], end_ := List.replicate 65535 97, alphabet := [97],
                   last := [] } }

/-- The source for alphabet "ab", start "a", end "b" and `2 ^ 30` records
per block: the block size `2 * 2 ^ 30` is `2 ^ 31`. -/
def cex_block : file_st :=
  { record_size := 2, records_per_block := 1073741824, total_records := 0,
    file_data := { start := [97], end_ := [98], alphabet := [97, 98], last := [] } }

/-- The source for alphabet "ab", start "a", an end of 64 letters "b", one
record per block. -/
def cex_big : file_st :=
  { record_size := 65, records_per_block := 1, total_records := 0,
    file_data := { start := [97], end_ := List.replicate 64 98, alphabet := [97, 98],
                   last := [] } }

/-! ## `queue.c` -/

/-- Maximum number of pointers a queue can hold (`queue.h`). -/
abbrev QUEUE_SIZE : Nat := 20

/-- Queue state enum (`queue.h`). -/
inductive queue_state where
  | QUEUE_STATE_ACTIVE
  | QUEUE_STATE_STOPPING
  | QUEUE_STATE_STOPPED
deriving DecidableEq, Repr

open queue_state

/-- The data fields of the `queue` structure.  Pointers are addresses, `NULL`
is 0; the two arrays have `QUEUE_SIZE` cells. -/
structure queue where
  stack : List Nat
  stack_sizes : List Nat
  head : Nat
  tail : Nat
  full : Nat
  empty : Nat
  state : queue_state
deriving DecidableEq, Repr

/-- The function `queue_init`: the structure after the `memset` and the two
defaults. -/
def queue_init : queue :=
  { stack := List.replicate QUEUE_SIZE 0
    stack_sizes := List.replicate QUEUE_SIZE 0
    head := 0
    tail := 0
    full := 0
    empty := 1
    state := QUEUE_STATE_ACTIVE }

/-- The function `queue_push`; `none` when one of its three assertions fails. -/
def queue_push (q : queue) (inp size : Nat) : Option queue :=
  if size > 0 ∧ q.state = QUEUE_STATE_ACTIVE ∧ q.full = 0 then
    let tail := if q.tail + 1 = QUEUE_SIZE then 0 else q.tail + 1
    some { stack := q.stack.set q.tail inp
           stack_sizes := q.stack_sizes.set q.tail size
           head := q.head
           tail := tail
           full := if tail = q.head then 1 else q.full
           empty := 0
           state := q.state }
  else none

/-- The function `queue_pop`: the queue after the call, `*out` and `*size`;
`none` when one of its two assertions fails. -/
def queue_pop (q : queue) : Option (queue × Nat × Nat) :=
  if q.state ≠ QUEUE_STATE_STOPPED ∧ q.empty = 0 then
    let head := if q.head + 1 = QUEUE_SIZE then 0 else q.head + 1
    some ({ stack := q.stack.set q.head 0
            stack_sizes := q.stack_sizes.set q.head 0
            head := head
            tail := q.tail
            full := 0
            empty := if head = q.tail then 1 else q.empty
            state := if head = q.tail ∧ q.state = QUEUE_STATE_STOPPING
                     then QUEUE_STATE_STOPPED else q.state },
          q.stack.getD q.head 0, q.stack_sizes.getD q.head 0)
  else none

/-- The function `queue_stop`. -/
def queue_stop (q : queue) : queue :=
  if q.state ≠ QUEUE_STATE_STOPPED then
    if q.empty ≠ 0 then { q with state := QUEUE_STATE_STOPPED }
    else { q with state := QUEUE_STATE_STOPPING }
  else q

/-- A call on the queue. -/
inductive queue_op where
  | push (inp size : Nat)
  | pop
  | stop
deriving DecidableEq, Repr

/-- Runs a sequence of calls; the answer holds the final queue and what the
`queue_pop` calls returned, in order.  `none` when an assertion fails. -/
def queue_run : queue → List queue_op → Option (queue × List (Nat × Nat))
  | q, [] => some (q, [])
  | q, queue_op.push inp size :: ops =>
    match queue_push q inp size with
    | none => none
    | some q1 => queue_run q1 ops
  | q, queue_op.pop :: ops =>
    match queue_pop q with
    | none => none
    | some (q1, out, size) =>
      (queue_run q1 ops).map (fun r => (r.1, (out, size) :: r.2))
  | q, queue_op.stop :: ops => queue_run (queue_stop q) ops

/-- The pointer and size given to each `queue_push` of the sequence, in order. -/
def pushed : List queue_op → List (Nat × Nat)
  | [] => []
  | queue_op.push inp size :: ops => (inp, size) :: pushed ops
  | _ :: ops => pushed ops

/-- Number of `queue_pop` calls in the sequence. -/
def pops : List queue_op → Nat
  | [] => 0
  | queue_op.pop :: ops => pops ops + 1
  | _ :: ops => pops ops

/-- The queue `q` holds the entries `es`, oldest first. -/
structure queue_holds (q : queue) (es : List (Nat × Nat)) : Prop where
  stack_len : q.stack.length = 20
  sizes_len : q.stack_sizes.length = 20
  head_lt : q.head < 20
  count_le : es.length ≤ 20
  tail_eq : q.tail = (q.head + es.length) % 20
  empty_eq : q.empty = if es.length = 0 then 1 else 0
  full_eq : q.full = if es.length = 20 then 1 else 0
  cells : ∀ i, i < es.length → es[i]? = some
    (q.stack.getD ((q.head + i) % 20) 0, q.stack_sizes.getD ((q.head + i) % 20) 0)

/-- Twenty-one pushes, each followed by a pop: head and tail wrap around. -/
def wrap_ops : List queue_op :=
  (List.range 21).flatMap (fun i => [queue_op.push (100 + i) (i + 1), queue_op.pop])

/-- The queue after `wrap_ops`. -/
def wrap_queue : queue :=
  { stack := List.replicate 20 0, stack_sizes := List.replicate 20 0,
    head := 1, tail := 1, full := 0, empty := 1, state := QUEUE_STATE_ACTIVE }

/-- What the pops of `wrap_ops` return. -/
def wrap_outs : List (Nat × Nat) := (List.range 21).map (fun i => (100 + i, i + 1))

/-- Twenty pushes. -/
def fill_ops : List queue_op := (List.range 20).map (fun i => queue_op.push (100 + i) (i + 1))

/-- The queue after `fill_ops`. -/
def fill_queue : queue :=
  { stack := (List.range 20).map (fun i => 100 + i),
    stack_sizes := (List.range 20).map (fun i => i + 1),
    head := 0, tail := 0, full := 1, empty := 0, state := QUEUE_STATE_ACTIVE }

/-- The queue after one push of the pointer 5 with size 1. -/
def one_queue : queue :=
  { stack := 5 :: List.replicate 19 0, stack_sizes := 1 :: List.replicate 19 0,
    head := 0, tail := 1, full := 0, empty := 0, state := QUEUE_STATE_ACTIVE }

/-! ## `libattkthread.c`: status snapshot -/

/-- Attack state enum (`libattkthread.h`); the field holds 0 before
`start_attack`. -/
def ATTACK_STATE_ACTIVE : Nat := 1

def ATTACK_STATE_STOPPING : Nat := 2

def ATTACK_STATE_STOPPED : Nat := 3

/-- Attack error state enum. -/
def E_STATE_INPUT_FILE : Nat := 1

def E_STATE_OUTPUT_FILE : Nat := 2

/-- The structure `attack_status`: `result` is the buffer the pointer
designates (`none` for `NULL`). -/
structure attack_status where
  records_tested : Nat
  total_records : Nat
  result : Option (List Nat)
  result_size : Nat
deriving DecidableEq, Repr

/-- The fields of `attack_st` that the workers and `check_attack` read and
write: the private status `_s`, `error`, `e_state` and `state`. -/
structure attack_st where
  _s : attack_status
  error : Int
  e_state : Nat
  state : Nat
deriving DecidableEq, Repr

/-- The call `memset(buf, 0, n)`. -/
def memset_zero (buf : List Nat) (n : Nat) : List Nat :=
  List.replicate n 0 ++ buf.drop n

/-- The call `memcpy(dst, src, n)`. -/
def memcpy (dst src : List Nat) (n : Nat) : List Nat :=
  src.take n ++ dst.drop n

/-- The block that fills `status` from `attk_st->_s`; it is written twice in
`check_attack`, once under the mutex and once without. -/
def fill_status (attk_st : attack_st) (status : attack_status) : attack_status :=
  match attk_st._s.result, status.result with
  | some res, some buf =>
    let n := if attk_st._s.result_size < status.result_size then attk_st._s.result_size
             else status.result_size
    { records_tested := attk_st._s.records_tested
      total_records := attk_st._s.total_records
      result := some (memcpy (memset_zero buf status.result_size) res n)
      result_size := n }
  | some _, none =>
    -- no buffer behind `status->result`: nothing can be copied (the C code
    -- would write through `NULL` when `status->result_size` is positive)
    { records_tested := attk_st._s.records_tested
      total_records := attk_st._s.total_records
      result := none
      result_size := if attk_st._s.result_size < status.result_size then attk_st._s.result_size
                     else status.result_size }
  | none, _ =>
    { records_tested := attk_st._s.records_tested
      total_records := attk_st._s.total_records
      result := status.result
      result_size := 0 }

/-- The function `check_attack`: the return value and `*status` after it. -/
def check_attack (attk_st : attack_st) (status : attack_status) : Int × attack_status :=
  if attk_st.state ≠ ATTACK_STATE_STOPPED then (0, fill_status attk_st status)
  else (E_ATTK_STOPPED, fill_status attk_st status)

/-! ## `libattkthread.c`: the client thread -/

/-- Why a run of the model does not come back: the fuel of a loop ran out,
the thread waits for a mutex that is never released, an `assert` failed, an
integer was divided by zero, a function was called through a `NULL`
pointer, or bytes were written through a `NULL` pointer. -/
inductive halt where
  | fuel
  | deadlock
  | assertion
  | division
  | null_call
  | null_write
deriving DecidableEq, Repr

/-- What a client thread is given: the record sizes of the two files as
they are once the main thread has opened them (`file_out` is `none` for
`NULL`), `records_per_block` of the input file, the checker, the return
value of the n-th call of `file_out->next_block` and the return value of
`file_in->free_block`.  The checker receives the record and the bytes of its
output slot and answers its return value and the bytes of the slot after the
call.

The main thread creates the client threads before it opens the files, and
`open_file` may set `record_size`.  A client thread reads the two sizes
once before its loop, without a lock: `out_size_start` is the value of
`file_out->record_size` it multiplies into `fout_buf_size`, `in_size_start`
the value of `file_in->record_size` it allocates `result` with.  Where they
are not written out they are the sizes of the opened files.  The reads in
the loop come after the first block was queued, hence after `open_file`. -/
structure worker_env where
  record_size : Nat
  records_per_block : Nat
  file_out : Option Nat
  attack_check : List Nat → List Nat → Int × List Nat
  out_next_block : Nat → List Nat → Int
  free_block : List Nat → Int
  in_size_start : Nat := record_size
  out_size_start : Nat := file_out.getD 0

/-- The variables of `attack_client_t`, the attack structure and the queue it
shares, and two histories: the buffers handed to `file_out->next_block` and
the checker calls (record, return value, output slot after the call). -/
structure worker_st where
  fout_buf : List Nat
  fout_buf_p : Nat
  check_retval : Int
  result : List Nat
  out_locked : Bool
  attk : attack_st
  q : queue
  out_calls : List (List Nat)
  checks : List (List Nat × Int × List Nat)
deriving DecidableEq, Repr

/-- The variable `fout_buf_size` of a client thread with an output file
that has reached its main loop: the size its output buffer was allocated
with. -/
def fout_buf_size (env : worker_env) : Nat :=
  (block_size env.out_size_start env.records_per_block).getD 0

/-- The variables of a client thread when it reaches its main loop. -/
def worker_init (env : worker_env) (attk : attack_st) (q : queue) : worker_st :=
  { fout_buf := match env.file_out with
                | some _ => List.replicate (fout_buf_size env) 0
                | none => []
    fout_buf_p := 0
    check_retval := E_ATTK_RECORD_INVALID
    result := List.replicate env.in_size_start 0
    out_locked := false
    attk := attk
    q := q
    out_calls := []
    checks := [] }

/-- Writes `src` into `buf` at offset `p`. -/
def write_at (buf : List Nat) (p : Nat) (src : List Nat) : List Nat :=
  buf.take p ++ src ++ buf.drop (p + src.length)

/-- The statements "Set an error": `assert(attk_st->error == 0)` and the two
assignments. -/
def set_error (a : attack_st) (err : Int) (stage : Nat) : Except halt attack_st :=
  if a.error = 0 then Except.ok { a with error := err, e_state := stage }
  else Except.error halt.assertion

/-- The call of `attk_st->attack_check` on one record. -/
def check_record (env : worker_env) (st : worker_st) (record : List Nat) : worker_st :=
  match env.file_out with
  | some out_size =>
    let r := env.attack_check record ((st.fout_buf.drop st.fout_buf_p).take out_size)
    { st with check_retval := r.1
              fout_buf := write_at st.fout_buf st.fout_buf_p r.2
              checks := st.checks ++ [(record, r.1, r.2)] }
  | none =>
    let r := env.attack_check record []
    { st with check_retval := r.1
              checks := st.checks ++ [(record, r.1, [])] }

/-- The branch "Is the file out buffer full?" once it is taken: the flag of
the answer says whether the inner loop is left through the `break`. -/
def flush_full (env : worker_env) (st : worker_st) :
    Except halt (Bool × worker_st) :=
  if st.out_locked then Except.error halt.deadlock
  else
    let data := st.fout_buf.take (fout_buf_size env)
    let fout_retval := env.out_next_block st.out_calls.length data
    if fout_retval < 0 then
      match set_error st.attk fout_retval E_STATE_OUTPUT_FILE with
      | Except.error h => Except.error h
      | Except.ok a =>
        Except.ok (true, { st with out_locked := true
                                   out_calls := st.out_calls ++ [data]
                                   attk := a
                                   q := queue_stop st.q })
    else
      Except.ok (false, { st with out_locked := false
                                  out_calls := st.out_calls ++ [data]
                                  fout_buf := List.replicate (fout_buf_size env) 0
                                  fout_buf_p := 0 })

/-- The statements "Advance the file out pointer" for a counted record. -/
def sink_step (env : worker_env) (st : worker_st) : Except halt (Bool × worker_st) :=
  match env.file_out with
  | none => Except.ok (false, st)
  | some out_size =>
    if fout_buf_size env ≤ st.fout_buf_p + out_size then
      flush_full env { st with fout_buf_p := st.fout_buf_p + out_size }
    else Except.ok (false, { st with fout_buf_p := st.fout_buf_p + out_size })

/-- The body of the loop over the records of a block, after `record` has
been taken at `buf_p`: the flag says whether the body leaves the loop through
one of its two `break`s, the number is what it adds to `records_tested`.
The copy of a matching record into `result` is shown as that record; it
stays inside the buffer when `result` was allocated with `record_size`
bytes. -/
def record_step (env : worker_env) (st : worker_st) (record : List Nat) :
    Except halt (Bool × Nat × worker_st) :=
  let st1 := check_record env st record
  if st1.check_retval ≠ E_ATTK_RECORD_INVALID then
    match sink_step env st1 with
    | Except.error h => Except.error h
    | Except.ok (true, st2) => Except.ok (true, 1, st2)
    | Except.ok (false, st2) =>
      if st2.check_retval = 0 then Except.ok (true, 1, { st2 with result := record })
      else Except.ok (false, 1, st2)
  else Except.ok (false, 0, st1)

/-- The loop over the records of one block, `while (buf_p < buf_size)`; the
answer holds the local tally `records_tested`. -/
def block_loop (env : worker_env) (buf : List Nat) :
    Nat → Nat → Nat → worker_st → Except halt (Nat × worker_st)
  | 0, _, _, _ => Except.error halt.fuel
  | fuel + 1, buf_p, records_tested, st =>
    if buf_p < buf.length then
      match record_step env st ((buf.drop buf_p).take env.record_size) with
      | Except.error h => Except.error h
      | Except.ok (true, k, st1) => Except.ok (records_tested + k, st1)
      | Except.ok (false, k, st1) =>
        block_loop env buf fuel (buf_p + env.record_size) (records_tested + k) st1
    else Except.ok (records_tested, st)

/-- The main loop of the client thread over the blocks it pops, in the order
it pops them; the list ends where the thread finds the queue stopped. -/
def worker_loop (env : worker_env) : List (List Nat) → worker_st → Except halt worker_st
  | [], st => Except.ok st
  | buf :: rest, st =>
    match block_loop env buf (buf.length + 1) 0 0 st with
    | Except.error h => Except.error h
    | Except.ok (records_tested, st1) =>
      let st2 := { st1 with attk := { st1.attk with _s := { st1.attk._s with
        records_tested := (st1.attk._s.records_tested + records_tested) % 2 ^ 64 } } }
      if env.free_block buf ≠ 0 then
        match set_error st2.attk (env.free_block buf) E_STATE_INPUT_FILE with
        | Except.error h => Except.error h
        | Except.ok a => Except.ok { st2 with attk := a, q := queue_stop st2.q }
      else if st2.check_retval = 0 then Except.ok st2
      else worker_loop env rest st2

/-- The statements "Write out any remaining file output buffer contents". -/
def final_flush (env : worker_env) (st : worker_st) : Except halt worker_st :=
  match env.file_out with
  | none => Except.ok st
  | some _ =>
    if 0 < st.fout_buf_p then
      if st.out_locked then Except.error halt.deadlock
      else
        let data := st.fout_buf.take st.fout_buf_p
        let fout_retval := env.out_next_block st.out_calls.length data
        if fout_retval < 0 then
          match set_error st.attk fout_retval E_STATE_OUTPUT_FILE with
          | Except.error h => Except.error h
          | Except.ok a =>
            Except.ok { st with out_calls := st.out_calls ++ [data]
                                attk := a
                                q := queue_stop st.q }
        else Except.ok { st with out_calls := st.out_calls ++ [data] }
    else Except.ok st

/-- The statements "Set the answer, if we have it", run under the attack
mutex. -/
def install_answer (env : worker_env) (st : worker_st) : worker_st :=
  if st.check_retval = 0 then
    if st.attk._s.result_size = 0 then
      { st with attk := { st.attk with _s := { st.attk._s with
                  result := some st.result, result_size := env.record_size } }
                q := queue_stop st.q }
    else { st with q := queue_stop st.q }
  else st

/-- The part of `attack_client_t` before the answer is set. -/
def worker_body (env : worker_env) (blocks : List (List Nat)) (st : worker_st) :
    Except halt worker_st :=
  match worker_loop env blocks st with
  | Except.error h => Except.error h
  | Except.ok st1 => final_flush env st1

/-- The function `attack_client_t`, on the blocks the thread pops.  When
the output buffer cannot be allocated the `memset` that follows writes
through `NULL`. -/
def attack_client_t (env : worker_env) (blocks : List (List Nat)) (attk : attack_st)
    (q : queue) : Except halt worker_st :=
  if env.file_out ≠ none ∧ block_size env.out_size_start env.records_per_block = none then
    Except.error halt.null_write
  else
    match worker_body env blocks (worker_init env attk q) with
    | Except.error h => Except.error h
    | Except.ok st => Except.ok (install_answer env st)

/-- An attack that is stopped with the 3-byte result "ba". -/
def demo_stopped : attack_st :=
  { _s := { records_tested := 5, total_records := 6, result := some [98, 97, 0],
            result_size := 3 },
    error := 0, e_state := 0, state := ATTACK_STATE_STOPPED }

/-- What holds of a client thread all along its main loop, for input records
taken from `Recs`: while it holds the output mutex after a failed write its
output pointer stays at the end of the buffer; the checker calls recorded
are calls on input records; and when the last checker call answered 0,
either the thread holds the output mutex or `result` is the record of a call
that answered 0. -/
def answer_inv (env : worker_env) (Recs : List (List Nat)) (st : worker_st) : Prop :=
  (∀ S, env.file_out = some S → st.out_locked = true →
      0 < st.fout_buf_p ∧ fout_buf_size env ≤ st.fout_buf_p)
    ∧ (env.file_out = none → st.out_locked = false)
    ∧ (∀ c ∈ st.checks, c.1 ∈ Recs ∧ ∃ s, c.2.1 = (env.attack_check c.1 s).1)
    ∧ (st.check_retval = 0 →
        st.out_locked = true ∨ ∃ c ∈ st.checks, c.2.1 = 0 ∧ st.result = c.1)

/-- A checker for the examples: 0 on the record `[1, 1]`,
`E_ATTK_RECORD_INVALID` on `[9, 9]`, `E_ATTK_RECORD_NO_MATCH` on every other
record; it writes the first byte of the record into a one-byte output slot. -/
def demo_check (record slot : List Nat) : Int × List Nat :=
  (if record = [1, 1] then 0
   else if record = [9, 9] then E_ATTK_RECORD_INVALID
   else E_ATTK_RECORD_NO_MATCH,
   if slot.length = 1 then [record.headD 0] else slot)

/-- Records of two bytes, two per block, a sink with records of one byte
that never fails. -/
def demo_env : worker_env :=
  { record_size := 2, records_per_block := 2, file_out := some 1,
    attack_check := demo_check,
    out_next_block := fun _ data => data.length, free_block := fun _ => 0 }

/-- The attack structure right after `start_attack`. -/
def demo_attk : attack_st :=
  { _s := { records_tested := 0, total_records := 0, result := none, result_size := 0 },
    error := 0, e_state := 0, state := ATTACK_STATE_ACTIVE }

/-- The tally a run of `block_loop` returns, if it comes back. -/
def tally_of : Except halt (Nat × worker_st) → Option Nat
  | Except.ok (n, _) => some n
  | Except.error _ => none

/-! ## Client thread: invariants of the output buffer -/

/-- The output slots of the counted checker calls, in the order of the calls. -/
def counted_slots (checks : List (List Nat × Int × List Nat)) : List (List Nat) :=
  (checks.filter (fun c => decide (c.2.1 ≠ E_ATTK_RECORD_INVALID))).map (fun c => c.2.2)

/-- What holds of the output buffer of a client thread whose sink does not
fail: the thread does not hold the output mutex, and the slots counted so
far are the bytes already handed to the sink followed by the slots `pending`
at the head of the output buffer. -/
def sink_inv (env : worker_env) (S : Nat) (st : worker_st) : Prop :=
  st.out_locked = false
    ∧ st.fout_buf.length = S * env.records_per_block
    ∧ (∀ s ∈ counted_slots st.checks, s.length = S)
    ∧ ∃ pending : List (List Nat),
        (∀ s ∈ pending, s.length = S)
        ∧ st.fout_buf_p = S * pending.length
        ∧ pending.length < env.records_per_block
        ∧ st.fout_buf.take st.fout_buf_p = pending.flatten
        ∧ st.out_calls.flatten ++ pending.flatten = (counted_slots st.checks).flatten

/-- The attack structure after the client threads whose final variables are
`ws` have run the statements that set the answer, one after the other. -/
def install_all (env : worker_env) (a : attack_st) : List worker_st → attack_st
  | [] => a
  | w :: ws => install_all env (install_answer env { w with attk := a }).attk ws

/-- The client thread of `demo_env` with a sink whose records have size 0
and whose `next_block` fails. -/
def zero_sink_env : worker_env :=
  { record_size := 2, records_per_block := 2, file_out := some 0,
    attack_check := demo_check,
    out_next_block := fun _ _ => E_ATTK_SYSTEM, free_block := fun _ => 0 }

/-- Two blocks, of four and of three records; the checker `demo_check`
answers 0 on the second record of the second block. -/
def demo_recss : List (List (List Nat)) :=
  [[[3, 3], [9, 9], [4, 4], [5, 5]], [[6, 6], [1, 1], [7, 7]]]

/-- The variables of the client thread of `demo_env` on `demo_recss` when it
reaches the statements that set the answer. -/
def demo_body_st : worker_st :=
  { fout_buf := [1, 0], fout_buf_p := 1, check_retval := 0, result := [1, 1],
    out_locked := false,
    attk := { _s := { records_tested := 5, total_records := 0, result := none,
                      result_size := 0 },
              error := 0, e_state := 0, state := ATTACK_STATE_ACTIVE },
    q := queue_init,
    out_calls := [[3, 4], [5, 6], [1]],
    checks := [([3, 3], -4, [3]), ([9, 9], -3, [9]), ([4, 4], -4, [4]), ([5, 5], -4, [5]),
               ([6, 6], -4, [6]), ([1, 1], 0, [1])] }

/-- The `errno` value "no such file or directory". -/
def ENOENT : Nat := 2

/-- Magic number of a record file (`read_file.h`). -/
def READ_FILE_MAGIC : Nat := 0x11BA77AC

/-- An open descriptor of a regular file: the bytes of the file and the
file offset. -/
structure fd_st where
  data : List Nat
  pos : Nat
deriving DecidableEq, Repr

/-- The call `open(path, ...)` of a file that has to exist: `fp` is the
descriptor the system hands out when it opens the file, negative when it
refuses; `disk` is the content of the file, `none` when there is no file. -/
def sys_open (fp : Int) (disk : Option (List Nat)) : Int :=
  if disk = none then -1 else fp

/-- The call `read(fd, &field, n)` on a field of `n` bytes, its return value
not looked at: the bytes the file holds at the offset are stored at the
start of `field`. -/
def read_into (fd : fd_st) (field : List Nat) (n : Nat) : fd_st × List Nat :=
  let got := (fd.data.drop fd.pos).take n
  ({ fd with pos := fd.pos + got.length }, (write_at field 0 got).take n)

/-- The value `ntohl(x)` of a 32-bit object whose bytes in memory are `b`. -/
def ntohl (b : List Nat) : Nat :=
  ((b.getD 0 0 * 256 + b.getD 1 0) * 256 + b.getD 2 0) * 256 + b.getD 3 0

/-- The value `ntohs(x)` of a 16-bit object whose bytes in memory are `b`. -/
def ntohs (b : List Nat) : Nat := b.getD 0 0 * 256 + b.getD 1 0

/-- The bytes in memory of `htonl(n)`. -/
def htonl (n : Nat) : List Nat := [n / 2 ^ 24 % 256, n / 2 ^ 16 % 256, n / 2 ^ 8 % 256, n % 256]

/-- The bytes in memory of `htons(n)`. -/
def htons (n : Nat) : List Nat := [n / 2 ^ 8 % 256, n % 256]

/-- The call `strlen` on a character array: the offset of its first NUL (the
size of the array when it holds none). -/
def c_strlen (field : List Nat) : Nat := field.indexOf 0

/-- The string a character array holds: its bytes in front of the first NUL. -/
def c_str (field : List Nat) : List Nat := field.take (c_strlen field)

/-- The structure `read_file_header_st`, each field as its bytes in memory. -/
structure read_file_header_st where
  magic : List Nat
  description : List Nat
  file_order : List Nat
  record_size : List Nat
  reserved : List Nat
deriving DecidableEq, Repr

/-- A header after `memset(&header, 0, sizeof(read_file_header_st))`. -/
def header_zero : read_file_header_st :=
  { magic := List.replicate 4 0, description := List.replicate 256 0,
    file_order := List.replicate 4 0, record_size := List.replicate 2 0,
    reserved := List.replicate 2 0 }

/-- The five `read` calls that fill a header from a file that was just
opened; the four of `read_file_init` leave `reserved` as it is. -/
def read_header (with_reserved : Bool) (content : List Nat) (header : read_file_header_st) :
    fd_st × read_file_header_st :=
  let fd0 : fd_st := { data := content, pos := 0 }
  let r1 := read_into fd0 header.magic 4
  let r2 := read_into r1.1 header.description 256
  let r3 := read_into r2.1 header.file_order 4
  let r4 := read_into r3.1 header.record_size 2
  let r5 := if with_reserved then read_into r4.1 header.reserved 2 else (r4.1, header.reserved)
  (r5.1, { magic := r1.2, description := r2.2, file_order := r3.2, record_size := r4.2,
           reserved := r5.2 })

/-! ## `write_file.c` -/

/-- Private data of the sink (`write_file_data_st`). -/
structure write_file_data_st where
  fp : Int
  description : List Nat
  file_order : Nat
deriving DecidableEq, Repr

/-- The fields of `file_st` the sink uses. -/
structure sink_file_st where
  record_size : Nat
  file_data : write_file_data_st
deriving DecidableEq, Repr

/-- The function `write_file_init`.  The description is copied over
`strlen(file_description)` bytes into the zeroed 256-byte field. -/
def write_file_init (file_description : List Nat) (file_order record_size : Nat) :
    sink_file_st :=
  { record_size := record_size % 2 ^ 16
    file_data := { fp := 0
                   description := write_at (List.replicate 256 0) 0 file_description
                   file_order := file_order % 2 ^ 32 } }

/-- The header `write_open_file` writes into a file it creates. -/
def fresh_header (file : sink_file_st) : read_file_header_st :=
  { header_zero with
    magic := htonl READ_FILE_MAGIC
    description := memcpy header_zero.description file.file_data.description 255
    file_order := htonl file.file_data.file_order
    record_size := htons file.record_size }

/-- The branch "File already exists, open the file" of `write_open_file`,
up to the end of the function: `fp` is the descriptor `open` hands out,
`disk` the content of the file at `file_path` (`none`: no such file).  The
answer holds the return value, the file structure and the content of the
file after the call; after a return of 0 the file offset is at the end of
the file. -/
def write_open_existing (fp : Int) (disk : Option (List Nat)) (file : sink_file_st) :
    Int × sink_file_st × Option (List Nat) :=
  if sys_open fp disk < 0 then (E_ATTK_SYSTEM, file, disk)
  else
    let header := (read_header true (disk.getD []) header_zero).2
    let file1 := if file.record_size ≤ ntohs header.record_size
                 then { file with record_size := ntohs header.record_size } else file
    if ntohl header.magic ≠ READ_FILE_MAGIC then (E_ATTK_FILE_INVALID, file1, disk)
    else if ntohl header.file_order ≠ file.file_data.file_order then
      (E_ATTK_FILE_INVALID, file1, disk)
    else if ntohs header.record_size < file1.record_size then
      (E_ATTK_RECORD_SIZE_INVALID, file1, disk)
    else if c_strlen header.description ≠ c_strlen file.file_data.description then
      (E_ATTK_FILE_INVALID, file1, disk)
    else if header.description.take (c_strlen header.description)
        ≠ file.file_data.description.take (c_strlen header.description) then
      (E_ATTK_FILE_INVALID, file1, disk)
    else (0, { file1 with file_data := { file1.file_data with fp := fp } }, disk)

/-- The function `write_open_file`.  `errno` is the value the variable holds
when the function is entered, `fp` the descriptor `open` hands out, `disk`
the content of the file at `file_path` (`none`: no such file).  The answer
holds the return value, the file structure and the content of the file after
the call; after a return of 0 the file offset is at the end of the file.
The header writes are taken to store all their bytes.  The function tests
`errno`, which a `stat` that succeeds leaves as it was. -/
def write_open_file (errno : Nat) (fp : Int) (disk : Option (List Nat)) (file : sink_file_st) :
    Int × sink_file_st × Option (List Nat) :=
  let errno1 := if disk = none then ENOENT else errno
  if errno1 = ENOENT then
    if fp < 0 then (E_ATTK_SYSTEM, file, disk)
    else
      let header := fresh_header file
      (0, { file with file_data := { file.file_data with fp := fp } },
        some (header.magic ++ header.description ++ header.file_order ++ header.record_size
          ++ header.reserved))
  else write_open_existing fp disk file

/-- The loop of `write_next_block`.  `w k` is what the `k`-th call of `write`
answers: negative for a failure, else the number of bytes it accepts (never
more than it is offered).  The file offset is at the end of the file, so the
accepted bytes are appended to `disk`. -/
def write_loop (w : Nat → Int) (buf : List Nat) (buf_size : Nat) :
    Nat → Nat → Nat → List Nat → Option (Int × List Nat)
  | 0, _, _, _ => none
  | fuel + 1, written, counter, disk =>
    if written < buf_size then
      if 0 ≤ w counter then
        let n := min (w counter).toNat (buf_size - written)
        let disk1 := disk ++ (buf.drop written).take n
        if counter + 1 > buf_size then some (E_ATTK_SYSTEM, disk1)
        else write_loop w buf buf_size fuel (written + n) (counter + 1) disk1
      else some (E_ATTK_SYSTEM, disk)
    else some (written, disk)

/-- The function `write_next_block`: the return value and the content of the
file after the call. -/
def write_next_block (w : Nat → Int) (file : sink_file_st) (disk : List Nat) (buf : List Nat)
    (buf_size : Nat) : Except halt (Int × List Nat) :=
  if file.file_data.fp > 0 then
    match write_loop w buf buf_size (buf_size + 2) 0 0 disk with
    | some r => Except.ok r
    | none => Except.error halt.fuel
  else Except.error halt.assertion

/-! ## `read_file.c` -/

/-- Private data of the record-file source (`read_file_data_st`). -/
structure read_file_data_st where
  fp : Int
  description : List Nat
  file_order : Nat
  skip_records : Nat
  max_records : Nat
  current_record : Nat
deriving DecidableEq, Repr

/-- The fields of `file_st` the record-file source uses. -/
structure record_file_st where
  record_size : Nat
  records_per_block : Nat
  total_records : Nat
  file_data : read_file_data_st
deriving DecidableEq, Repr

/-- The function `read_file_init`.  `junk` holds the bytes that follow the
NUL of `file_description` in memory (the `memcpy` takes 255 bytes whatever
the length of the string), `header0` the header on the stack before it is
read; with no file to open the reads store nothing. -/
def read_file_init (junk : List Nat) (header0 : read_file_header_st) (records_per_block : Nat)
    (fp : Int) (disk : Option (List Nat)) (file_description : List Nat)
    (skip_records count_records : Nat) : record_file_st :=
  let header := if sys_open fp disk < 0 then header0
                else (read_header false (disk.getD []) header0).2
  { record_size := ntohs header.record_size
    records_per_block := records_per_block
    total_records := 0
    file_data := { fp := 0
                   description := write_at (List.replicate 256 0) 0
                     ((file_description ++ [0] ++ junk).take 255)
                   file_order := ntohl header.file_order
                   skip_records := skip_records % 2 ^ 64
                   max_records := count_records % 2 ^ 64
                   current_record := 0 } }

/-- The function `read_open_file`: the return value, the file structure and
the descriptor it leaves open.  `header0` is the header on the stack before
it is read, `fstat_ret` the return value of `fstat`.  The `lseek64` for
`skip_records` is made on the descriptor number still stored in the private
data, not on the file just opened, whose offset it leaves alone. -/
def read_open_file (header0 : read_file_header_st) (fp fstat_ret : Int)
    (disk : Option (List Nat)) (file : record_file_st) :
    Except halt (Int × record_file_st × fd_st) :=
  let fd0 : fd_st := { data := disk.getD [], pos := 0 }
  if sys_open fp disk < 0 then Except.ok (E_ATTK_SYSTEM, file, fd0)
  else
    let r := read_header true (disk.getD []) header0
    let header := r.2
    let file1 := { file with record_size := ntohs header.record_size }
    if ntohl header.magic ≠ READ_FILE_MAGIC then Except.ok (E_ATTK_FILE_INVALID, file1, r.1)
    else if ntohl header.file_order ≠ file.file_data.file_order then
      Except.ok (E_ATTK_FILE_INVALID, file1, r.1)
    else if c_strlen header.description ≠ c_strlen file.file_data.description then
      Except.ok (E_ATTK_FILE_INVALID, file1, r.1)
    else if header.description.take (c_strlen header.description)
        ≠ file.file_data.description.take (c_strlen header.description) then
      Except.ok (E_ATTK_FILE_INVALID, file1, r.1)
    else if file.file_data.max_records = 0 then
      if fstat_ret = -1 then Except.ok (E_ATTK_SYSTEM, file1, r.1)
      else if file1.record_size = 0 then Except.error halt.division
      else
        Except.ok (0, { file1 with
          total_records := (disk.getD []).length / file1.record_size
          file_data := { file1.file_data with fp := fp } }, r.1)
    else
      Except.ok (0, { file1 with total_records := file.file_data.max_records
                                 file_data := { file1.file_data with fp := fp } }, r.1)

/-- The statements "Calculate buffer size" of `read_next_block`: the number
of bytes it asks `read` for, `none` when the block it allocates is `NULL`.
The product with the records left is taken in `uint64_t`, the product with
`records_per_block` in `int`. -/
def read_request (file : record_file_st) (buf_size : Nat) : Option Nat :=
  if buf_size = 0 then
    if file.file_data.max_records > 0
        ∧ file.file_data.max_records < file.records_per_block + file.file_data.current_record
    then some (file.record_size
      * (file.file_data.max_records - file.file_data.current_record) % 2 ^ 64)
    else block_size file.record_size file.records_per_block
  else some ((buf_size / file.record_size) * file.record_size)

/-- The function `read_next_block`: the return value, the file structure,
the descriptor and the bytes stored in the block.  `k` is what the `read`
call answers: negative for a failure, else the number of bytes it delivers
(never more than asked for, nor than the file holds).  Into a `NULL` block
the `read` stores nothing: it fails when it has bytes to deliver and answers
0 at the end of the file.  The function fails an assertion when `fp` is not
positive and divides by the record size. -/
def read_next_block (k : Int) (file : record_file_st) (fd : fd_st) (buf_size : Nat) :
    Except halt (Int × record_file_st × fd_st × List Nat) :=
  let rf := file.file_data
  if rf.fp > 0 then
    if file.record_size = 0 then Except.error halt.division
    else
      let failed : Except halt (Int × record_file_st × fd_st × List Nat) :=
        Except.ok (-1, { file with file_data := { rf with current_record :=
          (rf.current_record + (2 ^ 64 - 1) / file.record_size) % 2 ^ 64 } }, fd, [])
      match read_request file buf_size with
      | none =>
        if k < 0 ∨ fd.pos < fd.data.length then failed
        else
          Except.ok (0, { file with file_data := { rf with current_record :=
            rf.current_record % 2 ^ 64 } }, fd, [])
      | some request =>
        if k < 0 then failed
        else
          let got := ((fd.data.drop fd.pos).take request).take k.toNat
          Except.ok (got.length,
            { file with file_data := { rf with current_record :=
                (rf.current_record + got.length / file.record_size) % 2 ^ 64 } },
            { fd with pos := fd.pos + got.length }, got)
  else Except.error halt.assertion

/-- Repeated `read_next_block` calls with `buf_size == 0` up to the first
block that is not of positive length; `ks i` is what the `read` of the
`i`-th call answers.  The answer holds the last return value and the blocks
of positive length, in order. -/
def read_drain (ks : Nat → Int) : Nat → Nat → record_file_st → fd_st →
    Except halt (Int × List (List Nat))
  | 0, _, _, _ => Except.error halt.fuel
  | fuel + 1, i, file, fd =>
    match read_next_block (ks i) file fd 0 with
    | Except.error h => Except.error h
    | Except.ok (ret, file1, fd1, block) =>
      if ret ≤ 0 then Except.ok (ret, [])
      else
        match read_drain ks fuel (i + 1) file1 fd1 with
        | Except.error h => Except.error h
        | Except.ok (last, rest) => Except.ok (last, block :: rest)

/-- Successive `write_next_block` calls, one for each buffer of `bufs`, on a
file whose `write` stores all the bytes it is offered: the return values and
the content of the file after the calls. -/
def write_blocks (file : sink_file_st) : List (List Nat) → List Nat →
    Except halt (List Int × List Nat)
  | [], disk => Except.ok ([], disk)
  | buf :: bufs, disk =>
    match write_next_block (fun _ => (buf.length : Int)) file disk buf buf.length with
    | Except.error h => Except.error h
    | Except.ok (ret, disk1) =>
      match write_blocks file bufs disk1 with
      | Except.error h => Except.error h
      | Except.ok (rets, disk2) => Except.ok (ret :: rets, disk2)

/-- A `write` that stores nothing at its first call and one byte at each
later call. -/
def stall_once (k : Nat) : Int := if k = 0 then 0 else 1

/-! ## `read_word_list.c` -/

/-- Size of the read buffer of `find_max_line_len`. -/
def BUFFSIZE : Nat := 256

/-- A stdio stream open for reading: the bytes of the file, the position and
the end-of-file indicator. -/
structure FILE where
  data : List Nat
  pos : Nat
  eof : Bool
deriving DecidableEq, Repr

/-- The call `fopen(path, "r")`; `NULL` when there is no file. -/
def fopen (disk : Option (List Nat)) : Option FILE :=
  disk.map (fun data => { data := data, pos := 0, eof := false })

/-- What `fgets` takes from the bytes in front of it when it may store `n`
characters: the characters, through the first newline at most, and whether
it ran into the end of the file. -/
def fgets_chars : Nat → List Nat → List Nat × Bool
  | 0, _ => ([], false)
  | _ + 1, [] => ([], true)
  | n + 1, c :: cs =>
    if c = 10 then ([c], false)
    else (c :: (fgets_chars n cs).1, (fgets_chars n cs).2)

/-- The calls `memset(buf, 0, size); fgets(buf, size, fp);`: the stream and
the `size` bytes of the buffer after them. -/
def fgets (size : Nat) (fp : FILE) : FILE × List Nat :=
  let r := fgets_chars (size - 1) (fp.data.drop fp.pos)
  ({ fp with pos := fp.pos + r.1.length, eof := fp.eof || r.2 },
    r.1 ++ List.replicate (size - r.1.length) 0)

/-- The byte `*(buffer + strlen(buffer) - 1)`; for an empty string this is
`pre`, the byte in front of the buffer. -/
def last_char (pre : Nat) (buffer : List Nat) : Nat :=
  if c_strlen buffer = 0 then pre else buffer.getD (c_strlen buffer - 1) 0

/-- The loop of `find_max_line_len`; the answer holds the buffer, `curr_len`
and `max_len` when `feof` ends the loop. -/
def max_line_loop (pre : Nat) : Nat → FILE → List Nat → Nat → Nat →
    Option (List Nat × Nat × Nat)
  | 0, _, _, _, _ => none
  | fuel + 1, fp, buffer, curr_len, max_len =>
    if fp.eof = false then
      let r := fgets BUFFSIZE fp
      let curr_len1 := curr_len + c_strlen r.2
      if last_char pre r.2 = 10 then
        max_line_loop pre fuel r.1 r.2 0 (if curr_len1 > max_len then curr_len1 - 1 else max_len)
      else max_line_loop pre fuel r.1 r.2 curr_len1 max_len
    else some (buffer, curr_len, max_len)

/-- The statements of `find_max_line_len` after its loop: the final value of
`max_len`. -/
def max_line_end (pre : Nat) (buffer : List Nat) (curr_len max_len : Nat) : Nat :=
  if last_char pre buffer = 10 then (if curr_len > max_len then curr_len - 1 else max_len)
  else (if curr_len > max_len then curr_len else max_len)

/-- The function `find_max_line_len`, a `size_t`: `E_ATTK_SYSTEM` is
`2 ^ 64 - 1` there.  `pre` is the byte in front of `buffer` on the stack.
The buffer is not looked at before the first `fgets` has filled it. -/
def find_max_line_len (pre : Nat) (disk : Option (List Nat)) : Option Nat :=
  match fopen disk with
  | none => some (2 ^ 64 - 1)
  | some fp =>
    match max_line_loop pre (fp.data.length + 2) fp [] 0 0 with
    | none => none
    | some (buffer, curr_len, max_len) => some (max_line_end pre buffer curr_len max_len)

/-- Private data of the word-list source (`read_wl_data_st`); `none` is
`NULL`. -/
structure read_wl_data_st where
  fp : Option FILE
deriving DecidableEq, Repr

/-- The fields of `file_st` the word-list source uses, and `total_records`,
which the `memset` of `read_word_list_init` clears and no statement of
`read_word_list.c` assigns: it is 0 wherever it is not written out. -/
structure wordlist_file_st where
  record_size : Nat
  records_per_block : Nat
  file_data : read_wl_data_st
  total_records : Nat := 0
deriving DecidableEq, Repr

/-- The function `read_word_list_init`. -/
def read_word_list_init (records_per_block record_size : Nat) : wordlist_file_st :=
  { record_size := record_size % 2 ^ 16
    records_per_block := records_per_block
    file_data := { fp := none }
    total_records := 0 }

/-- The function `read_wl_open_file`.  The `size_t` of `find_max_line_len`
is stored in an `int` and compared with `E_ATTK_SYSTEM`; `record_size` is a
`uint16_t`. -/
def read_wl_open_file (pre : Nat) (disk : Option (List Nat)) (file : wordlist_file_st) :
    Option (Int × wordlist_file_st) :=
  let sized : Option (Option wordlist_file_st) :=
    if file.record_size = 0 then
      match find_max_line_len pre disk with
      | none => none
      | some retval =>
        if retval % 2 ^ 32 = 2 ^ 32 - 1 then some none
        else some (some { file with record_size := (retval + 1) % 2 ^ 16 })
    else some (some file)
  match sized with
  | none => none
  | some none => some (E_ATTK_SYSTEM, file)
  | some (some file1) =>
    match fopen disk with
    | none => some (E_ATTK_SYSTEM, file1)
    | some fp => some (0, { file1 with file_data := { fp := some fp } })

/-- The loop "Read in words" of `read_wl_next_block`: `pre` is the byte in
front of `read_buf` (the string is cut by a write at `strlen - 1`, which
hits that byte when the string is empty), `curr` the offset `curr_buf_p -
buffer`, `out` the slots written so far.  The answer holds the return value
of the function. -/
def read_wl_loop (record_size buf_size : Nat) :
    Nat → Nat → Nat → FILE → List (List Nat) → Option (Int × FILE × List (List Nat))
  | 0, _, _, _, _ => none
  | fuel + 1, pre, curr, fp, out =>
    if curr < buf_size then
      if fp.eof then some ((curr : Int), fp, out)
      else
        let r := fgets (record_size + 1) fp
        if last_char pre r.2 ≠ 10 ∧ r.1.eof = false then
          some (E_ATTK_RECORD_SIZE_INVALID, r.1, out)
        else
          let pre1 := if c_strlen r.2 = 0 then 0 else pre
          let read_buf := if c_strlen r.2 = 0 then r.2 else r.2.set (c_strlen r.2 - 1) 0
          if c_strlen read_buf > 0 then
            read_wl_loop record_size buf_size fuel pre1 (curr + record_size) r.1
              (out ++ [read_buf.take record_size])
          else read_wl_loop record_size buf_size fuel pre1 curr r.1 out
    else some ((curr : Int), fp, out)

/-- The function `read_wl_next_block`: the return value, the file structure
and the slots written into the block.  When the block it allocates is
`NULL` the loop runs up to the size the negative product is as a `size_t`,
and the first slot it copies is written through `NULL`. -/
def read_wl_next_block (pre : Nat) (file : wordlist_file_st) (buf_size : Nat) :
    Except halt (Int × wordlist_file_st × List (List Nat)) :=
  match file.file_data.fp with
  | none => Except.error halt.assertion
  | some fp =>
    if buf_size ≠ 0 ∧ file.record_size = 0 then Except.error halt.division
    else
      let sized : Option Nat :=
        if buf_size = 0 then block_size file.record_size file.records_per_block
        else some ((buf_size / file.record_size) * file.record_size)
      match sized with
      | none =>
        match read_wl_loop file.record_size
          (2 ^ 64 - (2 ^ 32 - file.record_size * file.records_per_block % 2 ^ 32))
          (fp.data.length - fp.pos + 2) pre 0 fp [] with
        | none => Except.error halt.fuel
        | some (ret, fp1, []) =>
          Except.ok (ret, { file with file_data := { fp := some fp1 } }, [])
        | some (_, _, _ :: _) => Except.error halt.null_write
      | some size =>
        match read_wl_loop file.record_size size (fp.data.length - fp.pos + 2) pre 0 fp [] with
        | none => Except.error halt.fuel
        | some (ret, fp1, out) =>
          Except.ok (ret, { file with file_data := { fp := some fp1 } }, out)

/-- Repeated `read_wl_next_block` calls with `buf_size == 0` up to the first
block that is not of positive length: the last return value and the records
of the blocks, in order. -/
def read_wl_drain (pre : Nat) : Nat → wordlist_file_st → Except halt (Int × List (List Nat))
  | 0, _ => Except.error halt.fuel
  | fuel + 1, file =>
    match read_wl_next_block pre file 0 with
    | Except.error h => Except.error h
    | Except.ok (ret, file1, out) =>
      if ret ≤ 0 then Except.ok (ret, [])
      else
        match read_wl_drain pre fuel file1 with
        | Except.error h => Except.error h
        | Except.ok (last, rest) => Except.ok (last, out ++ rest)

/-! ## Word lists: the lines of a text -/

/-- The lines of a text: the runs of bytes between its newlines; the last
one is what follows the last newline. -/
def text_lines : List Nat → List (List Nat)
  | [] => [[]]
  | c :: cs =>
    if c = 10 then [] :: text_lines cs
    else
      match text_lines cs with
      | [] => [[c]]
      | l :: ls => (c :: l) :: ls

/-- The text made of the lines `ls`, each followed by its newline. -/
def unlines (ls : List (List Nat)) : List Nat := (ls.map (fun l => l ++ [10])).flatten

/-- The lines that are not empty. -/
def words (ls : List (List Nat)) : List (List Nat) := ls.filter (fun l => decide (l ≠ []))

/-- The generating loop of `bf_next_block` on the bytes of the block: each
pass copies `strlen(last)` bytes to `buf_p` and moves `buf_p` on by one
slot. -/
def bf_fill_loop (alphabet end_ : List Nat) (record_size buf_size : Nat) :
    Nat → Nat → List Nat → List Nat → Option (Nat × List Nat × List Nat)
  | 0, _, _, _ => none
  | fuel + 1, buf_p, last, buffer =>
    if buf_p < buf_size then
      match bf_succ alphabet end_ last with
      | none => some (buf_p, last, buffer)
      | some next =>
        bf_fill_loop alphabet end_ record_size buf_size fuel (buf_p + record_size) next
          (write_at buffer buf_p next)
    else some (buf_p, last, buffer)

/-- The function `bf_next_block` for both ways of calling it: with
`buf_size == 0` it allocates and clears the block, else it rounds `buf_size`
down and writes into the bytes `buf` of the caller.  The answer holds the
file structure, the bytes of the block and the return value. -/
def bf_next_block_buf (file : file_st) (buf : List Nat) (buf_size : Nat) :
    Except halt (file_st × List Nat × Nat) :=
  if buf_size ≠ 0 ∧ file.record_size = 0 then Except.error halt.division
  else
    let sized : Option Nat :=
      if buf_size = 0 then block_size file.record_size file.records_per_block
      else some ((buf_size / file.record_size) * file.record_size)
    match sized with
    | none => Except.error halt.null_write
    | some size =>
      let bf := file.file_data
      let buffer := if buf_size = 0 then List.replicate size 0 else buf
      let first := decide (bf.last.length = 0)
      let last0 := if first then bf.start else bf.last
      let buffer0 := if first then write_at buffer 0 last0 else buffer
      let buf_p0 := if first then file.record_size else 0
      match bf_fill_loop bf.alphabet bf.end_ file.record_size size (size + 1) buf_p0 last0
        buffer0
      with
      | none => Except.error halt.fuel
      | some (buf_p, last, block) =>
        Except.ok ({ file with file_data := { bf with last := last } }, block, buf_p)

/-- The source for alphabet "ab", start "a", end "bb", two records per
block, as `brute_force_init` leaves it. -/
def demo_bf : file_st :=
  { record_size := 3, records_per_block := 2, total_records := 0,
    file_data := { start := [97], end_ := [98, 98], alphabet := [97, 98], last := [] } }

/-! ## `libattkthread.c`: the main thread -/

/-- What the main thread is given.  `asserts` is false when the library is
compiled with `NDEBUG`.  `in_open`, `in_close`, `in_next n` and `in_free n`
are the return values of the input file's `open_file`, `close_file`, of its
`n`-th `next_block` and of its `n`-th `free_block` call in this thread,
`in_total` the `total_records` it holds after `open_file`; `file_out` holds
the return values of `open_file` and `close_file` of the output file (`none`
for `NULL`).  `clients t` is what the client threads have done to the attack
structure and to the queue when the main thread looks at them for the
`t`-th time. -/
structure feeder_env where
  asserts : Bool
  in_open : Int
  in_total : Nat
  in_next : Nat → Int
  in_free : Nat → Int
  in_close : Int
  file_out : Option (Int × Int)
  clients : Nat → attack_st × queue → attack_st × queue

/-- The variables of `attack_main_t` and what it shares: the attack
structure, the queue, the number of `next_block` and `free_block` calls made
and of looks taken at the shared data. -/
structure feeder_st where
  attk : attack_st
  q : queue
  nexts : Nat
  frees : Nat
  looks : Nat
deriving DecidableEq, Repr

/-- The main thread comes to a place where it reads or locks shared data:
the client threads have run in between. -/
def feeder_look (env : feeder_env) (s : feeder_st) : feeder_st :=
  { s with attk := (env.clients s.looks (s.attk, s.q)).1
           q := (env.clients s.looks (s.attk, s.q)).2
           looks := s.looks + 1 }

/-- The statements "Set an error" of the main thread: the assertion, when
it is compiled in, and the two assignments. -/
def feeder_set_error (env : feeder_env) (s : feeder_st) (err : Int) (stage : Nat) :
    Except halt feeder_st :=
  if env.asserts then
    match set_error s.attk err stage with
    | Except.error h => Except.error h
    | Except.ok a => Except.ok { s with attk := a }
  else Except.ok { s with attk := { s.attk with error := err, e_state := stage } }

/-- The function `stop_attack`. -/
def stop_attack (a : attack_st) : attack_st :=
  if a.state ≠ ATTACK_STATE_STOPPED then { a with state := ATTACK_STATE_STOPPING } else a

/-- The value of a `uint64_t` stored in an `int` and added to a `uint64_t`. -/
def add_int_of (total t : Nat) : Nat :=
  if t % 2 ^ 32 < 2 ^ 31 then (total + t % 2 ^ 32) % 2 ^ 64
  else (total + 2 ^ 64 - (2 ^ 32 - t % 2 ^ 32)) % 2 ^ 64

/-- The statements "Open the input file" and "Open the output file": the
two return values and the state after them. -/
def feeder_open (env : feeder_env) (s : feeder_st) : Except halt (Int × Int × feeder_st) :=
  let s1 := feeder_look env s
  let r1 : Except halt feeder_st :=
    if env.in_open ≠ 0 then
      match feeder_set_error env s1 env.in_open E_STATE_INPUT_FILE with
      | Except.error h => Except.error h
      | Except.ok s2 => Except.ok { s2 with attk := stop_attack s2.attk }
    else
      Except.ok { s1 with attk := { s1.attk with _s := { s1.attk._s with
        total_records := add_int_of s1.attk._s.total_records env.in_total } } }
  match r1 with
  | Except.error h => Except.error h
  | Except.ok s2 =>
    let s3 := feeder_look env s2
    match env.file_out with
    | some (out_open, _) =>
      if s3.attk.state = ATTACK_STATE_ACTIVE then
        if out_open ≠ 0 then
          match feeder_set_error env s3 out_open E_STATE_OUTPUT_FILE with
          | Except.error h => Except.error h
          | Except.ok s4 => Except.ok (env.in_open, out_open, { s4 with attk := stop_attack s4.attk })
        else Except.ok (env.in_open, out_open, s3)
      else Except.ok (env.in_open, 0, s3)
    | none => Except.ok (env.in_open, 0, s3)

/-- The loop that waits for room in the queue, the queue mutex held between
two waits only by the client threads. -/
def feeder_wait (env : feeder_env) : Nat → feeder_st → Except halt feeder_st
  | 0, _ => Except.error halt.fuel
  | fuel + 1, s =>
    if s.q.full ≠ 0 ∧ s.q.state = QUEUE_STATE_ACTIVE then feeder_wait env fuel (feeder_look env s)
    else Except.ok s

/-- The loop "Add blocks to the queue". -/
def feeder_loop (env : feeder_env) : Nat → feeder_st → Except halt feeder_st
  | 0, _ => Except.error halt.fuel
  | fuel + 1, s0 =>
    let s := feeder_look env s0
    if s.attk.state = ATTACK_STATE_ACTIVE then
      let buf_size := env.in_next s.nexts
      let s1 := { s with nexts := s.nexts + 1 }
      if buf_size < 0 then feeder_set_error env (feeder_look env s1) buf_size E_STATE_INPUT_FILE
      else if buf_size = 0 then Except.ok s1
      else
        match feeder_wait env fuel (feeder_look env s1) with
        | Except.error h => Except.error h
        | Except.ok s2 =>
          if s2.q.state ≠ QUEUE_STATE_ACTIVE then
            let free_block_retval := env.in_free s2.frees
            let s3 := { s2 with frees := s2.frees + 1 }
            if free_block_retval ≠ 0 then
              feeder_set_error env (feeder_look env s3) free_block_retval E_STATE_INPUT_FILE
            else Except.ok s3
          else
            match queue_push s2.q (s1.nexts) buf_size.toNat with
            | none => Except.error halt.assertion
            | some q1 => feeder_loop env fuel { s2 with q := q1 }
    else Except.ok s

/-- The loops `while (q->empty == 0)` that hand the blocks left in the queue
back to the input file. -/
def feeder_clear (env : feeder_env) : Nat → feeder_st → Except halt feeder_st
  | 0, _ => Except.error halt.fuel
  | fuel + 1, s =>
    if s.q.empty = 0 then
      match queue_pop s.q with
      | none => Except.error halt.assertion
      | some (q1, _, _) =>
        let free_block_retval := env.in_free s.frees
        let s1 := { s with q := q1, frees := s.frees + 1 }
        if free_block_retval ≠ 0 then
          match feeder_set_error env (feeder_look env s1) free_block_retval E_STATE_INPUT_FILE with
          | Except.error h => Except.error h
          | Except.ok s2 => feeder_clear env fuel s2
        else feeder_clear env fuel s1
    else Except.ok s

/-- The statements "Close the input file" and "Close the output file". -/
def feeder_close (env : feeder_env) (in_file_retval out_file_retval : Int) (s : feeder_st) :
    Except halt feeder_st :=
  let r1 : Except halt feeder_st :=
    if in_file_retval = 0 then
      if env.in_close ≠ 0 then feeder_set_error env s env.in_close E_STATE_INPUT_FILE
      else Except.ok s
    else Except.ok s
  match r1 with
  | Except.error h => Except.error h
  | Except.ok s1 =>
    match env.file_out with
    | some (_, out_close) =>
      if out_file_retval = 0 then
        if out_close ≠ 0 then feeder_set_error env s1 out_close E_STATE_OUTPUT_FILE
        else Except.ok s1
      else Except.ok s1
    | none => Except.ok s1

/-- The function `attack_main_t` from "Open the input file" through "Close
the output file": the attack structure the callback is then given. -/
def attack_main_body (env : feeder_env) (fuel : Nat) (attk : attack_st) :
    Except halt attack_st :=
  let s0 : feeder_st := { attk := attk, q := queue_init, nexts := 0, frees := 0, looks := 0 }
  match feeder_open env s0 with
  | Except.error h => Except.error h
  | Except.ok (in_file_retval, out_file_retval, s1) =>
    match feeder_loop env fuel s1 with
    | Except.error h => Except.error h
    | Except.ok s2 =>
      let s3 := feeder_look env s2
      let s4 := { s3 with attk := stop_attack s3.attk }
      let s5 := feeder_look env s4
      let s6 := { s5 with q := queue_stop s5.q }
      let s7 := feeder_look env s6
      let cleared : Except halt feeder_st :=
        if s7.attk._s.result_size > 0 then feeder_clear env fuel s7 else Except.ok s7
      match cleared with
      | Except.error h => Except.error h
      | Except.ok s8 =>
        -- the client threads are joined
        match feeder_clear env fuel (feeder_look env s8) with
        | Except.error h => Except.error h
        | Except.ok s9 =>
          match feeder_close env in_file_retval out_file_retval s9 with
          | Except.error h => Except.error h
          | Except.ok s10 => Except.ok s10.attk

/-- The function `attack_main_t` of an attack with at most `MAX_THREADS`
client threads and a callback that comes back and leaves the attack
structure alone: the attack structure when the thread ends. -/
def attack_main_t (env : feeder_env) (fuel : Nat) (attk : attack_st) : Except halt attack_st :=
  match attack_main_body env fuel attk with
  | Except.error h => Except.error h
  | Except.ok a => Except.ok { a with state := ATTACK_STATE_STOPPED }

/-- An input file that opens, fails its first `next_block` with
`E_ATTK_RECORD_SIZE_INVALID` and then fails `close_file`; no output file;
client threads that find nothing to do. -/
def twice_failing (asserts : Bool) (in_close : Int) : feeder_env :=
  { asserts := asserts, in_open := 0, in_total := 3,
    in_next := fun _ => E_ATTK_RECORD_SIZE_INVALID, in_free := fun _ => 0,
    in_close := in_close, file_out := none, clients := fun _ x => x }

/-! ## Files: example inputs -/

/-- The sink for the description "d", file order 1 and records of
`record_size` bytes. -/
def demo_sink (record_size : Nat) : sink_file_st := write_file_init [100] 1 record_size

/-- The file that sink creates: the 268 bytes of its header. -/
def demo_header (record_size : Nat) : List Nat :=
  ((write_open_file 0 3 none (demo_sink record_size)).2.2).getD []

/-- A record file with three records of two bytes. -/
def demo_record_file : List Nat := demo_header 2 ++ [1, 2, 3, 4, 5, 6]

/-- The record-file source set up on the file `disk` for the description
"d", reading all records. -/
def demo_source (records_per_block : Nat) (disk : List Nat) : record_file_st :=
  read_file_init [] header_zero records_per_block 4 (some disk) [100] 0 0

/-- The word list "cat", "lion", "ox", the last line without a newline. -/
def demo_words : List Nat := [99, 97, 116, 10, 108, 105, 111, 110, 10, 111, 120]

/-- The word-list source with records of five bytes, three per block, open
on the text `data`. -/
def demo_wordlist (data : List Nat) : wordlist_file_st :=
  { record_size := 5, records_per_block := 3,
    file_data := { fp := some { data := data, pos := 0, eof := false } },
    total_records := 0 }

/-- The word-list source of `demo_wordlist` with its stream at position
`pos`. -/
def demo_wordlist_at (data : List Nat) (pos : Nat) (eof : Bool) : wordlist_file_st :=
  { record_size := 5, records_per_block := 3,
    file_data := { fp := some { data := data, pos := pos, eof := eof } },
    total_records := 0 }

/-! ## `libattkthread.c`: setting up an attack, start and end of the main thread -/

/-- Maximum number of threads (`libattkthread.h`); the array `client_t` of
`attack_main_t` has that many cells. -/
def MAX_THREADS : Nat := 4096

/-- The fields of `attack_st` that `attack_st_init` sets and the threads only
read: `threads`, an `int`, and `callback` (`none` for `NULL`).  A callback is
given the attack structure; what it returns is dropped. -/
structure attack_cfg where
  threads : Int
  callback : Option (attack_st → Int)

/-- The function `attack_st_init`: the return value, the fields it sets and
the fields its `memset` clears.  Its `threads` parameter is a `uint16_t` in
`libattkthread.c` (the prototype in `libattkthread.h` says `int`). -/
def attack_st_init (threads : Nat) (callback : Option (attack_st → Int)) :
    Int × attack_cfg × attack_st :=
  (0,
   { threads := if threads % 2 ^ 16 = 0 then 1 else ((threads % 2 ^ 16 : Nat) : Int)
     callback := callback },
   { _s := { records_tested := 0, total_records := 0, result := none, result_size := 0 }
     error := 0, e_state := 0, state := 0 })

/-- The function `start_attack` up to the creation of the main thread. -/
def start_attack (attk_st : attack_st) : attack_st :=
  { attk_st with state := ATTACK_STATE_ACTIVE }

/-- The statements "Start the threads" of `attack_main_t`: the assertion,
when it is compiled in, and the loop of `pthread_create` calls.  The answer
holds the indexes of `client_t` the loop writes. -/
def feeder_start (asserts : Bool) (cfg : attack_cfg) : Except halt (List Nat) :=
  if asserts = true ∧ cfg.threads > MAX_THREADS then Except.error halt.assertion
  else Except.ok (List.range cfg.threads.toNat)

/-- The statements "Call the callback" and the assignment that ends
`attack_main_t`: the structures the callback was called on, one for each
call, and the attack structure at the end. -/
def feeder_finish (cfg : attack_cfg) (attk_st : attack_st) :
    Except halt (List attack_st × attack_st) :=
  match cfg.callback with
  | none => Except.error halt.null_call
  | some _ => Except.ok ([attk_st], { attk_st with state := ATTACK_STATE_STOPPED })

/-- The function `attack_main_t` with its first and its last statements:
the indexes of `client_t` written, the structures the callback was called
on and the attack structure when the thread ends. -/
def attack_main_thread (cfg : attack_cfg) (env : feeder_env) (fuel : Nat) (attk : attack_st) :
    Except halt (List Nat × List attack_st × attack_st) :=
  match feeder_start env.asserts cfg with
  | Except.error h => Except.error h
  | Except.ok slots =>
    match attack_main_body env fuel attk with
    | Except.error h => Except.error h
    | Except.ok a =>
      match feeder_finish cfg a with
      | Except.error h => Except.error h
      | Except.ok (calls, a1) => Except.ok (slots, calls, a1)

/-- An input file that opens holding `total` in `total_records` and has no
block to give; no output file; client threads that find nothing to do. -/
def empty_source (total : Nat) : feeder_env :=
  { asserts := true, in_open := 0, in_total := total,
    in_next := fun _ => 0, in_free := fun _ => 0,
    in_close := 0, file_out := none, clients := fun _ x => x }

/-- The variables of the main thread when it starts on the attack `attk`. -/
def feeder_init (attk : attack_st) : feeder_st :=
  { attk := attk, q := queue_init, nexts := 0, frees := 0, looks := 0 }

/-- A status structure without a result buffer. -/
def status0 : attack_status :=
  { records_tested := 0, total_records := 0, result := none, result_size := 0 }

/-- The source for alphabet "ab", start "a", an end of 31 letters "b", two
records per block, as `brute_force_init` leaves it. -/
def demo_big : file_st :=
  { record_size := 32, records_per_block := 2, total_records := 0,
    file_data := { start := [97], end_ := List.replicate 31 98, alphabet := [97, 98],
                   last := [] } }

/-- The source for alphabet "ab", start "b", end "aa", two records per
block, as `brute_force_init` leaves it. -/
def demo_scan : file_st :=
  { record_size := 3, records_per_block := 2, total_records := 0,
    file_data := { start := [98], end_ := [97, 97], alphabet := [97, 98], last := [] } }

/-- The word list "cat", "lion", "ox", every line with its newline. -/
def demo_text : List Nat := [99, 97, 116, 10, 108, 105, 111, 110, 10, 111, 120, 10]

/-- A client thread for records of five bytes, three per block, no output
file and a checker that finds no match. -/
def words_env : worker_env :=
  { record_size := 5, records_per_block := 3, file_out := none,
    attack_check := fun _ slot => (E_ATTK_RECORD_NO_MATCH, slot),
    out_next_block := fun _ _ => 0, free_block := fun _ => 0 }

/-- The client thread of `demo_env` with a sink whose `next_block` fails. -/
def failing_sink_env : worker_env :=
  { demo_env with out_next_block := fun _ _ => E_ATTK_SYSTEM }

/-! ## `queue.c`: the end of a queue -/

/-- The function `queue_destroy`; `none` when one of its two assertions
fails. -/
def queue_destroy (q : queue) : Option queue :=
  if q.state = QUEUE_STATE_STOPPED ∧ q.empty = 1 then
    some { stack := List.replicate QUEUE_SIZE 0
           stack_sizes := List.replicate QUEUE_SIZE 0
           head := 0
           tail := 0
           full := 0
           empty := 1
           state := QUEUE_STATE_STOPPED }
  else none

/-- The loop `while (q->empty == 0) queue_pop(q, ...)`; `none` when an
assertion of `queue_pop` fails or the fuel runs out. -/
def queue_pop_all : Nat → queue → Option queue
  | 0, _ => none
  | fuel + 1, q =>
    if q.empty = 0 then
      match queue_pop q with
      | none => none
      | some (q1, _, _) => queue_pop_all fuel q1
    else some q

/-- The integer value of a `queue_state`. -/
def state_rank : queue_state → Nat
  | QUEUE_STATE_ACTIVE => 0
  | QUEUE_STATE_STOPPING => 1
  | QUEUE_STATE_STOPPED => 2

/-- A stopped queue is empty and a stopping queue is not. -/
def state_inv (q : queue) : Prop :=
  (q.state = QUEUE_STATE_STOPPED → q.empty = 1) ∧ (q.state = QUEUE_STATE_STOPPING → q.empty = 0)

/-! ## `brute_force.c`: the count of the specification -/

/-- The sum over the positions `i` of `s` of
`(r - 1 - rank(s[i])) * r ^ (len(s) - 1 - i)`, with `r` the length of the
alphabet. -/
def digit_sum (alphabet : List Nat) : List Nat → Int
  | [] => 0
  | c :: s =>
    ((alphabet.length : Int) - 1 - (alp_rank alphabet c : Int))
        * (alphabet.length : Int) ^ s.length
      + digit_sum alphabet s

/-- The sum of `r ^ l` over the lengths `l` in `a + 1 .. a + n`. -/
def length_sum (r a : Nat) : Nat → Int
  | 0 => 0
  | n + 1 => length_sum r a n + (r : Int) ^ (a + n + 1)

/-- The count of the specification: one, plus the sum for `start`, plus the
powers for the lengths `len(start) + 1 .. len(end)`, minus the sum for
`end`. -/
def spec_total_records (start end_ alphabet : List Nat) : Int :=
  1 + digit_sum alphabet start
    + length_sum alphabet.length start.length (end_.length - start.length)
    - digit_sum alphabet end_

/-! ## `brute_force.c`: the bytes the scan compares -/

/-- The loop "find the first char to increase" as in `find_inc`: the offsets
from `bf_st->last` of the bytes its `memcmp` compares, in order.  With `k =
0` the pointer `curr_p` stands in front of the string, and the `memcmp` of
the loop condition compares the byte at offset -1 before the test `curr_p <
bf_st->last` in the body, or the end of the loop, is reached. -/
def find_inc_reads (last : List Nat) (alp_end : Nat) : Nat → List Int
  | 0 => [-1]
  | k + 1 =>
    (k : Int) :: (if last.getD k 0 = alp_end then find_inc_reads last alp_end k else [])

/-- One pass through the body of the generating loop of `bf_next_block`, as
in `bf_succ`: the offsets of `last` its scan compares. -/
def bf_succ_reads (alphabet end_ last : List Nat) : List Int :=
  if last = end_ then []
  else find_inc_reads last (alphabet.getD (alphabet.length - 1) 0) last.length

/-! ## `read_word_list.c`: the index of the last character -/

/-- The index `strlen(buffer) - 1` at which `find_max_line_len` reads its
buffer and `read_wl_next_block` reads and writes `read_buf`; for an empty
string it is -1, the place in front of the buffer. -/
def last_index (buffer : List Nat) : Int := (c_strlen buffer : Int) - 1

/-- The loop of `read_wl_next_block` as in `read_wl_loop`: the indexes at
which it takes the last character of `read_buf`, one for each pass. -/
def read_wl_indexes (record_size buf_size : Nat) : Nat → Nat → Nat → FILE → List Int
  | 0, _, _, _ => []
  | fuel + 1, pre, curr, fp =>
    if curr < buf_size then
      if fp.eof then []
      else
        let r := fgets (record_size + 1) fp
        if last_char pre r.2 ≠ 10 ∧ r.1.eof = false then [last_index r.2]
        else
          let pre1 := if c_strlen r.2 = 0 then 0 else pre
          let read_buf := if c_strlen r.2 = 0 then r.2 else r.2.set (c_strlen r.2 - 1) 0
          last_index r.2 ::
            (if c_strlen read_buf > 0 then
              read_wl_indexes record_size buf_size fuel pre1 (curr + record_size) r.1
            else read_wl_indexes record_size buf_size fuel pre1 curr r.1)
    else []

/-- The indexes at which a call of `read_wl_next_block` with `buf_size == 0`
takes the last character of `read_buf`. -/
def read_wl_next_block_indexes (pre : Nat) (file : wordlist_file_st) : List Int :=
  match file.file_data.fp with
  | none => []
  | some fp =>
    read_wl_indexes file.record_size
      ((block_size file.record_size file.records_per_block).getD
        (2 ^ 64 - (2 ^ 32 - file.record_size * file.records_per_block % 2 ^ 32)))
      (fp.data.length - fp.pos + 2) pre 0 fp

/-- The loop of `find_max_line_len` as in `max_line_loop`, followed by the
test after the loop: the indexes at which the last character of `buffer` is
taken; `buffer` holds what the last `fgets` left. -/
def max_line_indexes : Nat → FILE → List Nat → List Int
  | 0, _, _ => []
  | fuel + 1, fp, buffer =>
    if fp.eof = false then
      let r := fgets BUFFSIZE fp
      last_index r.2 :: max_line_indexes fuel r.1 r.2
    else [last_index buffer]

/-- The indexes at which `find_max_line_len` takes the last character of
its buffer on a file that can be opened. -/
def find_max_line_len_indexes (data : List Nat) : List Int :=
  max_line_indexes (data.length + 2) { data := data, pos := 0, eof := false } []

/-! # Theorems -/

/-! ## Block sizes that fit an `int` -/

/-- A block size that fits an `int` is the product. -/
theorem block_size_fit {record_size records_per_block : Nat}
    (h : record_size * records_per_block < 2 ^ 31) :
    block_size record_size records_per_block = some (record_size * records_per_block) := by
  unfold block_size
  rw [Nat.mod_eq_of_lt (by omega), if_pos h]

/-- A product of `2 ^ 31` and more below `2 ^ 32` is negative as an `int`:
the block is not allocated. -/
theorem block_size_negative {record_size records_per_block : Nat}
    (h1 : 2 ^ 31 ≤ record_size * records_per_block)
    (h2 : record_size * records_per_block < 2 ^ 32) :
    block_size record_size records_per_block = none := by
  unfold block_size
  rw [Nat.mod_eq_of_lt h2, if_neg (by omega)]

/-! ## Brute force: arithmetic of the enumeration -/

theorem alp_rank_lt {alphabet : List Nat} {c : Nat} (h : c ∈ alphabet) :
    alp_rank alphabet c < alphabet.length :=
  List.indexOf_lt_length.mpr h

theorem over_alphabet_cons {alphabet s : List Nat} {c : Nat} :
    over_alphabet alphabet (c :: s) ↔ c ∈ alphabet ∧ over_alphabet alphabet s := by
  simp [over_alphabet]

theorem over_alphabet_append {alphabet s t : List Nat} :
    over_alphabet alphabet (s ++ t) ↔ over_alphabet alphabet s ∧ over_alphabet alphabet t := by
  simp only [over_alphabet, List.mem_append]
  constructor
  · intro h
    exact ⟨fun c hc => h c (Or.inl hc), fun c hc => h c (Or.inr hc)⟩
  · rintro ⟨h1, h2⟩ c (hc | hc)
    · exact h1 c hc
    · exact h2 c hc

theorem over_alphabet_replicate {alphabet : List Nat} {c : Nat} (n : Nat) (h : c ∈ alphabet) :
    over_alphabet alphabet (List.replicate n c) := by
  intro d hd
  rw [List.eq_of_mem_replicate hd]
  exact h

theorem str_val_lt {alphabet s : List Nat} (h : over_alphabet alphabet s) :
    str_val alphabet s < alphabet.length ^ s.length := by
  induction s with
  | nil => simp [str_val]
  | cons c s ih =>
    rw [over_alphabet_cons] at h
    have hc := alp_rank_lt h.1
    have hs := ih h.2
    simp only [str_val, List.length_cons, pow_succ]
    calc alp_rank alphabet c * alphabet.length ^ s.length + str_val alphabet s
        < alp_rank alphabet c * alphabet.length ^ s.length + alphabet.length ^ s.length := by
          omega
      _ = (alp_rank alphabet c + 1) * alphabet.length ^ s.length := by ring
      _ ≤ alphabet.length * alphabet.length ^ s.length := Nat.mul_le_mul_right _ hc
      _ = alphabet.length ^ s.length * alphabet.length := by ring

theorem str_val_append (alphabet p q : List Nat) :
    str_val alphabet (p ++ q)
      = str_val alphabet p * alphabet.length ^ q.length + str_val alphabet q := by
  induction p with
  | nil => simp [str_val]
  | cons c p ih =>
    rw [List.cons_append, str_val.eq_2, str_val.eq_2, ih, List.length_append, pow_add]
    ring

theorem str_val_replicate_zero (alphabet : List Nat) (c n : Nat)
    (h : alp_rank alphabet c = 0) : str_val alphabet (List.replicate n c) = 0 := by
  induction n with
  | zero => simp [str_val]
  | succ n ih => simp [List.replicate_succ, str_val, h, ih]

theorem str_val_replicate_max (alphabet : List Nat) (c n : Nat)
    (h : alp_rank alphabet c + 1 = alphabet.length) :
    str_val alphabet (List.replicate n c) + 1 = alphabet.length ^ n := by
  induction n with
  | zero => simp [str_val]
  | succ n ih =>
    simp only [List.replicate_succ, str_val, List.length_replicate, pow_succ]
    calc alp_rank alphabet c * alphabet.length ^ n + str_val alphabet (List.replicate n c) + 1
        = alp_rank alphabet c * alphabet.length ^ n
            + (str_val alphabet (List.replicate n c) + 1) := by ring
      _ = alp_rank alphabet c * alphabet.length ^ n + alphabet.length ^ n := by rw [ih]
      _ = (alp_rank alphabet c + 1) * alphabet.length ^ n := by ring
      _ = alphabet.length ^ n * alphabet.length := by rw [h]; ring

theorem geom_mono (r : Nat) {m n : Nat} (h : m ≤ n) : geom r m ≤ geom r n := by
  induction n with
  | zero => simp_all
  | succ n ih =>
    rcases Nat.eq_or_lt_of_le h with h1 | h1
    · rw [h1]
    · have := ih (Nat.lt_succ_iff.mp h1)
      simp only [geom]
      omega

/-- The position pins the length down: `geom len ≤ ord < geom (len + 1)`. -/
theorem str_ord_bounds {alphabet s : List Nat} (h : over_alphabet alphabet s) :
    geom alphabet.length s.length ≤ str_ord alphabet s
      ∧ str_ord alphabet s < geom alphabet.length (s.length + 1) := by
  have := str_val_lt h
  simp only [str_ord, geom]
  omega

theorem length_le_of_ord_le {alphabet s t : List Nat} (hs : over_alphabet alphabet s)
    (ht : over_alphabet alphabet t) (h : str_ord alphabet s ≤ str_ord alphabet t) :
    s.length ≤ t.length := by
  by_contra hlt
  have h1 := (str_ord_bounds hs).1
  have h2 := (str_ord_bounds ht).2
  have h3 := geom_mono alphabet.length (show t.length + 1 ≤ s.length by omega)
  omega

theorem str_val_inj {alphabet : List Nat} :
    ∀ {s t : List Nat}, over_alphabet alphabet s → over_alphabet alphabet t →
      s.length = t.length → str_val alphabet s = str_val alphabet t → s = t
  | [], [], _, _, _, _ => rfl
  | [], _ :: _, _, _, hl, _ => by simp at hl
  | _ :: _, [], _, _, hl, _ => by simp at hl
  | c :: s, d :: t, hs, ht, hl, hv => by
    rw [over_alphabet_cons] at hs ht
    have hl1 : s.length = t.length := by simpa using hl
    have h1 := str_val_lt hs.2
    have h2 := str_val_lt ht.2
    simp only [str_val, hl1] at hv
    rw [hl1] at h1
    have hpos : 0 < alphabet.length ^ t.length := by omega
    have hq : alp_rank alphabet c = alp_rank alphabet d := by
      have e1 := congrArg (fun x => x / alphabet.length ^ t.length) hv
      simp only at e1
      rw [Nat.add_comm, Nat.add_mul_div_right _ _ hpos, Nat.div_eq_of_lt h1,
        Nat.add_comm (alp_rank alphabet d * _), Nat.add_mul_div_right _ _ hpos,
        Nat.div_eq_of_lt h2] at e1
      simpa using e1
    have hr : str_val alphabet s = str_val alphabet t := by
      rw [hq] at hv
      omega
    have hcd : c = d := (List.indexOf_inj hs.1 ht.1).mp hq
    rw [hcd, str_val_inj hs.2 ht.2 hl1 hr]

theorem str_ord_inj {alphabet s t : List Nat} (hs : over_alphabet alphabet s)
    (ht : over_alphabet alphabet t) (h : str_ord alphabet s = str_ord alphabet t) : s = t := by
  have hl : s.length = t.length :=
    Nat.le_antisymm (length_le_of_ord_le hs ht (Nat.le_of_eq h))
      (length_le_of_ord_le ht hs (Nat.le_of_eq h.symm))
  apply str_val_inj hs ht hl
  simp only [str_ord, hl] at h
  omega

theorem lex_lt_iff_val_lt {alphabet : List Nat} :
    ∀ {s t : List Nat}, over_alphabet alphabet s → over_alphabet alphabet t →
      s.length = t.length → (lex_lt alphabet s t = true ↔ str_val alphabet s < str_val alphabet t)
  | [], [], _, _, _ => by simp [lex_lt, str_val]
  | [], _ :: _, _, _, hl => by simp at hl
  | _ :: _, [], _, _, hl => by simp at hl
  | c :: s, d :: t, hs, ht, hl => by
    rw [over_alphabet_cons] at hs ht
    have hl1 : s.length = t.length := by simpa using hl
    have h1 := str_val_lt hs.2
    have h2 := str_val_lt ht.2
    have ih := lex_lt_iff_val_lt hs.2 ht.2 hl1
    simp only [lex_lt, str_val, hl1, Bool.or_eq_true, Bool.and_eq_true, decide_eq_true_eq, ih]
    rw [hl1] at h1
    constructor
    · rintro (hlt | ⟨heq, hv⟩)
      · calc alp_rank alphabet c * alphabet.length ^ t.length + str_val alphabet s
            < alp_rank alphabet c * alphabet.length ^ t.length + alphabet.length ^ t.length := by
              omega
          _ = (alp_rank alphabet c + 1) * alphabet.length ^ t.length := by ring
          _ ≤ alp_rank alphabet d * alphabet.length ^ t.length :=
              Nat.mul_le_mul_right _ hlt
          _ ≤ alp_rank alphabet d * alphabet.length ^ t.length + str_val alphabet t := by
              omega
      · rw [heq]
        omega
    · intro hv
      rcases Nat.lt_trichotomy (alp_rank alphabet c) (alp_rank alphabet d) with hlt | heq | hgt
      · exact Or.inl hlt
      · right
        refine ⟨heq, ?_⟩
        rw [heq] at hv
        omega
      · exfalso
        have : alp_rank alphabet d * alphabet.length ^ t.length + str_val alphabet t
            < alp_rank alphabet c * alphabet.length ^ t.length + str_val alphabet s :=
          calc alp_rank alphabet d * alphabet.length ^ t.length + str_val alphabet t
              < alp_rank alphabet d * alphabet.length ^ t.length + alphabet.length ^ t.length := by
                omega
            _ = (alp_rank alphabet d + 1) * alphabet.length ^ t.length := by ring
            _ ≤ alp_rank alphabet c * alphabet.length ^ t.length :=
                Nat.mul_le_mul_right _ hgt
            _ ≤ alp_rank alphabet c * alphabet.length ^ t.length + str_val alphabet s := by
                omega
        omega

/-- The order of the specification is the order of the positions. -/
theorem shortlex_lt_iff_ord_lt {alphabet s t : List Nat} (hs : over_alphabet alphabet s)
    (ht : over_alphabet alphabet t) :
    shortlex_lt alphabet s t ↔ str_ord alphabet s < str_ord alphabet t := by
  unfold shortlex_lt
  constructor
  · rintro (hlt | ⟨heq, hlex⟩)
    · have h1 := (str_ord_bounds hs).2
      have h2 := (str_ord_bounds ht).1
      have h3 := geom_mono alphabet.length (show s.length + 1 ≤ t.length by omega)
      omega
    · have := (lex_lt_iff_val_lt hs ht heq).mp hlex
      simp only [str_ord, heq]
      omega
  · intro h
    have hle := length_le_of_ord_le hs ht (Nat.le_of_lt h)
    rcases Nat.eq_or_lt_of_le hle with heq | hlt
    · right
      refine ⟨heq, (lex_lt_iff_val_lt hs ht heq).mpr ?_⟩
      simp only [str_ord, heq] at h
      omega
    · exact Or.inl hlt

/-! ## Brute force: one step of the generating loop -/

theorem find_inc_none {last : List Nat} {amax : Nat} :
    ∀ k, find_inc last amax k = none → ∀ i, i < k → last.getD i 0 = amax
  | 0, _, i, hi => by omega
  | k + 1, h, i, hi => by
    simp only [find_inc] at h
    split at h
    · rename_i hk
      rcases Nat.eq_or_lt_of_le (Nat.lt_succ_iff.mp hi) with h1 | h1
      · rw [h1]; exact hk
      · exact find_inc_none k h i h1
    · simp at h

theorem find_inc_some {last : List Nat} {amax : Nat} :
    ∀ k j, find_inc last amax k = some j →
      j < k ∧ last.getD j 0 ≠ amax ∧ ∀ i, j < i → i < k → last.getD i 0 = amax
  | 0, j, h => by simp [find_inc] at h
  | k + 1, j, h => by
    simp only [find_inc] at h
    split at h
    · rename_i hk
      obtain ⟨h1, h2, h3⟩ := find_inc_some k j h
      refine ⟨by omega, h2, fun i hji hik => ?_⟩
      rcases Nat.eq_or_lt_of_le (Nat.lt_succ_iff.mp hik) with h4 | h4
      · rw [h4]; exact hk
      · exact h3 i hji h4
    · rename_i hk
      have hj : k = j := by simpa using h
      subst hj
      exact ⟨by omega, hk, fun i hji hik => by omega⟩

theorem eq_replicate_of_getD {l : List Nat} {a : Nat}
    (h : ∀ i, i < l.length → l.getD i 0 = a) : l = List.replicate l.length a := by
  rw [List.eq_replicate_iff]
  refine ⟨rfl, fun b hb => ?_⟩
  obtain ⟨i, hi, rfl⟩ := List.mem_iff_getElem.mp hb
  rw [← h i hi, List.getD_eq_getElem _ _ hi]

/-- Shape of `last` when the scan stops at offset `j`. -/
theorem split_at_inc {last : List Nat} {amax j : Nat}
    (h : find_inc last amax last.length = some j) :
    last = last.take j ++ last.getD j 0 :: List.replicate (last.length - (j + 1)) amax := by
  obtain ⟨h1, _, h3⟩ := find_inc_some _ _ h
  have hd : last.drop (j + 1) = List.replicate (last.length - (j + 1)) amax := by
    have := eq_replicate_of_getD (l := last.drop (j + 1)) (a := amax) (fun i hi => by
      rw [List.length_drop] at hi
      have := h3 (j + 1 + i) (by omega) (by omega)
      rw [List.getD_eq_getElem _ _ (by omega)] at this
      rw [List.getD_eq_getElem _ _ (by rw [List.length_drop]; omega), List.getElem_drop]
      exact this)
    rw [List.length_drop] at this
    exact this
  conv_lhs => rw [← List.take_append_drop j last]
  rw [List.drop_eq_getElem_cons h1, hd, List.getD_eq_getElem _ _ h1]

theorem rank_getD {alphabet : List Nat} (hnd : alphabet.Nodup) {i : Nat}
    (hi : i < alphabet.length) : alp_rank alphabet (alphabet.getD i 0) = i := by
  rw [List.getD_eq_getElem _ _ hi]
  exact List.indexOf_getElem hnd i hi

theorem getD_rank {alphabet : List Nat} {c : Nat} (h : c ∈ alphabet) :
    alphabet.getD (alp_rank alphabet c) 0 = c := by
  rw [List.getD_eq_getElem _ _ (alp_rank_lt h)]
  exact List.getElem_indexOf _

theorem getD_mem {alphabet : List Nat} {i : Nat} (hi : i < alphabet.length) :
    alphabet.getD i 0 ∈ alphabet := by
  rw [List.getD_eq_getElem _ _ hi]
  exact List.getElem_mem _

theorem str_ord_nil (alphabet : List Nat) : str_ord alphabet [] = 0 := by
  simp [str_ord, geom, str_val]

theorem str_ord_pos {alphabet s : List Nat} (hs : over_alphabet alphabet s) (hne : s ≠ []) :
    0 < str_ord alphabet s := by
  cases s with
  | nil => exact absurd rfl hne
  | cons c s =>
    have h1 := (str_ord_bounds hs).1
    have h2 := geom_mono alphabet.length (show 1 ≤ (c :: s).length by simp)
    have h3 : geom alphabet.length 1 = 1 := by simp [geom]
    omega

/-- A string that is not yet `end` has a successor in the loop body, one
position further in the enumeration. -/
theorem bf_succ_spec {alphabet end_ : List Nat} (hnd : alphabet.Nodup)
    (hend : over_alphabet alphabet end_) {s : List Nat}
    (hs : over_alphabet alphabet s)
    (hlt : str_ord alphabet s < str_ord alphabet end_) :
    ∃ t, bf_succ alphabet end_ s = some t ∧ over_alphabet alphabet t
      ∧ str_ord alphabet t = str_ord alphabet s + 1 := by
  have hne : s ≠ end_ := by
    intro h
    rw [h] at hlt
    exact Nat.lt_irrefl _ hlt
  have hendne : end_ ≠ [] := by
    intro h
    rw [h, str_ord_nil] at hlt
    omega
  have hr : 0 < alphabet.length := by
    cases hE : end_ with
    | nil => exact absurd hE hendne
    | cons c t => exact List.length_pos_of_mem (hend c (by simp [hE]))
  have hlen := length_le_of_ord_le hs hend (Nat.le_of_lt hlt)
  have hmax : alp_rank alphabet (alphabet.getD (alphabet.length - 1) 0) + 1
      = alphabet.length := by
    rw [rank_getD hnd (by omega)]
    omega
  have hzero : alp_rank alphabet (alphabet.getD 0 0) = 0 := rank_getD hnd hr
  have hzmem : alphabet.getD 0 0 ∈ alphabet := getD_mem hr
  unfold bf_succ
  rw [if_neg hne]
  cases hf : find_inc s (alphabet.getD (alphabet.length - 1) 0) s.length with
  | none =>
    have hrep := eq_replicate_of_getD (find_inc_none _ hf)
    have hv := str_val_replicate_max alphabet _ s.length hmax
    rw [← hrep] at hv
    have hlen2 : s.length < end_.length := by
      rcases Nat.eq_or_lt_of_le hlen with h | h
      · exfalso
        have hve := str_val_lt hend
        simp only [str_ord, h] at hlt
        rw [h] at hv
        omega
      · exact h
    simp only [if_pos hlen2]
    refine ⟨_, rfl, over_alphabet_replicate _ hzmem, ?_⟩
    simp only [str_ord, List.length_replicate, geom,
      str_val_replicate_zero alphabet _ (s.length + 1) hzero]
    omega
  | some j =>
    obtain ⟨hj, hjne, _⟩ := find_inc_some _ _ hf
    have hsplit := split_at_inc hf
    have hcmem : s.getD j 0 ∈ alphabet := by
      rw [List.getD_eq_getElem _ _ hj]
      exact hs _ (List.getElem_mem _)
    have hrk : alp_rank alphabet (s.getD j 0) + 1 < alphabet.length := by
      have h1 := alp_rank_lt hcmem
      rcases Nat.eq_or_lt_of_le (Nat.succ_le_of_lt h1) with h2 | h2
      · exfalso
        apply hjne
        have h3 : alp_rank alphabet (s.getD j 0) = alphabet.length - 1 := by
          simp only [Nat.succ_eq_add_one] at h2
          omega
        rw [← h3, getD_rank hcmem]
      · exact h2
    have htake : over_alphabet alphabet (s.take j) :=
      fun c hc => hs c (List.mem_of_mem_take hc)
    simp only
    refine ⟨_, rfl, ?_, ?_⟩
    · rw [over_alphabet_append, over_alphabet_append]
      refine ⟨⟨htake, ?_⟩, over_alphabet_replicate _ hzmem⟩
      intro c hc
      rw [List.mem_singleton] at hc
      rw [hc]
      exact getD_mem hrk
    · have hl : (s.take j ++ [alphabet.getD (alp_rank alphabet (s.getD j 0) + 1) 0]
          ++ List.replicate (s.length - (j + 1)) (alphabet.getD 0 0)).length = s.length := by
        simp only [List.length_append, List.length_take, List.length_replicate,
          List.length_singleton]
        omega
      have hv1 : str_val alphabet s + 1
          = str_val alphabet (s.take j) * alphabet.length ^ (s.length - (j + 1) + 1)
            + (alp_rank alphabet (s.getD j 0) + 1)
              * alphabet.length ^ (s.length - (j + 1)) := by
        conv_lhs => rw [hsplit]
        rw [str_val_append, str_val.eq_2, List.length_cons, List.length_replicate]
        have := str_val_replicate_max alphabet _ (s.length - (j + 1)) hmax
        calc _ = str_val alphabet (s.take j) * alphabet.length ^ (s.length - (j + 1) + 1)
              + (alp_rank alphabet (s.getD j 0) * alphabet.length ^ (s.length - (j + 1))
                + (str_val alphabet (List.replicate (s.length - (j + 1))
                    (alphabet.getD (alphabet.length - 1) 0)) + 1)) := by ring
          _ = _ := by rw [this]; ring
      have hv2 : str_val alphabet
          (s.take j ++ [alphabet.getD (alp_rank alphabet (s.getD j 0) + 1) 0]
            ++ List.replicate (s.length - (j + 1)) (alphabet.getD 0 0))
          = str_val alphabet (s.take j) * alphabet.length ^ (s.length - (j + 1) + 1)
            + (alp_rank alphabet (s.getD j 0) + 1)
              * alphabet.length ^ (s.length - (j + 1)) := by
        rw [List.append_assoc, List.singleton_append, str_val_append, str_val.eq_2,
          List.length_cons, List.length_replicate, rank_getD hnd hrk,
          str_val_replicate_zero alphabet _ _ hzero]
        ring
      simp only [str_ord, hl, hv2, ← hv1]
      omega

theorem bf_succ_end (alphabet end_ : List Nat) : bf_succ alphabet end_ end_ = none := by
  simp [bf_succ]

/-! ## Brute force: blocks and the whole stream -/

theorem Seg_append {alphabet end_ a b c : List Nat} {l m : List (List Nat)}
    (h1 : Seg alphabet end_ a l b) (h2 : Seg alphabet end_ b m c) :
    Seg alphabet end_ a (l ++ m) c := by
  induction h1 with
  | nil a => simpa using h2
  | cons hs _ ih => exact Seg.cons hs (ih h2)

theorem Seg_getLast {alphabet end_ a b : List Nat} {l : List (List Nat)}
    (h : Seg alphabet end_ a l b) : (a :: l).getLast? = some b := by
  induction h with
  | nil a => simp
  | cons _ _ ih =>
    rw [List.getLast?_cons_cons]
    exact ih

theorem le_end_cases {alphabet end_ s : List Nat} (hend : over_alphabet alphabet end_)
    (hs : over_alphabet alphabet s) (hle : str_ord alphabet s ≤ str_ord alphabet end_) :
    s = end_ ∨ str_ord alphabet s < str_ord alphabet end_ := by
  rcases Nat.eq_or_lt_of_le hle with h | h
  · exact Or.inl (str_ord_inj hs hend h)
  · exact Or.inr h

/-- Along a segment the positions go up by one at every string. -/
theorem Seg_ord {alphabet end_ : List Nat} (hnd : alphabet.Nodup)
    (hend : over_alphabet alphabet end_) {a b : List Nat} {l : List (List Nat)}
    (h : Seg alphabet end_ a l b) :
    over_alphabet alphabet a → str_ord alphabet a ≤ str_ord alphabet end_ →
      (over_alphabet alphabet b ∧ str_ord alphabet b = str_ord alphabet a + l.length
        ∧ str_ord alphabet b ≤ str_ord alphabet end_)
      ∧ ∀ i (hi : i < l.length), over_alphabet alphabet l[i]
          ∧ str_ord alphabet l[i] = str_ord alphabet a + i + 1 := by
  induction h with
  | nil a =>
    intro ha hle
    exact ⟨⟨ha, by simp, hle⟩, fun i hi => by simp at hi⟩
  | @cons a t b l hs _ ih =>
    intro ha hle
    rcases le_end_cases hend ha hle with h | h
    · rw [h, bf_succ_end] at hs
      simp at hs
    · obtain ⟨t1, ht1, hover, hord⟩ := bf_succ_spec hnd hend ha h
      rw [hs] at ht1
      have ht : t = t1 := by simpa using ht1
      subst ht
      obtain ⟨⟨hb1, hb2, hb3⟩, hall⟩ := ih hover (by omega)
      refine ⟨⟨hb1, by simp only [List.length_cons]; omega, hb3⟩, fun i hi => ?_⟩
      cases i with
      | zero => exact ⟨hover, by simpa using hord⟩
      | succ i =>
        have := hall i (by simpa using hi)
        simp only [List.getElem_cons_succ]
        exact ⟨this.1, by omega⟩

/-- The generating loop with `slots` free slots left writes a segment that
either fills them or ends at a string from which the body breaks. -/
theorem bf_gen_loop_spec (alphabet end_ : List Nat) {R : Nat} (hR : 0 < R) (buf_size : Nat) :
    ∀ (slots fuel buf_p : Nat) (last : List Nat) (out : List (List Nat)),
      buf_p + R * slots = buf_size → slots < fuel →
      ∃ l b, bf_gen_loop alphabet end_ R buf_size fuel buf_p last out
            = some (buf_p + R * l.length, b, out ++ l.map (pad R))
          ∧ Seg alphabet end_ last l b
          ∧ (l.length = slots ∨ bf_succ alphabet end_ b = none)
  | 0, fuel, buf_p, last, out, hb, hf => by
    obtain ⟨f, rfl⟩ : ∃ f, fuel = f + 1 := ⟨fuel - 1, by omega⟩
    refine ⟨[], last, ?_, Seg.nil last, Or.inl rfl⟩
    have : ¬ buf_p < buf_size := by omega
    simp [bf_gen_loop, this]
  | slots + 1, fuel, buf_p, last, out, hb, hf => by
    obtain ⟨f, rfl⟩ : ∃ f, fuel = f + 1 := ⟨fuel - 1, by omega⟩
    have hlt : buf_p < buf_size := by
      have : R * (slots + 1) = R * slots + R := by ring
      omega
    cases hs : bf_succ alphabet end_ last with
    | none =>
      refine ⟨[], last, ?_, Seg.nil last, Or.inr hs⟩
      simp [bf_gen_loop, hlt, hs]
    | some next =>
      obtain ⟨l, b, h1, h2, h3⟩ := bf_gen_loop_spec alphabet end_ hR buf_size slots f
        (buf_p + R) next (out ++ [pad R next])
        (by have : R * (slots + 1) = R * slots + R := by ring
            omega) (by omega)
      refine ⟨next :: l, b, ?_, Seg.cons hs h2, ?_⟩
      · simp only [bf_gen_loop, hlt, if_true, hs, h1, List.length_cons, List.map_cons,
          List.append_assoc, List.singleton_append]
        have : buf_p + R + R * l.length = buf_p + R * (l.length + 1) := by ring
        rw [this]
      · rcases h3 with h3 | h3
        · exact Or.inl (by simp [h3])
        · exact Or.inr h3

/-- A call of `bf_next_block` after the first one. -/
theorem bf_next_block_later (file : file_st) (hR : 0 < file.record_size)
    (hblock : file.record_size * file.records_per_block < 2 ^ 31)
    (hlast : file.file_data.last ≠ []) :
    ∃ l b, bf_next_block file
          = some ({ file with file_data := { file.file_data with last := b } },
              l.map (pad file.record_size), file.record_size * l.length)
        ∧ Seg file.file_data.alphabet file.file_data.end_ file.file_data.last l b
        ∧ (l.length = file.records_per_block
            ∨ bf_succ file.file_data.alphabet file.file_data.end_ b = none) := by
  have hne : ¬ file.file_data.last.length = 0 := by
    rw [List.length_eq_zero]
    exact hlast
  obtain ⟨l, b, h1, h2, h3⟩ := bf_gen_loop_spec file.file_data.alphabet file.file_data.end_ hR
    (file.record_size * file.records_per_block) file.records_per_block
    (file.record_size * file.records_per_block + 1) 0 file.file_data.last [] (by simp)
    (by have := Nat.le_mul_of_pos_left file.records_per_block hR
        omega)
  refine ⟨l, b, ?_, h2, h3⟩
  simp only [bf_next_block, block_size_fit hblock, hne, decide_False, Bool.false_eq_true,
    if_false, h1]
  simp

/-- The first call of `bf_next_block`: `start` and then a segment. -/
theorem bf_next_block_first {file : file_st} (hR : 0 < file.record_size)
    (hrpb : 0 < file.records_per_block)
    (hblock : file.record_size * file.records_per_block < 2 ^ 31)
    (hlast : file.file_data.last = []) :
    ∃ l b, bf_next_block file
          = some ({ file with file_data := { file.file_data with last := b } },
              (file.file_data.start :: l).map (pad file.record_size),
              file.record_size * (l.length + 1))
        ∧ Seg file.file_data.alphabet file.file_data.end_ file.file_data.start l b
        ∧ (l.length + 1 = file.records_per_block
            ∨ bf_succ file.file_data.alphabet file.file_data.end_ b = none) := by
  obtain ⟨l, b, h1, h2, h3⟩ := bf_gen_loop_spec file.file_data.alphabet file.file_data.end_ hR
    (file.record_size * file.records_per_block) (file.records_per_block - 1)
    (file.record_size * file.records_per_block + 1) file.record_size file.file_data.start
    [pad file.record_size file.file_data.start]
    (by obtain ⟨n, hn⟩ : ∃ n, file.records_per_block = n + 1 :=
          ⟨file.records_per_block - 1, by omega⟩
        rw [hn]
        simp only [Nat.add_sub_cancel]
        ring)
    (by have := Nat.le_mul_of_pos_left file.records_per_block hR
        omega)
  refine ⟨l, b, ?_, h2, ?_⟩
  · simp only [bf_next_block, block_size_fit hblock, hlast, List.length_nil, decide_True,
      if_true, h1]
    simp only [List.map_cons, List.singleton_append, Option.some.injEq, Prod.mk.injEq, true_and]
    ring
  · rcases h3 with h3 | h3
    · exact Or.inl (by omega)
    · exact Or.inr h3

/-- Draining the source after the first call: the rest of the way to `end`. -/
theorem bf_drain_later {alphabet end_ : List Nat} (hnd : alphabet.Nodup)
    (hend : over_alphabet alphabet end_) {R rpb : Nat} (hR : 0 < R) (hrpb : 0 < rpb)
    (hblock : R * rpb < 2 ^ 31) :
    ∀ (d : Nat) (file : file_st), file.file_data.alphabet = alphabet →
      file.file_data.end_ = end_ → file.record_size = R → file.records_per_block = rpb →
      file.file_data.last ≠ [] → over_alphabet alphabet file.file_data.last →
      str_ord alphabet file.file_data.last + d = str_ord alphabet end_ →
      ∃ l, Seg alphabet end_ file.file_data.last l end_
        ∧ ∀ fuel, d < fuel → bf_drain fuel file = some (l.map (pad R)) := by
  intro d
  induction d using Nat.strong_induction_on with
  | _ d ih =>
    intro file hA hE hRs hP hlast hover hord
    obtain ⟨l, b, h1, h2, h3⟩ := bf_next_block_later file (by omega)
      (by rw [hRs, hP]; exact hblock) hlast
    rw [hA, hE] at h2 h3
    obtain ⟨⟨hb1, hb2, hb3⟩, _⟩ := Seg_ord hnd hend h2 hover (by omega)
    cases l with
    | nil =>
      have hbe : b = end_ := by
        rcases h3 with h3 | h3
        · simp only [List.length_nil] at h3
          omega
        · rcases le_end_cases hend hb1 hb3 with h | h
          · exact h
          · obtain ⟨t, ht, _⟩ := bf_succ_spec hnd hend hb1 h
            rw [h3] at ht
            simp at ht
      subst hbe
      refine ⟨[], h2, fun fuel hf => ?_⟩
      obtain ⟨f, rfl⟩ : ∃ f, fuel = f + 1 := ⟨fuel - 1, by omega⟩
      simp [bf_drain, h1]
    | cons t l =>
      have hbne : b ≠ [] := by
        intro hb
        rw [hb, str_ord_nil] at hb2
        simp only [List.length_cons] at hb2
        omega
      simp only [List.length_cons] at hb2
      obtain ⟨m, hm1, hm2⟩ := ih (d - (l.length + 1)) (by omega)
        { file with file_data := { file.file_data with last := b } }
        hA hE hRs hP hbne hb1 (by simp only; omega)
      simp only at hm1
      refine ⟨(t :: l) ++ m, Seg_append h2 hm1, fun fuel hf => ?_⟩
      obtain ⟨f, rfl⟩ : ∃ f, fuel = f + 1 := ⟨fuel - 1, by omega⟩
      have hret : ¬ file.record_size * (l.length + 1) = 0 := by
        have : 0 < file.record_size * (l.length + 1) := Nat.mul_pos (by omega) (by omega)
        omega
      simp only [bf_drain, h1, List.length_cons, hret, if_false, hm2 f (by omega),
        Option.map_some', List.map_append]
      rw [hRs]

/-- Draining a freshly initialised source: `start`, then the way to `end`. -/
theorem bf_drain_first {alphabet end_ : List Nat} (hnd : alphabet.Nodup)
    (hend : over_alphabet alphabet end_) (file : file_st) (hR : 0 < file.record_size)
    (hrpb : 0 < file.records_per_block)
    (hblock : file.record_size * file.records_per_block < 2 ^ 31)
    (hA : file.file_data.alphabet = alphabet)
    (hE : file.file_data.end_ = end_) (hlast : file.file_data.last = [])
    (hstart : file.file_data.start ≠ [] ∨ (2 ≤ file.records_per_block ∧ end_ ≠ []))
    (hover : over_alphabet alphabet file.file_data.start)
    (hord : str_ord alphabet file.file_data.start ≤ str_ord alphabet end_) :
    ∃ l, Seg alphabet end_ file.file_data.start l end_
      ∧ ∀ fuel, str_ord alphabet end_ - str_ord alphabet file.file_data.start + 1 < fuel →
          bf_drain fuel file = some ((file.file_data.start :: l).map (pad file.record_size)) := by
  obtain ⟨l, b, h1, h2, h3⟩ := bf_next_block_first hR hrpb hblock hlast
  rw [hA, hE] at h2 h3
  obtain ⟨⟨hb1, hb2, hb3⟩, _⟩ := Seg_ord hnd hend h2 hover hord
  have hbne : b ≠ [] := by
    intro hb
    rcases hstart with hs | ⟨h2, he⟩
    · have := str_ord_pos hover hs
      rw [hb, str_ord_nil] at hb2
      omega
    · rcases h3 with h3 | h3
      · rw [hb, str_ord_nil] at hb2
        omega
      · have hpos := str_ord_pos hend he
        rw [hb] at h3 hb1
        obtain ⟨t, ht, _⟩ := bf_succ_spec hnd hend hb1 (by rw [str_ord_nil]; exact hpos)
        rw [h3] at ht
        simp at ht
  obtain ⟨m, hm1, hm2⟩ := bf_drain_later hnd hend hR hrpb hblock
    (str_ord alphabet end_ - str_ord alphabet b)
    { file with file_data := { file.file_data with last := b } }
    hA hE rfl rfl hbne hb1 (by simp only; omega)
  simp only at hm1
  refine ⟨l ++ m, Seg_append h2 hm1, fun fuel hf => ?_⟩
  obtain ⟨f, rfl⟩ : ∃ f, fuel = f + 1 := ⟨fuel - 1, by omega⟩
  have hret : ¬ file.record_size * (l.length + 1) = 0 := by
    have : 0 < file.record_size * (l.length + 1) := Nat.mul_pos hR (by omega)
    omega
  simp only [bf_drain, h1, hret, if_false, hm2 f (by omega), Option.map_some',
    List.map_cons, List.map_append, List.cons_append]

/-! ## Brute force: what `brute_force_init` accepts -/

theorem all_in_alphabet_iff (alphabet s : List Nat) :
    all_in_alphabet alphabet s = true ↔ over_alphabet alphabet s := by
  induction s with
  | nil => simp [all_in_alphabet, over_alphabet]
  | cons c s ih =>
    rw [over_alphabet_cons, ← ih]
    simp only [all_in_alphabet, char_index, alp_rank]
    by_cases hc : c ∈ alphabet
    · simp [List.indexOf_lt_length.mpr hc, hc]
    · simp [List.indexOf_lt_length.not.mpr hc, hc]

theorem start_after_end_eq (alphabet : List Nat) :
    ∀ s e : List Nat, start_after_end alphabet s e = lex_lt alphabet e s
  | [], [] => rfl
  | [], _ :: _ => rfl
  | _ :: _, [] => rfl
  | c :: s, d :: e => by
    simp only [start_after_end, lex_lt, start_after_end_eq alphabet s e]
    rcases Nat.lt_trichotomy (alp_rank alphabet c) (alp_rank alphabet d) with h | h | h
    · have h1 : ¬ alp_rank alphabet d < alp_rank alphabet c := by omega
      have h2 : ¬ alp_rank alphabet d = alp_rank alphabet c := by omega
      simp [h, h1, h2]
    · simp [h]
    · simp [h]

theorem brute_force_init_rejects {file : file_st} {rpb : Nat} {start end_ alphabet : List Nat}
    (h : init_rejects start end_ alphabet) :
    brute_force_init file rpb start end_ alphabet = (E_ATTK_SYSTEM, file) := by
  unfold brute_force_init
  by_cases h1 : start.length > end_.length
  · simp [h1]
  by_cases h2 : all_in_alphabet alphabet start = false
  · simp [h1, h2]
  by_cases h3 : all_in_alphabet alphabet end_ = false
  · simp [h1, h2, h3]
  rw [if_neg h1, if_neg h2, if_neg h3]
  rw [Bool.not_eq_false, all_in_alphabet_iff] at h2 h3
  rcases h with h | h | h
  · exact absurd h h1
  · exact absurd ⟨h2, h3⟩ h
  · rw [start_after_end_eq, if_pos h]

theorem brute_force_init_accepts {file : file_st} {rpb : Nat} {start end_ alphabet : List Nat}
    (h : ¬ init_rejects start end_ alphabet) :
    brute_force_init file rpb start end_ alphabet
      = (0, { record_size := (end_.length + 1) % 2 ^ 16
              records_per_block := rpb
              total_records := 0
              file_data := { start := start, end_ := end_, alphabet := alphabet, last := [] } }) := by
  unfold init_rejects at h
  simp only [not_or, not_not] at h
  obtain ⟨h1, ⟨h2, h3⟩, h4⟩ := h
  rw [← all_in_alphabet_iff] at h2 h3
  unfold brute_force_init
  rw [if_neg h1, if_neg (by simp [h2]), if_neg (by simp [h3]), start_after_end_eq, if_neg h4]

/-- An accepted pair of ends is in order in the enumeration. -/
theorem accepted_ord_le {start end_ alphabet : List Nat}
    (h : ¬ init_rejects start end_ alphabet) :
    over_alphabet alphabet start ∧ over_alphabet alphabet end_
      ∧ start.length ≤ end_.length
      ∧ str_ord alphabet start ≤ str_ord alphabet end_ := by
  unfold init_rejects at h
  simp only [not_or, not_not] at h
  obtain ⟨h1, ⟨h2, h3⟩, h4⟩ := h
  refine ⟨h2, h3, by omega, ?_⟩
  rcases Nat.eq_or_lt_of_le (show start.length ≤ end_.length by omega) with heq | hlt
  · have := (lex_lt_iff_val_lt h3 h2 heq.symm).not.mp (fun hl => h4 ⟨heq, hl⟩)
    simp only [str_ord, heq]
    omega
  · have ha := (str_ord_bounds h2).2
    have hb := (str_ord_bounds h3).1
    have hc := geom_mono alphabet.length (show start.length + 1 ≤ end_.length by omega)
    omega

/-- A result 0 of `brute_force_init` means the arguments were not refused. -/
theorem init_ok_not_rejects {file file1 : file_st} {rpb : Nat} {start end_ alphabet : List Nat}
    (h : brute_force_init file rpb start end_ alphabet = (0, file1)) :
    ¬ init_rejects start end_ alphabet := by
  intro hr
  rw [brute_force_init_rejects hr] at h
  simp [E_ATTK_SYSTEM] at h

/-! ## Brute force: the emitted stream -/

/-- The strings of a segment from `start` to `end`, `start` included: their
positions, their order and which strings they are. -/
theorem stream_props {alphabet start end_ : List Nat} (hnd : alphabet.Nodup)
    (hstart : over_alphabet alphabet start) (hend : over_alphabet alphabet end_)
    (hord : str_ord alphabet start ≤ str_ord alphabet end_)
    {l : List (List Nat)} (hseg : Seg alphabet end_ start l end_) :
    (start :: l).length = str_ord alphabet end_ - str_ord alphabet start + 1
      ∧ (start :: l).Pairwise (shortlex_lt alphabet)
      ∧ (start :: l).Nodup
      ∧ (∀ s, s ∈ start :: l ↔ over_alphabet alphabet s ∧ start.length ≤ s.length
          ∧ s.length ≤ end_.length ∧ between alphabet start end_ s)
      ∧ (start :: l).head? = some start
      ∧ (start :: l).getLast? = some end_ := by
  obtain ⟨⟨_, hlen, _⟩, hall⟩ := Seg_ord hnd hend hseg hstart hord
  have hget : ∀ i (hi : i < (start :: l).length), over_alphabet alphabet (start :: l)[i]
      ∧ str_ord alphabet (start :: l)[i] = str_ord alphabet start + i := by
    intro i hi
    cases i with
    | zero => exact ⟨hstart, by simp⟩
    | succ i =>
      have := hall i (by simpa using hi)
      simp only [List.getElem_cons_succ]
      exact ⟨this.1, by omega⟩
  have hpair : (start :: l).Pairwise (shortlex_lt alphabet) := by
    rw [List.pairwise_iff_getElem]
    intro i j hi hj hij
    rw [shortlex_lt_iff_ord_lt (hget i hi).1 (hget j hj).1, (hget i hi).2, (hget j hj).2]
    omega
  have hirr : ∀ s, s ∈ start :: l → ¬ shortlex_lt alphabet s s := by
    intro s hs hlt
    obtain ⟨i, hi, rfl⟩ := List.mem_iff_getElem.mp hs
    rw [shortlex_lt_iff_ord_lt (hget i hi).1 (hget i hi).1] at hlt
    omega
  refine ⟨by simp only [List.length_cons]; omega, hpair, ?_, ?_, rfl, Seg_getLast hseg⟩
  · exact hpair.imp_of_mem (fun {a b} ha _ hab heq => hirr a ha (by rw [← heq] at hab; exact hab))
  · intro s
    constructor
    · intro hs
      obtain ⟨i, hi, rfl⟩ := List.mem_iff_getElem.mp hs
      obtain ⟨ho, he⟩ := hget i hi
      simp only [List.length_cons] at hi
      have h1 : str_ord alphabet start ≤ str_ord alphabet (start :: l)[i] := by omega
      have h2 : str_ord alphabet (start :: l)[i] ≤ str_ord alphabet end_ := by omega
      refine ⟨ho, length_le_of_ord_le hstart ho h1, length_le_of_ord_le ho hend h2, ?_, ?_⟩
      · rcases Nat.eq_or_lt_of_le h1 with h | h
        · exact Or.inl (str_ord_inj ho hstart h.symm)
        · exact Or.inr ((shortlex_lt_iff_ord_lt hstart ho).mpr h)
      · rcases Nat.eq_or_lt_of_le h2 with h | h
        · exact Or.inl (str_ord_inj ho hend h)
        · exact Or.inr ((shortlex_lt_iff_ord_lt ho hend).mpr h)
    · rintro ⟨ho, _, _, hlo, hhi⟩
      have h1 : str_ord alphabet start ≤ str_ord alphabet s := by
        rcases hlo with h | h
        · rw [h]
        · exact Nat.le_of_lt ((shortlex_lt_iff_ord_lt hstart ho).mp h)
      have h2 : str_ord alphabet s ≤ str_ord alphabet end_ := by
        rcases hhi with h | h
        · rw [h]
        · exact Nat.le_of_lt ((shortlex_lt_iff_ord_lt ho hend).mp h)
      have hi : str_ord alphabet s - str_ord alphabet start < (start :: l).length := by
        simp only [List.length_cons]
        omega
      have := hget _ hi
      have heq : s = (start :: l)[str_ord alphabet s - str_ord alphabet start] :=
        str_ord_inj ho this.1 (by omega)
      rw [heq]
      exact List.getElem_mem _

/-- The stream of a source that `brute_force_init` accepted, for an alphabet
without repeated characters, a record size that fits the `uint16_t` field,
and a start string that is not empty (or else at least two records per
block and a non-empty end string). -/
theorem bf_stream {start end_ alphabet : List Nat} (hacc : ¬ init_rejects start end_ alphabet)
    (hnd : alphabet.Nodup) (hfit : end_.length < 65535)
    (file : file_st) (hR : file.record_size = (end_.length + 1) % 2 ^ 16)
    (hrpb : 0 < file.records_per_block)
    (hblock : (end_.length + 1) * file.records_per_block < 2 ^ 31)
    (hne : start ≠ [] ∨ (2 ≤ file.records_per_block ∧ end_ ≠ []))
    (hdata : file.file_data = { start := start, end_ := end_, alphabet := alphabet, last := [] }) :
    ∃ l, Seg alphabet end_ start l end_
      ∧ ∀ fuel, str_ord alphabet end_ - str_ord alphabet start + 1 < fuel →
          bf_drain fuel file = some ((start :: l).map (pad (end_.length + 1))) := by
  obtain ⟨hs, he, _, hord⟩ := accepted_ord_le hacc
  have hR1 : file.record_size = end_.length + 1 := by
    rw [hR]
    exact Nat.mod_eq_of_lt (by omega)
  have := bf_drain_first hnd he file (by omega) hrpb (by rw [hR1]; exact hblock)
    (by rw [hdata]) (by rw [hdata])
    (by rw [hdata]) (by rw [hdata]; exact hne) (by rw [hdata]; exact hs)
    (by rw [hdata]; exact hord)
  rw [hdata, hR1] at this
  exact this

/-! ## Brute force: the count computed by `bf_open_file` -/

theorem mul_loop_modEq (r : Nat) : ∀ n t, mul_loop r n t ≡ t * r ^ n [MOD 2 ^ 64]
  | 0, t => by
    simp only [mul_loop, pow_zero, Nat.mul_one]
    exact Nat.ModEq.refl _
  | n + 1, t => by
    simp only [mul_loop]
    refine (mul_loop_modEq r n _).trans ?_
    have h : t * r % 2 ^ 64 ≡ t * r [MOD 2 ^ 64] := Nat.mod_modEq _ _
    have h2 := h.mul_right (r ^ n)
    have e : t * r ^ (n + 1) = t * r * r ^ n := by ring
    rw [e]
    exact h2

theorem mul_loop_lt (r : Nat) : ∀ n t, t < 2 ^ 64 → mul_loop r n t < 2 ^ 64
  | 0, t, h => by simpa [mul_loop] using h
  | n + 1, t, _ => by
    simp only [mul_loop]
    exact mul_loop_lt r n _ (Nat.mod_lt _ (by norm_num))

theorem finish_loop_modEq (alphabet : List Nat) :
    ∀ cs k total, finish_loop alphabet cs k total ≡ total + comp_sum alphabet cs k [MOD 2 ^ 64]
  | [], k, total => by
    simp only [finish_loop, comp_sum, Nat.add_zero]
    exact Nat.ModEq.refl _
  | c :: cs, k, total => by
    simp only [finish_loop, comp_sum]
    refine (finish_loop_modEq alphabet cs (k + 1) _).trans ?_
    have h1 : mul_loop alphabet.length k ((alphabet.length - 1 - alp_rank alphabet c) % 2 ^ 64)
        ≡ (alphabet.length - 1 - alp_rank alphabet c) * alphabet.length ^ k [MOD 2 ^ 64] :=
      (mul_loop_modEq _ _ _).trans ((Nat.mod_modEq _ _).mul_right _)
    have h2 := (Nat.mod_modEq (total + mul_loop alphabet.length k
      ((alphabet.length - 1 - alp_rank alphabet c) % 2 ^ 64)) (2 ^ 64)).trans
        (Nat.ModEq.add_left total h1)
    have h3 := Nat.ModEq.add_right (comp_sum alphabet cs (k + 1)) h2
    rw [Nat.add_assoc] at h3
    exact h3

theorem finish_loop_lt (alphabet : List Nat) :
    ∀ cs k total, total < 2 ^ 64 → finish_loop alphabet cs k total < 2 ^ 64
  | [], _, total, h => by simpa [finish_loop] using h
  | c :: cs, k, total, _ => by
    simp only [finish_loop]
    exact finish_loop_lt alphabet cs (k + 1) _ (Nat.mod_lt _ (by norm_num))

theorem reach_loop_modEq (r n0 : Nat) :
    ∀ n i total, reach_loop r n0 n i total ≡ total + reach_sum r n0 n i [MOD 2 ^ 64]
  | 0, i, total => by
    simp only [reach_loop, reach_sum, Nat.add_zero]
    exact Nat.ModEq.refl _
  | n + 1, i, total => by
    simp only [reach_loop, reach_sum]
    refine (reach_loop_modEq r n0 n (i + 1) _).trans ?_
    have h1 : mul_loop r (n0 + i) (r % 2 ^ 64) ≡ r ^ (n0 + i + 1) [MOD 2 ^ 64] := by
      have := (mul_loop_modEq r (n0 + i) (r % 2 ^ 64)).trans
        ((Nat.mod_modEq r (2 ^ 64)).mul_right _)
      have e : r ^ (n0 + i + 1) = r * r ^ (n0 + i) := by ring
      rw [e]
      exact this
    have h2 := (Nat.mod_modEq (total + mul_loop r (n0 + i) (r % 2 ^ 64)) (2 ^ 64)).trans
      (Nat.ModEq.add_left total h1)
    have h3 := Nat.ModEq.add_right (reach_sum r n0 n (i + 1)) h2
    rw [Nat.add_assoc] at h3
    exact h3

theorem reach_loop_lt (r n0 : Nat) :
    ∀ n i total, total < 2 ^ 64 → reach_loop r n0 n i total < 2 ^ 64
  | 0, _, total, h => by simpa [reach_loop] using h
  | n + 1, i, total, _ => by
    simp only [reach_loop]
    exact reach_loop_lt r n0 n (i + 1) _ (Nat.mod_lt _ (by norm_num))

theorem remove_loop_modEq (alphabet : List Nat) :
    ∀ cs k total,
      remove_loop alphabet cs k total + comp_sum alphabet cs k ≡ total [MOD 2 ^ 64]
  | [], k, total => by
    simp only [remove_loop, comp_sum, Nat.add_zero]
    exact Nat.ModEq.refl _
  | c :: cs, k, total => by
    simp only [remove_loop, comp_sum]
    have hy := mul_loop_lt alphabet.length k
      ((alphabet.length - 1 - alp_rank alphabet c) % 2 ^ 64) (Nat.mod_lt _ (by norm_num))
    have h1 : mul_loop alphabet.length k ((alphabet.length - 1 - alp_rank alphabet c) % 2 ^ 64)
        ≡ (alphabet.length - 1 - alp_rank alphabet c) * alphabet.length ^ k [MOD 2 ^ 64] :=
      (mul_loop_modEq _ _ _).trans ((Nat.mod_modEq _ _).mul_right _)
    have ih := remove_loop_modEq alphabet cs (k + 1)
      ((total + (2 ^ 64 - mul_loop alphabet.length k
        ((alphabet.length - 1 - alp_rank alphabet c) % 2 ^ 64))) % 2 ^ 64)
    have h2 := (ih.trans (Nat.mod_modEq _ _)).add h1.symm
    have e1 : total + (2 ^ 64 - mul_loop alphabet.length k
          ((alphabet.length - 1 - alp_rank alphabet c) % 2 ^ 64))
        + mul_loop alphabet.length k ((alphabet.length - 1 - alp_rank alphabet c) % 2 ^ 64)
        = total + 2 ^ 64 := by omega
    rw [e1] at h2
    have h3 : total + 2 ^ 64 ≡ total [MOD 2 ^ 64] := by
      simp [Nat.ModEq]
    have h4 := h2.trans h3
    have e2 : remove_loop alphabet cs (k + 1)
          ((total + (2 ^ 64 - mul_loop alphabet.length k
            ((alphabet.length - 1 - alp_rank alphabet c) % 2 ^ 64))) % 2 ^ 64)
          + ((alphabet.length - 1 - alp_rank alphabet c) * alphabet.length ^ k
            + comp_sum alphabet cs (k + 1))
        = remove_loop alphabet cs (k + 1)
          ((total + (2 ^ 64 - mul_loop alphabet.length k
            ((alphabet.length - 1 - alp_rank alphabet c) % 2 ^ 64))) % 2 ^ 64)
          + comp_sum alphabet cs (k + 1)
          + (alphabet.length - 1 - alp_rank alphabet c) * alphabet.length ^ k := by ring
    rw [e2]
    exact h4

theorem remove_loop_lt (alphabet : List Nat) :
    ∀ cs k total, total < 2 ^ 64 → remove_loop alphabet cs k total < 2 ^ 64
  | [], _, total, h => by simpa [remove_loop] using h
  | c :: cs, k, total, _ => by
    simp only [remove_loop]
    exact remove_loop_lt alphabet cs (k + 1) _ (Nat.mod_lt _ (by norm_num))

theorem comp_sum_succ (alphabet : List Nat) :
    ∀ cs k, comp_sum alphabet cs (k + 1) = alphabet.length * comp_sum alphabet cs k
  | [], _ => by simp [comp_sum]
  | c :: cs, k => by
    simp only [comp_sum, comp_sum_succ alphabet cs (k + 1)]
    ring

theorem comp_sum_reverse {alphabet : List Nat} (s : List Nat) (hs : over_alphabet alphabet s) :
    comp_sum alphabet s.reverse 0 + str_val alphabet s + 1 = alphabet.length ^ s.length := by
  induction s using List.reverseRecOn with
  | nil => simp [comp_sum, str_val]
  | append_singleton p c ih =>
    rw [over_alphabet_append] at hs
    have hc := alp_rank_lt (hs.2 c (by simp))
    have ihp := ih hs.1
    have hv : str_val alphabet (p ++ [c])
        = str_val alphabet p * alphabet.length + alp_rank alphabet c := by
      rw [str_val_append]
      simp [str_val]
    have hc2 : comp_sum alphabet (p ++ [c]).reverse 0
        = alphabet.length - 1 - alp_rank alphabet c
          + alphabet.length * comp_sum alphabet p.reverse 0 := by
      rw [List.reverse_append, List.reverse_singleton, List.singleton_append, comp_sum,
        comp_sum_succ]
      simp
    have hl : (p ++ [c]).length = p.length + 1 := by simp
    rw [hv, hc2, hl, pow_succ, ← ihp]
    have e : alphabet.length - 1 - alp_rank alphabet c + alp_rank alphabet c + 1
        = alphabet.length := by omega
    calc alphabet.length - 1 - alp_rank alphabet c
          + alphabet.length * comp_sum alphabet p.reverse 0
          + (str_val alphabet p * alphabet.length + alp_rank alphabet c) + 1
        = alphabet.length * comp_sum alphabet p.reverse 0
          + str_val alphabet p * alphabet.length
          + (alphabet.length - 1 - alp_rank alphabet c + alp_rank alphabet c + 1) := by ring
      _ = (comp_sum alphabet p.reverse 0 + str_val alphabet p + 1) * alphabet.length := by
          rw [e]; ring

theorem reach_sum_geom (r n0 : Nat) :
    ∀ n i, geom r (n0 + i + 1) + reach_sum r n0 n i = geom r (n0 + i + n + 1)
  | 0, i => by simp [reach_sum]
  | n + 1, i => by
    have ih := reach_sum_geom r n0 n (i + 1)
    have e1 : n0 + (i + 1) + 1 = n0 + i + 1 + 1 := by ring
    have e2 : n0 + (i + 1) + n + 1 = n0 + i + (n + 1) + 1 := by ring
    rw [e1, e2] at ih
    simp only [reach_sum]
    rw [← ih]
    simp only [geom]
    ring

/-- The value `bf_open_file` stores is the number of positions from `start`
to `end`, reduced modulo `2 ^ 64`. -/
theorem bf_open_file_total {start end_ alphabet : List Nat}
    (hacc : ¬ init_rejects start end_ alphabet) {file : file_st}
    (hdata : file.file_data = { start := start, end_ := end_, alphabet := alphabet, last := [] }) :
    (bf_open_file file).2.total_records
      = (str_ord alphabet end_ - str_ord alphabet start + 1) % 2 ^ 64 := by
  obtain ⟨hs, he, hlen, hord⟩ := accepted_ord_le hacc
  simp only [bf_open_file, hdata]
  have h1 := finish_loop_modEq alphabet start.reverse 0 1
  have h2 := reach_loop_modEq alphabet.length start.length (end_.length - start.length) 0
    (finish_loop alphabet start.reverse 0 1)
  have h3 := remove_loop_modEq alphabet end_.reverse 0
    (reach_loop alphabet.length start.length (end_.length - start.length) 0
      (finish_loop alphabet start.reverse 0 1))
  have hlt := remove_loop_lt alphabet end_.reverse 0 _
    (reach_loop_lt alphabet.length start.length (end_.length - start.length) 0 _
      (finish_loop_lt alphabet start.reverse 0 1 (by norm_num)))
  have c1 := comp_sum_reverse start hs
  have c2 := comp_sum_reverse end_ he
  have c3 := reach_sum_geom alphabet.length start.length (end_.length - start.length) 0
  have e3 : start.length + 0 + (end_.length - start.length) + 1 = end_.length + 1 := by omega
  rw [e3] at c3
  simp only [Nat.add_zero, geom] at c3
  simp only [str_ord] at hord ⊢
  have hall := h3.trans (h2.trans (Nat.ModEq.add_right _ h1))
  have e : 1 + comp_sum alphabet start.reverse 0
        + reach_sum alphabet.length start.length (end_.length - start.length) 0
      = (geom alphabet.length end_.length + str_val alphabet end_
          - (geom alphabet.length start.length + str_val alphabet start) + 1)
        + comp_sum alphabet end_.reverse 0 := by omega
  rw [e] at hall
  have hfin := Nat.ModEq.add_right_cancel' _ hall
  rw [← Nat.mod_eq_of_lt hlt]
  exact hfin

/-! ## Brute force: the claims -/

/-- C1 (as amended): for every `(start, end, alphabet)` accepted by
`brute_force_init` whose alphabet has no repeated character and whose end
string is shorter than 65535 characters, and every `records_per_block >= 1`
for which the block size `(len(end) + 1) * records_per_block` is below
`2 ^ 31`, provided the start string is not empty (or else
`records_per_block >= 2` and the end string is not empty), repeated
`bf_next_block` calls reach a zero-length block, and the records returned
before it, concatenated, are the zero-padded strings of a list `recs` that
is strictly increasing (shorter
strings first, equal lengths lexicographically by alphabet rank), has no
repetition, holds exactly the strings over the alphabet of length in
`[len(start), len(end)]` that lie between `start` and `end`, begins with
`start` and finishes with `end`. -/
theorem bf_stream_exact (file0 file : file_st) (rpb : Nat) (start end_ alphabet : List Nat)
    (hinit : brute_force_init file0 rpb start end_ alphabet = (0, file))
    (hrpb : 1 ≤ rpb) (hnd : alphabet.Nodup) (hne : start ≠ [] ∨ (2 ≤ rpb ∧ end_ ≠ []))
    (hfit : end_.length < 65535) (hblock : (end_.length + 1) * rpb < 2 ^ 31) :
    ∃ recs : List (List Nat),
      recs.Pairwise (shortlex_lt alphabet) ∧ recs.Nodup
      ∧ (∀ s, s ∈ recs ↔ over_alphabet alphabet s ∧ start.length ≤ s.length
          ∧ s.length ≤ end_.length ∧ between alphabet start end_ s)
      ∧ recs.head? = some start ∧ recs.getLast? = some end_
      ∧ ∃ N, ∀ fuel, N ≤ fuel →
          bf_drain fuel file = some (recs.map (pad (end_.length + 1))) := by
  have hacc := init_ok_not_rejects hinit
  rw [brute_force_init_accepts hacc] at hinit
  have hfile := (Prod.mk.inj hinit).2
  obtain ⟨hs, he, _, hord⟩ := accepted_ord_le hacc
  obtain ⟨l, hseg, hdrain⟩ := bf_stream hacc hnd hfit file
    (by rw [← hfile]) (by rw [← hfile]; exact hrpb) (by rw [← hfile]; exact hblock)
    (by rw [← hfile]; exact hne) (by rw [← hfile])
  obtain ⟨_, h2, h3, h4, h5, h6⟩ := stream_props hnd hs he hord hseg
  exact ⟨start :: l, h2, h3, h4, h5, h6,
    str_ord alphabet end_ - str_ord alphabet start + 2, fun fuel hf => hdrain fuel (by omega)⟩

/-- C1 at alphabet "ab", start "a", end "bb" and two records per block. -/
theorem bf_stream_exact_witness :
    ∃ recs : List (List Nat),
      recs.Pairwise (shortlex_lt [97, 98]) ∧ recs.Nodup
      ∧ (∀ s, s ∈ recs ↔ over_alphabet [97, 98] s ∧ [97].length ≤ s.length
          ∧ s.length ≤ [98, 98].length ∧ between [97, 98] [97] [98, 98] s)
      ∧ recs.head? = some [97] ∧ recs.getLast? = some [98, 98]
      ∧ ∃ N, ∀ fuel, N ≤ fuel →
          bf_drain fuel
            { record_size := 3, records_per_block := 2, total_records := 0,
              file_data := { start := [97], end_ := [98, 98], alphabet := [97, 98], last := [] } }
            = some (recs.map (pad ([98, 98].length + 1))) :=
  bf_stream_exact fileZero _ 2 [97] [98, 98] [97, 98] (by decide) (by decide) (by decide)
    (Or.inl (by decide)) (by decide) (by decide)

theorem cex_wrap_accepted : ¬ init_rejects [] (List.replicate 65535 97) [97] := by
  unfold init_rejects
  simp only [List.length_replicate, List.length_nil, not_or, not_not]
  refine ⟨by omega, ⟨by simp [over_alphabet], over_alphabet_replicate _ (by simp)⟩, ?_⟩
  omega

theorem cex_big_accepted : ¬ init_rejects [97] (List.replicate 64 98) [97, 98] := by
  unfold init_rejects
  simp only [List.length_replicate, List.length_singleton, not_or, not_not]
  refine ⟨by omega, ⟨by simp [over_alphabet], over_alphabet_replicate _ (by simp)⟩, ?_⟩
  omega

theorem cex_empty_one_loops : ∀ fuel, bf_drain fuel cex_empty_one = none := by
  have hstep : bf_next_block cex_empty_one = some (cex_empty_one, [[0, 0]], 2) := by decide
  intro fuel
  induction fuel with
  | zero => rfl
  | succ n ih => simp [bf_drain, hstep, ih]

theorem cex_empty_two_loops : ∀ fuel, bf_drain fuel cex_empty_two = none := by
  have hstep : bf_next_block cex_empty_two = some (cex_empty_two, [[0]], 1) := by decide
  intro fuel
  induction fuel with
  | zero => rfl
  | succ n ih => simp [bf_drain, hstep, ih]

theorem cex_block_halts : ∀ fuel, bf_drain fuel cex_block = none := by
  have hstep : bf_next_block cex_block = none := by decide
  intro fuel
  cases fuel with
  | zero => rfl
  | succ n => simp [bf_drain, hstep]

/-- C1 as stated fails on inputs `brute_force_init` accepts: with the
alphabet "aba" the stream from "a" to "b" stops after "a" and never returns
"b"; with an empty start string, and one record per block or an empty end
string, every call returns the empty record again and no call returns a
zero-length block; with an end string of 65535 characters the record size
wraps to 0 and the first block is already empty; with records of 2 bytes
and `2 ^ 30` records per block the block size is negative as an `int`, no
block is allocated and the first call does not come back. -/
theorem bf_stream_counterexample :
    (brute_force_init fileZero 1 [97] [98] [97, 98, 97] = (0, cex_dup)
      ∧ bf_drain 3 cex_dup = some [[97, 0]])
    ∧ (brute_force_init fileZero 1 [] [97] [97] = (0, cex_empty_one)
      ∧ ∀ fuel, bf_drain fuel cex_empty_one = none)
    ∧ (brute_force_init fileZero 2 [] [] [97] = (0, cex_empty_two)
      ∧ ∀ fuel, bf_drain fuel cex_empty_two = none)
    ∧ (brute_force_init fileZero 2 [] (List.replicate 65535 97) [97] = (0, cex_wrap)
      ∧ ∀ fuel, bf_drain (fuel + 1) cex_wrap = some [])
    ∧ (brute_force_init fileZero 1073741824 [97] [98] [97, 98] = (0, cex_block)
      ∧ block_size cex_block.record_size cex_block.records_per_block = none
      ∧ ∀ fuel, bf_drain fuel cex_block = none) := by
  refine ⟨⟨by decide, by decide⟩, ⟨by decide, cex_empty_one_loops⟩,
    ⟨by decide, cex_empty_two_loops⟩, ⟨?_, fun fuel => rfl⟩,
    ⟨by decide, by decide, cex_block_halts⟩⟩
  rw [brute_force_init_accepts cex_wrap_accepted, List.length_replicate]
  rfl

theorem geom_two (n : Nat) : geom 2 n + 1 = 2 ^ n := by
  induction n with
  | zero => simp [geom]
  | succ n ih =>
    simp only [geom, pow_succ]
    omega

/-- The number of records of the stream and the stored count, for an opened
source. -/
theorem bf_count {start end_ alphabet : List Nat} (hacc : ¬ init_rejects start end_ alphabet)
    (hnd : alphabet.Nodup) (hfit : end_.length < 65535)
    (file : file_st) (hR : file.record_size = (end_.length + 1) % 2 ^ 16)
    (hrpb : 0 < file.records_per_block)
    (hblock : (end_.length + 1) * file.records_per_block < 2 ^ 31)
    (hne : start ≠ [] ∨ (2 ≤ file.records_per_block ∧ end_ ≠ []))
    (hdata : file.file_data = { start := start, end_ := end_, alphabet := alphabet, last := [] }) :
    ∃ out : List (List Nat),
      (∃ N, ∀ fuel, N ≤ fuel → bf_drain fuel (bf_open_file file).2 = some out)
      ∧ out.length = str_ord alphabet end_ - str_ord alphabet start + 1
      ∧ (bf_open_file file).2.total_records = out.length % 2 ^ 64 := by
  obtain ⟨hs, he, _, hord⟩ := accepted_ord_le hacc
  obtain ⟨l, hseg, hdrain⟩ := bf_stream hacc hnd hfit (bf_open_file file).2
    hR hrpb hblock hne hdata
  obtain ⟨h1, _⟩ := stream_props hnd hs he hord hseg
  refine ⟨(start :: l).map (pad (end_.length + 1)),
    ⟨str_ord alphabet end_ - str_ord alphabet start + 2, fun fuel hf => hdrain fuel (by omega)⟩,
    by rw [List.length_map, h1], ?_⟩
  rw [List.length_map, h1]
  exact bf_open_file_total hacc hdata

/-- C2 (as amended): for every `(start, end, alphabet)` accepted by
`brute_force_init` whose alphabet has no repeated character and whose end
string is shorter than 65535 characters, and every `records_per_block >= 1`
for which the block size `(len(end) + 1) * records_per_block` is below
`2 ^ 31`, provided the start string is not empty (or else
`records_per_block >= 2` and the end string is not empty), the
`total_records` computed by
`bf_open_file` is the number of records emitted by repeated `bf_next_block`
calls up to the first zero-length block, reduced modulo `2 ^ 64`; the two
are equal whenever that number is below `2 ^ 64`. -/
theorem bf_total_records_exact (file0 file : file_st) (rpb : Nat)
    (start end_ alphabet : List Nat)
    (hinit : brute_force_init file0 rpb start end_ alphabet = (0, file))
    (hrpb : 1 ≤ rpb) (hnd : alphabet.Nodup) (hne : start ≠ [] ∨ (2 ≤ rpb ∧ end_ ≠ []))
    (hfit : end_.length < 65535) (hblock : (end_.length + 1) * rpb < 2 ^ 31) :
    ∃ out : List (List Nat),
      (∃ N, ∀ fuel, N ≤ fuel → bf_drain fuel (bf_open_file file).2 = some out)
      ∧ (bf_open_file file).2.total_records = out.length % 2 ^ 64
      ∧ (out.length < 2 ^ 64 → (bf_open_file file).2.total_records = out.length) := by
  have hacc := init_ok_not_rejects hinit
  rw [brute_force_init_accepts hacc] at hinit
  have hfile := (Prod.mk.inj hinit).2
  obtain ⟨out, h1, _, h3⟩ := bf_count hacc hnd hfit file
    (by rw [← hfile]) (by rw [← hfile]; exact hrpb) (by rw [← hfile]; exact hblock)
    (by rw [← hfile]; exact hne) (by rw [← hfile])
  exact ⟨out, h1, h3, fun hlt => by rw [h3, Nat.mod_eq_of_lt hlt]⟩

/-- C2 at alphabet "ab", start "a", end "bb" and two records per block. -/
theorem bf_total_records_exact_witness :
    ∃ out : List (List Nat),
      (∃ N, ∀ fuel, N ≤ fuel →
        bf_drain fuel (bf_open_file
          { record_size := 3, records_per_block := 2, total_records := 0,
            file_data := { start := [97], end_ := [98, 98], alphabet := [97, 98],
                           last := [] } }).2 = some out)
      ∧ (bf_open_file
          { record_size := 3, records_per_block := 2, total_records := 0,
            file_data := { start := [97], end_ := [98, 98], alphabet := [97, 98],
                           last := [] } }).2.total_records = out.length % 2 ^ 64
      ∧ (out.length < 2 ^ 64 →
          (bf_open_file
            { record_size := 3, records_per_block := 2, total_records := 0,
              file_data := { start := [97], end_ := [98, 98], alphabet := [97, 98],
                             last := [] } }).2.total_records = out.length) :=
  bf_total_records_exact fileZero _ 2 [97] [98, 98] [97, 98] (by decide) (by decide) (by decide)
    (Or.inl (by decide)) (by decide) (by decide)

/-- The stream does not depend on the stored count. -/
theorem bf_next_block_total (file : file_st) (t : Nat) :
    bf_next_block { file with total_records := t }
      = (bf_next_block file).map (fun r => ({ r.1 with total_records := t }, r.2)) := by
  unfold bf_next_block
  simp only
  cases block_size file.record_size file.records_per_block with
  | none => rfl
  | some k =>
    simp only
    split <;> simp_all

theorem bf_drain_total : ∀ (fuel : Nat) (file : file_st) (t : Nat),
    bf_drain fuel { file with total_records := t } = bf_drain fuel file
  | 0, _, _ => rfl
  | fuel + 1, file, t => by
    simp only [bf_drain, bf_next_block_total]
    cases h : bf_next_block file with
    | none => rfl
    | some r =>
      obtain ⟨f, out, ret⟩ := r
      simp only [Option.map_some']
      split
      · rfl
      · rw [bf_drain_total fuel f t]

theorem bf_drain_open (fuel : Nat) (file : file_st) :
    bf_drain fuel (bf_open_file file).2 = bf_drain fuel file :=
  bf_drain_total fuel file _

theorem geom_one (n : Nat) : geom 1 n = n := by
  induction n with
  | zero => rfl
  | succ n ih => simp [geom, ih]

theorem unary_accepted (n : Nat) : ¬ init_rejects [] (List.replicate n 97) [97] := by
  unfold init_rejects
  simp only [List.length_replicate, List.length_nil, not_or, not_not]
  refine ⟨by omega, ⟨by simp [over_alphabet], over_alphabet_replicate _ (by simp)⟩, ?_⟩
  rintro ⟨h, hl⟩
  rw [← h] at hl
  simp [lex_lt] at hl

/-- The count stored for the alphabet "a", the empty start string and an end
string of `n` letters "a". -/
theorem unary_total (n : Nat) (file : file_st)
    (hdata : file.file_data
      = { start := [], end_ := List.replicate n 97, alphabet := [97], last := [] }) :
    (bf_open_file file).2.total_records = (n + 1) % 2 ^ 64 := by
  rw [bf_open_file_total (unary_accepted n) hdata]
  have hv := str_val_replicate_zero [97] 97 n (by decide)
  simp only [str_ord, List.length_replicate, List.length_singleton, geom_one, hv,
    List.length_nil, str_val, Nat.add_zero, Nat.sub_zero]

/-- C2 as stated fails on inputs `brute_force_init` accepts: with the
alphabet "aba", start "a" and end "b" the stored count is 2 and one record
is emitted; with alphabet "ab", start "a" and an end of 64 letters "b" the
stream has `2 ^ 65 - 2` records and the stored `uint64_t` count is
`2 ^ 64 - 2`; with an empty start string, and one record per block or an
empty end string, a count is stored (2, or 1) and the stream never reaches a
zero-length block; with an end string of 65535 characters the stored count
is 65536 and no record is emitted; with records of 2 bytes and `2 ^ 30`
records per block the stored count is 2 and the first `bf_next_block` call
does not come back. -/
theorem bf_total_records_counterexample :
    ((bf_open_file cex_dup).2.total_records = 2
      ∧ bf_drain 3 (bf_open_file cex_dup).2 = some [[97, 0]])
    ∧ (brute_force_init fileZero 1 [97] (List.replicate 64 98) [97, 98] = (0, cex_big)
      ∧ ∃ out : List (List Nat),
          (∃ N, ∀ fuel, N ≤ fuel → bf_drain fuel (bf_open_file cex_big).2 = some out)
          ∧ out.length = 2 ^ 65 - 2
          ∧ (bf_open_file cex_big).2.total_records = 2 ^ 64 - 2)
    ∧ ((bf_open_file cex_empty_one).2.total_records = 2
      ∧ ∀ fuel, bf_drain fuel cex_empty_one = none)
    ∧ ((bf_open_file cex_empty_two).2.total_records = 1
      ∧ ∀ fuel, bf_drain fuel cex_empty_two = none)
    ∧ ((bf_open_file cex_wrap).2.total_records = 65536
      ∧ ∀ fuel, bf_drain (fuel + 1) (bf_open_file cex_wrap).2 = some [])
    ∧ ((bf_open_file cex_block).2.total_records = 2
      ∧ block_size cex_block.record_size cex_block.records_per_block = none
      ∧ ∀ fuel, bf_drain fuel (bf_open_file cex_block).2 = none) := by
  refine ⟨⟨by decide, by decide⟩, ⟨?_, ?_⟩, ⟨by decide, cex_empty_one_loops⟩,
    ⟨by decide, cex_empty_two_loops⟩, ⟨?_, fun fuel => (bf_drain_open _ _).trans rfl⟩,
    ⟨by decide, by decide, fun fuel => (bf_drain_open _ _).trans (cex_block_halts fuel)⟩⟩
  · rw [brute_force_init_accepts cex_big_accepted, List.length_replicate]
    rfl
  · obtain ⟨out, h1, h2, h3⟩ := bf_count cex_big_accepted (by decide)
      (by rw [List.length_replicate]; omega) cex_big
      (by rw [List.length_replicate]; rfl) (by decide)
      (by rw [List.length_replicate]; decide) (Or.inl (by decide)) rfl
    have hv := str_val_replicate_max [97, 98] 98 64 (by decide)
    have hg := geom_two 64
    have hs : str_ord [97, 98] [97] = 1 := by decide
    have hlen : out.length = 2 ^ 65 - 2 := by
      rw [h2, hs]
      simp only [str_ord, List.length_replicate, List.length_cons, List.length_nil] at hv hg ⊢
      norm_num at hv hg ⊢
      omega
    refine ⟨out, h1, hlen, ?_⟩
    rw [h3, hlen]
    norm_num
  · rw [unary_total 65535 cex_wrap rfl]
    norm_num

/-- C3 (as amended): `brute_force_init` returns `E_ATTK_SYSTEM` and leaves
the file structure untouched when (a) start is longer than end, (b) some
character of start or end does not occur in the alphabet, or (c) start and
end have equal length and start is greater than end lexicographically by
alphabet rank; for every other input it returns 0 with `record_size` equal
to `len(end) + 1` reduced modulo `2 ^ 16`, which is `len(end) + 1` when the
end string is shorter than 65535 characters. -/
theorem brute_force_init_result (file : file_st) (rpb : Nat) (start end_ alphabet : List Nat) :
    (init_rejects start end_ alphabet →
        brute_force_init file rpb start end_ alphabet = (E_ATTK_SYSTEM, file))
    ∧ (¬ init_rejects start end_ alphabet →
        (brute_force_init file rpb start end_ alphabet).1 = 0
        ∧ (brute_force_init file rpb start end_ alphabet).2.record_size
            = (end_.length + 1) % 2 ^ 16
        ∧ (end_.length < 65535 →
            (brute_force_init file rpb start end_ alphabet).2.record_size = end_.length + 1)) := by
  refine ⟨brute_force_init_rejects, fun h => ?_⟩
  rw [brute_force_init_accepts h]
  exact ⟨rfl, rfl, fun hlt => Nat.mod_eq_of_lt (by omega)⟩

/-- C3 at a refused input (start "b" after end "a") and at an accepted one
(start "a", end "bb"). -/
theorem brute_force_init_result_witness :
    brute_force_init fileZero 2 [98] [97] [97, 98] = (E_ATTK_SYSTEM, fileZero)
    ∧ (brute_force_init fileZero 2 [97] [98, 98] [97, 98]).1 = 0
    ∧ (brute_force_init fileZero 2 [97] [98, 98] [97, 98]).2.record_size = 3 :=
  ⟨(brute_force_init_result fileZero 2 [98] [97] [97, 98]).1
      (Or.inr (Or.inr ⟨rfl, by decide⟩)),
    ((brute_force_init_result fileZero 2 [97] [98, 98] [97, 98]).2
      (by decide)).1,
    ((brute_force_init_result fileZero 2 [97] [98, 98] [97, 98]).2
      (by decide)).2.2 (by decide)⟩

/-- C3 as stated fails for an end string of 65535 characters: the call is
accepted, and the 16-bit `record_size` is 0, not `len(end) + 1 = 65536`. -/
theorem brute_force_init_counterexample :
    ¬ init_rejects [] (List.replicate 65535 97) [97]
    ∧ (brute_force_init fileZero 1 [] (List.replicate 65535 97) [97]).1 = 0
    ∧ (brute_force_init fileZero 1 [] (List.replicate 65535 97) [97]).2.record_size = 0
    ∧ (List.replicate 65535 97).length + 1 = 65536 := by
  have hacc : ¬ init_rejects [] (List.replicate 65535 97) [97] := by
    unfold init_rejects
    simp only [List.length_replicate, List.length_nil, not_or, not_not]
    refine ⟨by omega, ⟨by simp [over_alphabet], over_alphabet_replicate _ (by simp)⟩, ?_⟩
    omega
  refine ⟨hacc, ?_, ?_, by rw [List.length_replicate]⟩
  · rw [brute_force_init_accepts hacc]
  · rw [brute_force_init_accepts hacc, List.length_replicate]
    rfl

/-! ## Queue: the entries held -/

theorem getD_set_ne (l : List Nat) {i j : Nat} (a : Nat) (h : i ≠ j) :
    (l.set i a).getD j 0 = l.getD j 0 := by
  simp [List.getD_eq_getElem?_getD, List.getElem?_set_ne h]

theorem getD_set_self (l : List Nat) {i : Nat} (a : Nat) (h : i < l.length) :
    (l.set i a).getD i 0 = a := by
  simp [List.getD_eq_getElem?_getD, h]

theorem queue_init_holds : queue_holds queue_init [] := by
  refine ⟨?_, ?_, ?_, ?_, ?_, ?_, ?_, ?_⟩ <;> simp [queue_init]

theorem queue_push_holds {q q1 : queue} {es : List (Nat × Nat)} {inp size : Nat}
    (h : queue_holds q es) (hp : queue_push q inp size = some q1) :
    queue_holds q1 (es ++ [(inp, size)]) := by
  unfold queue_push at hp
  split at hp
  · rename_i hc
    obtain ⟨_, _, hfull⟩ := hc
    have hq : _ = q1 := Option.some.inj hp
    subst hq
    have hlen : es.length < 20 := by
      have h1 := h.full_eq
      have h2 := h.count_le
      rw [hfull] at h1
      split at h1
      · omega
      · omega
    have htail := h.tail_eq
    have hhead := h.head_lt
    refine ⟨?_, ?_, ?_, ?_, ?_, ?_, ?_, ?_⟩
    · simp only [List.length_set]
      exact h.stack_len
    · simp only [List.length_set]
      exact h.sizes_len
    · exact hhead
    · simp only [List.length_append, List.length_singleton]
      omega
    · simp only [List.length_append, List.length_singleton, QUEUE_SIZE]
      split <;> omega
    · simp
    · simp only [List.length_append, List.length_singleton, QUEUE_SIZE, hfull]
      split_ifs <;> omega
    · intro i hi
      simp only [List.length_append, List.length_singleton] at hi
      rcases Nat.eq_or_lt_of_le (Nat.lt_succ_iff.mp hi) with h1 | h1
      · subst h1
        rw [← htail, getD_set_self _ _ (by rw [h.stack_len]; omega),
          getD_set_self _ _ (by rw [h.sizes_len]; omega)]
        simp
      · have hne : q.tail ≠ (q.head + i) % 20 := by omega
        rw [getD_set_ne _ _ hne, getD_set_ne _ _ hne, List.getElem?_append_left h1]
        exact h.cells i h1
  · simp at hp

theorem queue_pop_holds {q q1 : queue} {es : List (Nat × Nat)} {out size : Nat}
    (h : queue_holds q es) (hp : queue_pop q = some (q1, out, size)) :
    ∃ rest, es = (out, size) :: rest ∧ queue_holds q1 rest := by
  unfold queue_pop at hp
  split at hp
  · rename_i hc
    obtain ⟨_, hempty⟩ := hc
    have hq := Prod.mk.inj (Option.some.inj hp)
    obtain ⟨hq1, hq2⟩ := hq
    have hq3 := Prod.mk.inj hq2
    subst hq1
    have htail := h.tail_eq
    have hhead := h.head_lt
    have hcount := h.count_le
    cases es with
    | nil =>
      have := h.empty_eq
      rw [hempty] at this
      simp at this
    | cons e rest =>
      have h0 := h.cells 0 (by simp)
      simp only [List.getElem?_cons_zero, Nat.add_zero, Nat.mod_eq_of_lt hhead, hq3.1, hq3.2,
        Option.some.injEq] at h0
      simp only [List.length_cons] at htail hcount
      refine ⟨rest, by rw [h0], ?_, ?_, ?_, ?_, ?_, ?_, ?_, ?_⟩
      · simp only [List.length_set]
        exact h.stack_len
      · simp only [List.length_set]
        exact h.sizes_len
      · simp only [QUEUE_SIZE]
        split <;> omega
      · omega
      · simp only [QUEUE_SIZE]
        split <;> omega
      · simp only [QUEUE_SIZE, hempty]
        split_ifs <;> omega
      · simp only
        split
        · omega
        · rfl
      · intro i hi
        have hc := h.cells (i + 1) (by simp only [List.length_cons]; omega)
        simp only [List.getElem?_cons_succ] at hc
        have hidx : ((if q.head + 1 = QUEUE_SIZE then 0 else q.head + 1) + i) % 20
            = (q.head + (i + 1)) % 20 := by
          simp only [QUEUE_SIZE]
          split <;> omega
        have hne : q.head ≠ (q.head + (i + 1)) % 20 := by omega
        simp only [hidx]
        rw [getD_set_ne _ _ hne, getD_set_ne _ _ hne]
        exact hc
  · simp at hp

theorem queue_stop_holds {q : queue} {es : List (Nat × Nat)} (h : queue_holds q es) :
    queue_holds (queue_stop q) es := by
  unfold queue_stop
  split
  · split
    · exact ⟨h.stack_len, h.sizes_len, h.head_lt, h.count_le, h.tail_eq, h.empty_eq, h.full_eq,
        h.cells⟩
    · exact ⟨h.stack_len, h.sizes_len, h.head_lt, h.count_le, h.tail_eq, h.empty_eq, h.full_eq,
        h.cells⟩
  · exact h

/-- A run from a queue holding `es`: the pops return the oldest entries of
`es` followed by the pushed ones, and the queue ends holding the others. -/
theorem queue_run_holds :
    ∀ (ops : List queue_op) (q q1 : queue) (es outs : List (Nat × Nat)),
      queue_holds q es → queue_run q ops = some (q1, outs) →
      pops ops ≤ es.length + (pushed ops).length
        ∧ outs = (es ++ pushed ops).take (pops ops)
        ∧ queue_holds q1 ((es ++ pushed ops).drop (pops ops))
  | [], q, q1, es, outs, h, hr => by
    simp only [queue_run, Option.some.injEq, Prod.mk.injEq] at hr
    obtain ⟨rfl, rfl⟩ := hr
    simpa [pops, pushed] using h
  | queue_op.push inp size :: ops, q, q1, es, outs, h, hr => by
    simp only [queue_run] at hr
    cases hp : queue_push q inp size with
    | none => simp [hp] at hr
    | some q2 =>
      simp only [hp] at hr
      have := queue_run_holds ops q2 q1 _ outs (queue_push_holds h hp) hr
      simp only [List.length_append, List.length_singleton, List.append_assoc,
        List.singleton_append] at this
      simp only [pops, pushed, List.length_cons]
      refine ⟨by omega, this.2.1, this.2.2⟩
  | queue_op.pop :: ops, q, q1, es, outs, h, hr => by
    simp only [queue_run] at hr
    cases hp : queue_pop q with
    | none => simp [hp] at hr
    | some r =>
      obtain ⟨q2, out, size⟩ := r
      simp only [hp] at hr
      cases hrun : queue_run q2 ops with
      | none => simp [hrun] at hr
      | some r2 =>
        obtain ⟨q3, outs2⟩ := r2
        simp only [hrun, Option.map_some', Option.some.injEq, Prod.mk.injEq] at hr
        obtain ⟨rfl, rfl⟩ := hr
        obtain ⟨rest, rfl, hrest⟩ := queue_pop_holds h hp
        have := queue_run_holds ops q2 q3 rest outs2 hrest hrun
        simp only [pops, pushed, List.length_cons, List.cons_append, List.take_succ_cons,
          List.drop_succ_cons]
        refine ⟨by omega, by rw [this.2.1], this.2.2⟩
  | queue_op.stop :: ops, q, q1, es, outs, h, hr => by
    simp only [queue_run] at hr
    have := queue_run_holds ops (queue_stop q) q1 es outs (queue_stop_holds h) hr
    simpa [pops, pushed] using this

/-! ## Queue: the claims -/

/-- C4: for every sequence of `queue_push`, `queue_pop` (and `queue_stop`)
calls on a queue started by `queue_init` in which no assertion fails, the
`queue_pop` calls return, in order, exactly the pointers and sizes given to
the first `queue_push` calls: the k-th pop returns what the k-th push was
given, whatever the positions of head and tail. -/
theorem queue_fifo (ops : List queue_op) (q : queue) (outs : List (Nat × Nat))
    (hrun : queue_run queue_init ops = some (q, outs)) :
    outs.length = pops ops
      ∧ outs = (pushed ops).take (pops ops)
      ∧ ∀ k, k < pops ops → ∃ e, outs[k]? = some e ∧ (pushed ops)[k]? = some e := by
  obtain ⟨h1, h2, _⟩ := queue_run_holds ops queue_init q [] outs queue_init_holds hrun
  simp only [List.nil_append, List.length_nil, Nat.zero_add] at h1 h2
  have hlen : outs.length = pops ops := by
    rw [h2, List.length_take]
    omega
  refine ⟨hlen, h2, fun k hk => ?_⟩
  have hk2 : k < outs.length := by omega
  refine ⟨outs[k], List.getElem?_eq_getElem hk2, ?_⟩
  have : (pushed ops)[k]? = outs[k]? := by
    rw [h2, List.getElem?_take_of_lt hk]
  rw [this, List.getElem?_eq_getElem hk2]

/-- C4 on 21 push and pop pairs: head and tail both wrap around
`QUEUE_SIZE`, and every pop returns what the push before it was given. -/
theorem queue_fifo_witness :
    queue_run queue_init wrap_ops = some (wrap_queue, wrap_outs)
    ∧ wrap_outs.length = pops wrap_ops
    ∧ wrap_outs = (pushed wrap_ops).take (pops wrap_ops)
    ∧ ∀ k, k < pops wrap_ops →
        ∃ e, wrap_outs[k]? = some e ∧ (pushed wrap_ops)[k]? = some e :=
  ⟨by decide, queue_fifo wrap_ops wrap_queue wrap_outs (by decide)⟩

/-- C5: in every queue state reached from `queue_init` by `queue_push`,
`queue_pop` and `queue_stop` calls in which no assertion fails, with `n` the
number of entries held (pushes minus pops): `n` is at most `QUEUE_SIZE = 20`,
the empty flag is 1 exactly when `n = 0` and 0 otherwise, the full flag is 1
exactly when `n = 20` and 0 otherwise; a `queue_push` on a queue holding 20
entries fails its assertion, and on an active queue holding fewer it
succeeds for every positive size. -/
theorem queue_flags (ops : List queue_op) (q : queue) (outs : List (Nat × Nat))
    (hrun : queue_run queue_init ops = some (q, outs)) :
    pops ops ≤ (pushed ops).length
      ∧ (pushed ops).length - pops ops ≤ QUEUE_SIZE
      ∧ (q.empty = 1 ↔ (pushed ops).length - pops ops = 0)
      ∧ (q.empty = 0 ∨ q.empty = 1)
      ∧ (q.full = 1 ↔ (pushed ops).length - pops ops = QUEUE_SIZE)
      ∧ (q.full = 0 ∨ q.full = 1)
      ∧ (∀ inp size, (pushed ops).length - pops ops = QUEUE_SIZE →
          queue_push q inp size = none)
      ∧ (∀ inp size, (pushed ops).length - pops ops < QUEUE_SIZE →
          q.state = QUEUE_STATE_ACTIVE → 0 < size → (queue_push q inp size).isSome = true) := by
  obtain ⟨h1, _, h3⟩ := queue_run_holds ops queue_init q [] outs queue_init_holds hrun
  simp only [List.nil_append, List.length_nil, Nat.zero_add] at h1 h3
  have hc := h3.count_le
  have he := h3.empty_eq
  have hf := h3.full_eq
  simp only [List.length_drop] at hc he hf
  simp only [QUEUE_SIZE]
  refine ⟨h1, hc, ?_, ?_, ?_, ?_, ?_, ?_⟩
  · rw [he]
    split <;> simp_all
  · rw [he]
    split <;> simp
  · rw [hf]
    split <;> simp_all
  · rw [hf]
    split <;> simp
  · intro inp size hn
    have : q.full = 1 := by rw [hf, if_pos hn]
    simp [queue_push, this]
  · intro inp size hn hact hsize
    have : q.full = 0 := by rw [hf, if_neg (by omega)]
    simp [queue_push, this, hact, hsize]

/-- C5 after 20 pushes: the queue is full and refuses a further push. -/
theorem queue_flags_witness :
    queue_run queue_init fill_ops = some (fill_queue, [])
    ∧ (pushed fill_ops).length - pops fill_ops = QUEUE_SIZE
    ∧ fill_queue.full = 1
    ∧ ∀ inp size, queue_push fill_queue inp size = none :=
  ⟨by decide, by decide, by decide, fun inp size =>
    (queue_flags fill_ops fill_queue [] (by decide)).2.2.2.2.2.2.1 inp size (by decide)⟩

/-- C6: on a queue reached from `queue_init`, `queue_stop` moves an active
queue to stopping when it holds entries and to stopped when it holds none,
changes no field but `state`, leaves a stopped queue unchanged, and applying
it twice gives the same queue as applying it once. -/
theorem queue_stop_spec (ops : List queue_op) (q : queue) (outs : List (Nat × Nat))
    (hrun : queue_run queue_init ops = some (q, outs)) :
    (q.state = QUEUE_STATE_ACTIVE → 0 < (pushed ops).length - pops ops →
        (queue_stop q).state = QUEUE_STATE_STOPPING)
      ∧ (q.state = QUEUE_STATE_ACTIVE → (pushed ops).length - pops ops = 0 →
        (queue_stop q).state = QUEUE_STATE_STOPPED)
      ∧ queue_stop q = { q with state := (queue_stop q).state }
      ∧ (q.state = QUEUE_STATE_STOPPED → queue_stop q = q)
      ∧ queue_stop (queue_stop q) = queue_stop q := by
  obtain ⟨_, _, h3⟩ := queue_run_holds ops queue_init q [] outs queue_init_holds hrun
  simp only [List.nil_append, List.length_nil, Nat.zero_add] at h3
  have he := h3.empty_eq
  simp only [List.length_drop] at he
  refine ⟨?_, ?_, ?_, ?_, ?_⟩
  · intro hact hn
    have : q.empty = 0 := by rw [he, if_neg (by omega)]
    simp [queue_stop, hact, this]
  · intro hact hn
    have : q.empty = 1 := by rw [he, if_pos hn]
    simp [queue_stop, hact, this]
  · unfold queue_stop
    split_ifs <;> rfl
  · intro hs
    simp [queue_stop, hs]
  · unfold queue_stop
    split_ifs <;> simp_all

/-- C6 on an active queue holding one entry. -/
theorem queue_stop_spec_witness :
    queue_run queue_init [queue_op.push 5 1] = some (one_queue, [])
    ∧ (queue_stop one_queue).state = QUEUE_STATE_STOPPING :=
  ⟨by decide, (queue_stop_spec [queue_op.push 5 1] one_queue [] (by decide)).1 rfl (by decide)⟩

/-! ## Status snapshot: the claim -/

/-- C9: for every attack state whose installed result (if any) has
`result_size` bytes and every caller buffer of `n = status.result_size`
bytes, `check_attack` sets `status.records_tested` and
`status.total_records` to the attack's counters; if a result is installed it
sets `status.result_size` to `min n (installed size)`, copies exactly that
many leading bytes of the result into the caller's buffer (the bytes after
them are zero); if no result is installed it sets `status.result_size` to 0
and leaves the buffer alone.  The snapshot does not depend on the state
field, and the return value is `E_ATTK_STOPPED` exactly when the state is
stopped and 0 otherwise. -/
theorem check_attack_snapshot (attk_st : attack_st) (status : attack_status) (buf : List Nat)
    (hbuf : status.result = some buf) (hn : buf.length = status.result_size)
    (hres : ∀ res, attk_st._s.result = some res → res.length = attk_st._s.result_size) :
    (check_attack attk_st status).2.records_tested = attk_st._s.records_tested
      ∧ (check_attack attk_st status).2.total_records = attk_st._s.total_records
      ∧ (∀ res, attk_st._s.result = some res →
          (check_attack attk_st status).2.result_size
              = min status.result_size attk_st._s.result_size
            ∧ ∃ obuf, (check_attack attk_st status).2.result = some obuf
              ∧ obuf.length = buf.length
              ∧ obuf.take (min status.result_size attk_st._s.result_size)
                  = res.take (min status.result_size attk_st._s.result_size)
              ∧ obuf.drop (min status.result_size attk_st._s.result_size)
                  = List.replicate
                      (status.result_size - min status.result_size attk_st._s.result_size) 0)
      ∧ (attk_st._s.result = none →
          (check_attack attk_st status).2.result_size = 0
            ∧ (check_attack attk_st status).2.result = status.result)
      ∧ ((check_attack attk_st status).1 = E_ATTK_STOPPED
          ↔ attk_st.state = ATTACK_STATE_STOPPED)
      ∧ ((check_attack attk_st status).1 = 0 ↔ attk_st.state ≠ ATTACK_STATE_STOPPED)
      ∧ ∀ s, (check_attack { attk_st with state := s } status).2
          = (check_attack attk_st status).2 := by
  have hsnd : ∀ a : attack_st, (check_attack a status).2 = fill_status a status := by
    intro a
    unfold check_attack
    split <;> rfl
  refine ⟨?_, ?_, ?_, ?_, ?_, ?_, ?_⟩
  · rw [hsnd]
    unfold fill_status
    split <;> rfl
  · rw [hsnd]
    unfold fill_status
    split <;> rfl
  · intro res hr
    have hlen := hres res hr
    have hmin : (if attk_st._s.result_size < status.result_size then attk_st._s.result_size
        else status.result_size) = min status.result_size attk_st._s.result_size := by
      split <;> omega
    have h1 : (List.take (min status.result_size attk_st._s.result_size) res).length
        = min status.result_size attk_st._s.result_size := by
      rw [List.length_take]
      omega
    have hfs : fill_status attk_st status
        = { records_tested := attk_st._s.records_tested
            total_records := attk_st._s.total_records
            result := some (memcpy (memset_zero buf status.result_size) res
              (min status.result_size attk_st._s.result_size))
            result_size := min status.result_size attk_st._s.result_size } := by
      unfold fill_status
      rw [hr, hbuf]
      simp only [hmin]
    rw [hsnd, hfs]
    refine ⟨rfl, _, rfl, ?_, ?_, ?_⟩
    · simp only [memcpy, memset_zero, List.length_append, List.length_take, List.length_drop,
        List.length_replicate]
      omega
    · simp only [memcpy]
      exact List.take_left' h1
    · simp only [memcpy, memset_zero]
      rw [List.drop_left' h1, List.drop_append_eq_append_drop, List.drop_replicate,
        List.length_replicate, List.drop_drop, List.drop_eq_nil_of_le (by omega),
        List.append_nil]
  · intro hr
    rw [hsnd]
    unfold fill_status
    rw [hr]
    exact ⟨rfl, rfl⟩
  · unfold check_attack
    split
    · rename_i h
      simp only [ne_eq] at h
      simp [h, E_ATTK_STOPPED]
    · rename_i h
      simp only [ne_eq, not_not] at h
      simp [h]
  · unfold check_attack
    split
    · rename_i h
      simp only [ne_eq] at h
      simp [h]
    · rename_i h
      simp only [ne_eq, not_not] at h
      simp [h, E_ATTK_STOPPED]
  · intro s
    rw [hsnd, hsnd]
    rfl

/-- C9 on a stopped attack and a caller buffer of two bytes. -/
theorem check_attack_snapshot_witness :
    check_attack demo_stopped
        { records_tested := 0, total_records := 0, result := some [7, 7], result_size := 2 }
      = (E_ATTK_STOPPED,
          { records_tested := 5, total_records := 6, result := some [98, 97], result_size := 2 })
    ∧ (check_attack demo_stopped
        { records_tested := 0, total_records := 0, result := some [7, 7],
          result_size := 2 }).2.records_tested = 5 :=
  ⟨by decide,
    (check_attack_snapshot demo_stopped
      { records_tested := 0, total_records := 0, result := some [7, 7], result_size := 2 }
      [7, 7] rfl rfl (by decide)).1⟩

/-! ## Client thread: one block -/

/-- The checker call leaves everything but `check_retval`, the output buffer
and the history of calls alone, and adds one call to that history. -/
theorem check_record_spec (env : worker_env) (st : worker_st) (record : List Nat) :
    (∃ slot, (check_record env st record).checks
        = st.checks ++ [(record, (check_record env st record).check_retval, slot)])
      ∧ (check_record env st record).out_locked = st.out_locked
      ∧ (check_record env st record).attk = st.attk
      ∧ (check_record env st record).result = st.result
      ∧ (check_record env st record).out_calls = st.out_calls
      ∧ (check_record env st record).fout_buf_p = st.fout_buf_p := by
  unfold check_record
  cases env.file_out with
  | none => exact ⟨⟨_, rfl⟩, rfl, rfl, rfl, rfl, rfl⟩
  | some out_size => exact ⟨⟨_, rfl⟩, rfl, rfl, rfl, rfl, rfl⟩

/-- The return value the checker call stores is a value of the checker on
the record. -/
theorem check_record_retval (env : worker_env) (st : worker_st) (record : List Nat) :
    ∃ s, (check_record env st record).check_retval = (env.attack_check record s).1 := by
  unfold check_record
  cases env.file_out with
  | none => exact ⟨_, rfl⟩
  | some out_size => exact ⟨_, rfl⟩

/-- With a sink that does not fail and a free output mutex, the statements
after a counted record do not leave the loop. -/
theorem sink_step_ok (env : worker_env) (st : worker_st)
    (hsink : ∀ n data, 0 ≤ env.out_next_block n data) (hlock : st.out_locked = false) :
    ∃ st2, sink_step env st = Except.ok (false, st2)
      ∧ st2.checks = st.checks ∧ st2.check_retval = st.check_retval
      ∧ st2.out_locked = false ∧ st2.attk = st.attk ∧ st2.result = st.result := by
  unfold sink_step
  cases env.file_out with
  | none => exact ⟨st, rfl, rfl, rfl, hlock, rfl, rfl⟩
  | some out_size =>
    simp only
    split
    · unfold flush_full
      simp only [hlock, Bool.false_eq_true, if_false, not_lt.mpr (hsink _ _)]
      exact ⟨_, rfl, rfl, rfl, rfl, rfl, rfl⟩
    · exact ⟨_, rfl, rfl, rfl, hlock, rfl, rfl⟩

/-- The record the loop reads at offset `pre.length` of `pre ++ r ++ rest`. -/
theorem record_at (pre r rest : List Nat) (n : Nat) (h : r.length = n) :
    ((pre ++ (r ++ rest)).drop pre.length).take n = r := by
  rw [List.drop_left, ← h, List.take_left]

theorem getLast?_cons_of_ne_nil {α : Type} (a : α) {l : List α} (h : l ≠ []) :
    (a :: l).getLast? = l.getLast? := by
  cases l with
  | nil => exact absurd rfl h
  | cons b l => exact List.getLast?_cons_cons

/-- With a sink that does not fail and a free output mutex the loop body
comes back: it adds one checker call, counts the record unless the checker
answered `E_ATTK_RECORD_INVALID`, and leaves the loop exactly on the answer 0,
after copying the record into `result`. -/
theorem record_step_ok (env : worker_env) (st : worker_st) (r : List Nat)
    (hsink : ∀ n data, 0 ≤ env.out_next_block n data) (hlock : st.out_locked = false) :
    ∃ st1 ret slot,
      record_step env st r
          = Except.ok (decide (ret = 0), (if ret ≠ E_ATTK_RECORD_INVALID then 1 else 0), st1)
      ∧ st1.checks = st.checks ++ [(r, ret, slot)]
      ∧ st1.check_retval = ret
      ∧ st1.out_locked = false
      ∧ st1.attk = st.attk
      ∧ (ret = 0 → st1.result = r)
      ∧ ∃ s, ret = (env.attack_check r s).1 := by
  obtain ⟨⟨slot, hchk⟩, hlk, hattk, _, _, _⟩ := check_record_spec env st r
  obtain ⟨s, hret⟩ := check_record_retval env st r
  unfold record_step
  simp only
  generalize check_record env st r = st1 at hchk hlk hattk hret ⊢
  by_cases hinv : st1.check_retval = E_ATTK_RECORD_INVALID
  · refine ⟨st1, st1.check_retval, slot, ?_, hchk, rfl, by rw [hlk]; exact hlock, hattk, ?_,
      ⟨s, hret⟩⟩
    · simp [hinv, E_ATTK_RECORD_INVALID]
    · intro h
      rw [hinv] at h
      simp [E_ATTK_RECORD_INVALID] at h
  · obtain ⟨st2, hs1, hs2, hs3, hs4, hs5, _⟩ :=
      sink_step_ok env st1 hsink (by rw [hlk]; exact hlock)
    simp only [hinv, ne_eq, not_false_eq_true, if_true, hs1, hs3]
    by_cases hz : st1.check_retval = 0
    · refine ⟨{ st2 with result := r }, st1.check_retval, slot, ?_, ?_, hs3, hs4,
        hs5.trans hattk, fun _ => rfl, ⟨s, hret⟩⟩
      · simp [hz, hs3, E_ATTK_RECORD_INVALID]
      · simp only [hs2, hchk]
    · refine ⟨st2, st1.check_retval, slot, ?_, ?_, hs3, hs4, hs5.trans hattk,
        fun h => absurd h hz, ⟨s, hret⟩⟩
      · simp [hz, hinv]
      · simp only [hs2, hchk]

/-- The loop over an aligned block, from any record boundary on. -/
theorem block_loop_spec (env : worker_env) (hR : 0 < env.record_size)
    (hsink : ∀ n data, 0 ≤ env.out_next_block n data) :
    ∀ (recs : List (List Nat)) (pre : List Nat) (fuel t : Nat) (st : worker_st),
      (∀ r ∈ recs, r.length = env.record_size) → recs.length < fuel →
      st.out_locked = false →
      ∃ tested st1 calls,
        block_loop env (pre ++ recs.flatten) fuel pre.length t st = Except.ok (tested, st1)
        ∧ st1.checks = st.checks ++ calls
        ∧ calls.map (fun c => c.1) = recs.take calls.length
        ∧ tested = t + calls.countP (fun c => decide (c.2.1 ≠ E_ATTK_RECORD_INVALID))
        ∧ (∀ i c, i + 1 < calls.length → calls[i]? = some c → c.2.1 ≠ 0)
        ∧ (calls.length = recs.length ∨ ∃ c, calls.getLast? = some c ∧ c.2.1 = 0)
        ∧ (st1.out_locked = false ∧ st1.attk = st.attk)
        ∧ (∀ c, calls.getLast? = some c → st1.check_retval = c.2.1)
        ∧ (calls = [] → st1 = st)
        ∧ (∀ c ∈ calls, ∃ s, c.2.1 = (env.attack_check c.1 s).1)
  | [], pre, fuel, t, st, _, hf, hl => by
    obtain ⟨f, rfl⟩ : ∃ f, fuel = f + 1 := ⟨fuel - 1, by omega⟩
    refine ⟨t, st, [], ?_, by simp, by simp, by simp, by simp, Or.inl rfl, ⟨hl, rfl⟩, by simp,
      fun _ => rfl, by simp⟩
    simp [block_loop]
  | r :: rest, pre, fuel, t, st, hrecs, hf, hl => by
    obtain ⟨f, rfl⟩ : ∃ f, fuel = f + 1 := ⟨fuel - 1, by omega⟩
    have hr : r.length = env.record_size := hrecs r (by simp)
    have hrest : ∀ x ∈ rest, x.length = env.record_size := fun x hx => hrecs x (by simp [hx])
    have hlt : pre.length < (pre ++ (r :: rest).flatten).length := by
      simp only [List.flatten_cons, List.length_append]
      omega
    have hrec : ((pre ++ (r :: rest).flatten).drop pre.length).take env.record_size = r := by
      rw [List.flatten_cons]
      exact record_at pre r rest.flatten _ hr
    have hbuf : pre ++ (r :: rest).flatten = (pre ++ r) ++ rest.flatten := by simp
    have hplen : pre.length + env.record_size = (pre ++ r).length := by simp [hr]
    have hf2 : rest.length < f := by simpa using hf
    obtain ⟨st1, ret, slot, hstep, hc1, hc2, hc3, hc4, _, hck⟩ :=
      record_step_ok env st r hsink hl
    rw [block_loop]
    simp only [hlt, if_true, hrec, hstep]
    by_cases hz : ret = 0
    · simp only [hz, decide_True]
      refine ⟨_, st1, [(r, 0, slot)], rfl, by rw [hc1, hz], by simp, ?_, ?_, ?_, ⟨hc3, hc4⟩,
        ?_, by simp, ?_⟩
      · simp [E_ATTK_RECORD_INVALID]
      · intro i c hi
        simp at hi
      · exact Or.inr ⟨_, rfl, rfl⟩
      · intro c hc
        simp only [List.getLast?_singleton, Option.some.injEq] at hc
        rw [← hc, hc2, hz]
      · intro c hc
        rw [List.mem_singleton] at hc
        rw [hc, ← hz]
        exact hck
    · simp only [hz, decide_False]
      rw [hbuf, hplen]
      obtain ⟨tested, st2, calls, h1, h2, h3, h4, h5, h6, h7, h8, h9, h10⟩ :=
        block_loop_spec env hR hsink rest (pre ++ r) f
          (t + if ret ≠ E_ATTK_RECORD_INVALID then 1 else 0) st1 hrest hf2 hc3
      refine ⟨tested, st2, (r, ret, slot) :: calls, h1, ?_, ?_, ?_, ?_, ?_,
        ⟨h7.1, h7.2.trans hc4⟩, ?_, by simp, ?_⟩
      rotate_right
      · intro c hc
        rcases List.mem_cons.mp hc with hc | hc
        · rw [hc]
          exact hck
        · exact h10 c hc
      · rw [h2, hc1, List.append_assoc, List.singleton_append]
      · simp only [List.map_cons, List.length_cons, List.take_succ_cons, h3]
      · rw [h4, List.countP_cons]
        simp only [ne_eq, decide_not, Bool.not_eq_true', decide_eq_false_iff_not, ite_not]
        split <;> first | (simp_all; done) | (simp_all; omega)
      · intro i c hi hc
        cases i with
        | zero =>
          simp only [List.getElem?_cons_zero, Option.some.injEq] at hc
          rw [← hc]
          exact hz
        | succ i =>
          simp only [List.getElem?_cons_succ] at hc
          exact h5 i c (by simpa using hi) hc
      · rcases h6 with h6 | ⟨c, hc1, hc2⟩
        · exact Or.inl (by simp [h6])
        · right
          have hne : calls ≠ [] := by
            intro h
            rw [h] at hc1
            simp at hc1
          exact ⟨c, by rw [getLast?_cons_of_ne_nil _ hne]; exact hc1, hc2⟩
      · intro c hc
        by_cases hne : calls = []
        · subst hne
          simp only [List.getLast?_singleton, Option.some.injEq] at hc
          rw [← hc, h9 rfl]
          exact hc2
        · rw [getLast?_cons_of_ne_nil _ hne] at hc
          exact h8 c hc

theorem length_le_flatten {recs : List (List Nat)} {n : Nat} (hn : 0 < n)
    (h : ∀ r ∈ recs, r.length = n) : recs.length ≤ recs.flatten.length := by
  induction recs with
  | nil => simp
  | cons r rest ih =>
    have h1 := h r (by simp)
    have h2 := ih (fun x hx => h x (by simp [hx]))
    simp only [List.flatten_cons, List.length_append, List.length_cons]
    omega

/-! ## Client thread: what a finished run went through -/

/-- The four ways the statements after a counted record come back. -/
theorem sink_step_cases {env : worker_env} {st st2 : worker_st} {b : Bool}
    (h : sink_step env st = Except.ok (b, st2)) :
    (env.file_out = none ∧ b = false ∧ st2 = st)
    ∨ (∃ S, env.file_out = some S ∧ ¬ fout_buf_size env ≤ st.fout_buf_p + S
        ∧ b = false ∧ st2 = { st with fout_buf_p := st.fout_buf_p + S })
    ∨ (∃ S, env.file_out = some S ∧ fout_buf_size env ≤ st.fout_buf_p + S
        ∧ st.out_locked = false ∧ b = false
        ∧ 0 ≤ env.out_next_block st.out_calls.length
            (st.fout_buf.take (fout_buf_size env))
        ∧ st2 = { st with out_locked := false
                          out_calls := st.out_calls
                            ++ [st.fout_buf.take (fout_buf_size env)]
                          fout_buf := List.replicate (fout_buf_size env) 0
                          fout_buf_p := 0 })
    ∨ (∃ S a, env.file_out = some S ∧ fout_buf_size env ≤ st.fout_buf_p + S
        ∧ st.out_locked = false ∧ b = true
        ∧ env.out_next_block st.out_calls.length
            (st.fout_buf.take (fout_buf_size env)) < 0
        ∧ st2 = { st with fout_buf_p := st.fout_buf_p + S
                          out_locked := true
                          out_calls := st.out_calls
                            ++ [st.fout_buf.take (fout_buf_size env)]
                          attk := a
                          q := queue_stop st.q }) := by
  unfold sink_step at h
  cases hfo : env.file_out with
  | none =>
    simp only [hfo, Except.ok.injEq, Prod.mk.injEq] at h
    exact Or.inl ⟨rfl, h.1.symm, h.2.symm⟩
  | some S =>
    simp only [hfo] at h
    right
    split at h
    · rename_i hfull
      unfold flush_full at h
      simp only at h
      split at h
      · simp at h
      · rename_i hlock
        simp only [Bool.not_eq_true] at hlock
        split at h
        · rename_i hneg
          split at h
          · simp at h
          · rename_i a _
            simp only [Except.ok.injEq, Prod.mk.injEq] at h
            exact Or.inr (Or.inr ⟨S, a, rfl, hfull, hlock, h.1.symm, hneg, h.2.symm⟩)
        · rename_i hret
          simp only [Except.ok.injEq, Prod.mk.injEq] at h
          exact Or.inr (Or.inl ⟨S, rfl, hfull, hlock, h.1.symm, not_lt.mp hret, h.2.symm⟩)
    · rename_i hfull
      simp only [Except.ok.injEq, Prod.mk.injEq] at h
      exact Or.inl ⟨S, rfl, hfull, h.1.symm, h.2.symm⟩

/-- The ways the loop body comes back. -/
theorem record_step_cases {env : worker_env} {st st1 : worker_st} {r : List Nat} {b : Bool}
    {k : Nat} (h : record_step env st r = Except.ok (b, k, st1)) :
    ((check_record env st r).check_retval = E_ATTK_RECORD_INVALID
        ∧ b = false ∧ k = 0 ∧ st1 = check_record env st r)
    ∨ ((check_record env st r).check_retval ≠ E_ATTK_RECORD_INVALID ∧ k = 1
        ∧ ∃ bs st2, sink_step env (check_record env st r) = Except.ok (bs, st2)
          ∧ ((bs = true ∧ b = true ∧ st1 = st2)
            ∨ (bs = false ∧ st2.check_retval = 0 ∧ b = true
                ∧ st1 = { st2 with result := r })
            ∨ (bs = false ∧ st2.check_retval ≠ 0 ∧ b = false ∧ st1 = st2))) := by
  unfold record_step at h
  simp only at h
  split at h
  · rename_i hinv
    right
    split at h
    · simp at h
    · rename_i st2 hs
      simp only [Except.ok.injEq, Prod.mk.injEq] at h
      exact ⟨hinv, h.2.1.symm, true, st2, hs, Or.inl ⟨rfl, h.1.symm, h.2.2.symm⟩⟩
    · rename_i st2 hs
      split at h
      · rename_i hz
        simp only [Except.ok.injEq, Prod.mk.injEq] at h
        exact ⟨hinv, h.2.1.symm, false, st2, hs, Or.inr (Or.inl ⟨rfl, hz, h.1.symm, h.2.2.symm⟩)⟩
      · rename_i hz
        simp only [Except.ok.injEq, Prod.mk.injEq] at h
        exact ⟨hinv, h.2.1.symm, false, st2, hs, Or.inr (Or.inr ⟨rfl, hz, h.1.symm, h.2.2.symm⟩)⟩
  · rename_i hinv
    simp only [ne_eq, not_not] at hinv
    simp only [Except.ok.injEq, Prod.mk.injEq] at h
    exact Or.inl ⟨hinv, h.1.symm, h.2.1.symm, h.2.2.symm⟩

/-- A property that every pass through the loop body keeps holds after the
loop over an aligned block. -/
theorem block_loop_inv (env : worker_env) (hR : 0 < env.record_size)
    (Inv : worker_st → Prop) (Recs : List (List Nat))
    (hstep : ∀ st r b k st1, r ∈ Recs → Inv st →
      record_step env st r = Except.ok (b, k, st1) → Inv st1) :
    ∀ (recs : List (List Nat)) (pre : List Nat) (fuel t : Nat) (st : worker_st)
      (tested : Nat) (st1 : worker_st),
      (∀ r ∈ recs, r.length = env.record_size ∧ r ∈ Recs) → Inv st →
      block_loop env (pre ++ recs.flatten) fuel pre.length t st = Except.ok (tested, st1) →
      Inv st1
  | _, _, 0, _, _, _, _, _, _, h => by simp [block_loop] at h
  | [], pre, fuel + 1, t, st, tested, st1, _, hi, h => by
    simp only [block_loop, List.flatten_nil, List.append_nil, Nat.lt_irrefl, if_false,
      Except.ok.injEq, Prod.mk.injEq] at h
    rw [← h.2]
    exact hi
  | r :: rest, pre, fuel + 1, t, st, tested, st1, hrecs, hi, h => by
    have hr := hrecs r (by simp)
    have hrest : ∀ x ∈ rest, x.length = env.record_size ∧ x ∈ Recs :=
      fun x hx => hrecs x (by simp [hx])
    have hlt : pre.length < (pre ++ (r :: rest).flatten).length := by
      simp only [List.flatten_cons, List.length_append]
      omega
    have hrec : ((pre ++ (r :: rest).flatten).drop pre.length).take env.record_size = r := by
      rw [List.flatten_cons]
      exact record_at pre r rest.flatten _ hr.1
    have hbuf : pre ++ (r :: rest).flatten = (pre ++ r) ++ rest.flatten := by simp
    have hplen : pre.length + env.record_size = (pre ++ r).length := by simp [hr.1]
    rw [block_loop] at h
    simp only [hlt, if_true, hrec] at h
    split at h
    · simp at h
    · rename_i k st2 hs
      simp only [Except.ok.injEq, Prod.mk.injEq] at h
      rw [← h.2]
      exact hstep st r true k st2 hr.2 hi hs
    · rename_i k st2 hs
      rw [hbuf, hplen] at h
      exact block_loop_inv env hR Inv Recs hstep rest (pre ++ r) fuel _ st2 tested st1 hrest
        (hstep st r false k st2 hr.2 hi hs) h

/-- A property that every pass through the loop body keeps, and that does not
depend on the attack structure and the queue, holds after the main loop. -/
theorem worker_loop_inv (env : worker_env) (hR : 0 < env.record_size)
    (Inv : worker_st → Prop) (Recs : List (List Nat))
    (hstep : ∀ st r b k st1, r ∈ Recs → Inv st →
      record_step env st r = Except.ok (b, k, st1) → Inv st1)
    (hmod : ∀ st a q, Inv st → Inv { st with attk := a, q := q }) :
    ∀ (recss : List (List (List Nat))) (st st1 : worker_st),
      (∀ recs ∈ recss, ∀ r ∈ recs, r.length = env.record_size ∧ r ∈ Recs) → Inv st →
      worker_loop env (recss.map List.flatten) st = Except.ok st1 → Inv st1
  | [], st, st1, _, hi, h => by
    simp only [List.map_nil, worker_loop, Except.ok.injEq] at h
    rw [← h]
    exact hi
  | recs :: rest, st, st1, hall, hi, h => by
    have hrecs := hall recs (by simp)
    have hrest : ∀ x ∈ rest, ∀ r ∈ x, r.length = env.record_size ∧ r ∈ Recs :=
      fun x hx => hall x (by simp [hx])
    simp only [List.map_cons, worker_loop] at h
    split at h
    · simp at h
    · rename_i tested st2 hb
      have hi2 : Inv st2 := by
        have := block_loop_inv env hR Inv Recs hstep recs [] (recs.flatten.length + 1) 0 st
          tested st2 hrecs hi
        simp only [List.nil_append, List.length_nil] at this
        exact this hb
      split at h
      · split at h
        · simp at h
        · rename_i a _
          simp only [Except.ok.injEq] at h
          rw [← h]
          exact hmod _ a _ (hmod st2 _ st2.q hi2)
      · split at h
        · simp only [Except.ok.injEq] at h
          rw [← h]
          exact hmod st2 _ st2.q hi2
        · exact worker_loop_inv env hR Inv Recs hstep hmod rest _ st1 hrest
            (hmod st2 _ st2.q hi2) h

theorem answer_inv_step (env : worker_env) (hout : ∀ S, env.file_out = some S → 0 < S)
    (Recs : List (List Nat)) (st : worker_st) (r : List Nat) (b : Bool) (k : Nat)
    (st1 : worker_st) (hr : r ∈ Recs) (hi : answer_inv env Recs st)
    (h : record_step env st r = Except.ok (b, k, st1)) : answer_inv env Recs st1 := by
  obtain ⟨hL, hN, hC, _⟩ := hi
  obtain ⟨⟨slot, hchk⟩, hlk, _, _, _, hp⟩ := check_record_spec env st r
  obtain ⟨s, hret⟩ := check_record_retval env st r
  have hC1 : ∀ c ∈ (check_record env st r).checks,
      c.1 ∈ Recs ∧ ∃ s, c.2.1 = (env.attack_check c.1 s).1 := by
    intro c hc
    rw [hchk, List.mem_append, List.mem_singleton] at hc
    rcases hc with hc | hc
    · exact hC c hc
    · rw [hc]
      exact ⟨hr, s, hret⟩
  have hmem : (r, (check_record env st r).check_retval, slot)
      ∈ (check_record env st r).checks := by
    rw [hchk]
    simp
  have hcases := record_step_cases h
  generalize check_record env st r = st0 at hcases hchk hlk hp hret hC1 hmem
  rcases hcases with ⟨hinv, _, _, rfl⟩ | ⟨_, _, bs, st2, hs, hcase⟩
  · refine ⟨fun S hS hl => ?_, fun hn => by rw [hlk]; exact hN hn, hC1, fun hz => ?_⟩
    · rw [hp]
      exact hL S hS (by rw [← hlk]; exact hl)
    · rw [hinv] at hz
      simp [E_ATTK_RECORD_INVALID] at hz
  · rcases sink_step_cases hs with ⟨hfo, rfl, rfl⟩ | ⟨S, hfo, hnf, rfl, rfl⟩
        | ⟨S, hfo, hfull, hl0, rfl, _, rfl⟩ | ⟨S, a, hfo, hfull, hl0, rfl, _, rfl⟩
    · have hl0 := hN hfo
      rw [← hlk] at hl0
      rcases hcase with ⟨hb, _, _⟩ | ⟨_, hz, _, rfl⟩ | ⟨_, hz, _, rfl⟩
      · simp at hb
      · exact ⟨fun S hS => by rw [hfo] at hS; simp at hS, fun _ => hl0, hC1,
          fun _ => Or.inr ⟨_, hmem, hz, rfl⟩⟩
      · exact ⟨fun S hS => by rw [hfo] at hS; simp at hS, fun _ => hl0, hC1,
          fun h0 => absurd h0 hz⟩
    · have hl0 : st0.out_locked = false := by
        cases hl : st0.out_locked with
        | false => rfl
        | true =>
          have := (hL S hfo (by rw [← hlk]; exact hl)).2
          rw [← hp] at this
          omega
      rcases hcase with ⟨hb, _, _⟩ | ⟨_, hz, _, rfl⟩ | ⟨_, hz, _, rfl⟩
      · simp at hb
      · exact ⟨fun S1 _ hl => by simp [hl0] at hl,
          fun hn => by simp [hfo] at hn, hC1,
          fun _ => Or.inr ⟨_, hmem, hz, rfl⟩⟩
      · exact ⟨fun S1 _ hl => by simp [hl0] at hl,
          fun hn => by simp [hfo] at hn, hC1,
          fun h0 => absurd h0 hz⟩
    · rcases hcase with ⟨hb, _, _⟩ | ⟨_, hz, _, rfl⟩ | ⟨_, hz, _, rfl⟩
      · simp at hb
      · exact ⟨fun S1 _ hl => by simp at hl,
          fun hn => by simp [hfo] at hn, hC1,
          fun _ => Or.inr ⟨_, hmem, hz, rfl⟩⟩
      · exact ⟨fun S1 _ hl => by simp at hl,
          fun hn => by simp [hfo] at hn, hC1,
          fun h0 => absurd h0 hz⟩
    · rcases hcase with ⟨_, _, rfl⟩ | ⟨hb, _, _, _⟩ | ⟨hb, _, _, _⟩
      · refine ⟨fun S1 hS1 _ => ?_, fun hn => by simp [hfo] at hn, hC1,
          fun _ => Or.inl rfl⟩
        rw [hfo] at hS1
        have hS : S = S1 := by simpa using hS1
        subst hS
        have := hout S hfo
        simp only
        exact ⟨by omega, hfull⟩
      · simp at hb
      · simp at hb

theorem answer_inv_mod (env : worker_env) (Recs : List (List Nat)) (st : worker_st)
    (a : attack_st) (q : queue) (hi : answer_inv env Recs st) :
    answer_inv env Recs { st with attk := a, q := q } := hi

/-- The state in which the client thread reaches the statements that set the
answer: if its last checker call answered 0, `result` is an input record on
which the checker answered 0. -/
theorem worker_body_answer (env : worker_env) (recss : List (List (List Nat)))
    (st0 st : worker_st) (hR : 0 < env.record_size)
    (hrecs : ∀ recs ∈ recss, ∀ r ∈ recs, r.length = env.record_size)
    (hout : ∀ S, env.file_out = some S → 0 < S)
    (h0 : answer_inv env recss.flatten st0)
    (hbody : worker_body env (recss.map List.flatten) st0 = Except.ok st) :
    st.check_retval = 0 →
      st.result ∈ recss.flatten ∧ st.result.length = env.record_size
        ∧ ∃ s, (env.attack_check st.result s).1 = 0 := by
  unfold worker_body at hbody
  split at hbody
  · simp at hbody
  · rename_i st1 hloop
    have hinv := worker_loop_inv env hR (answer_inv env recss.flatten) recss.flatten
      (answer_inv_step env hout recss.flatten) (answer_inv_mod env recss.flatten)
      recss st0 st1
      (fun recs hrs r hr => ⟨hrecs recs hrs r hr, List.mem_flatten.mpr ⟨recs, hrs, hr⟩⟩)
      h0 hloop
    obtain ⟨hL, hN, hC, hM⟩ := hinv
    have hfin : st.check_retval = st1.check_retval ∧ st.result = st1.result
        ∧ st1.out_locked = false := by
      unfold final_flush at hbody
      cases hfo : env.file_out with
      | none =>
        simp only [hfo, Except.ok.injEq] at hbody
        rw [← hbody]
        exact ⟨rfl, rfl, hN hfo⟩
      | some S =>
        simp only [hfo] at hbody
        split at hbody
        · split at hbody
          · simp at hbody
          · rename_i hl
            simp only [Bool.not_eq_true] at hl
            split at hbody
            · split at hbody
              · simp at hbody
              · simp only [Except.ok.injEq] at hbody
                rw [← hbody]
                exact ⟨rfl, rfl, hl⟩
            · simp only [Except.ok.injEq] at hbody
              rw [← hbody]
              exact ⟨rfl, rfl, hl⟩
        · rename_i hp
          simp only [Except.ok.injEq] at hbody
          rw [← hbody]
          refine ⟨rfl, rfl, ?_⟩
          cases hl : st1.out_locked with
          | false => rfl
          | true => exact absurd (hL S hfo hl).1 hp
    intro hz
    rw [hfin.1] at hz
    rcases hM hz with hl | ⟨c, hc, hc0, hres⟩
    · rw [hfin.2.2] at hl
      simp at hl
    · obtain ⟨hmem, s, hs⟩ := hC c hc
      obtain ⟨recs, hrs, hr⟩ := List.mem_flatten.mp hmem
      rw [hfin.2.1, hres]
      exact ⟨hmem, hrecs recs hrs c.1 hr, s, by rw [← hs, hc0]⟩

/-! ## Client thread: the claims on one block -/

/-- C7: for every block made of records of `record_size > 0` bytes and every
checker `env.attack_check`, with a sink that does not fail (or no sink) and
the output mutex free, the loop over the block returns; the calls it makes
are calls of that checker on the records of the block in order (each logged
return value is the value of `env.attack_check` on the record and the slot
it was given), up to and including the first one on which the checker
returns 0 (on all of them when there is none) and on no record after it; the
tally `records_tested` of the block is the number of those calls whose
return value is not `E_ATTK_RECORD_INVALID`, whatever else the value is; and
when `free_block` succeeds that tally is what the thread adds to
`attk_st->_s.records_tested`. -/
theorem block_records_tested (env : worker_env) (recs : List (List Nat)) (st : worker_st)
    (hR : 0 < env.record_size) (hrecs : ∀ r ∈ recs, r.length = env.record_size)
    (hsink : ∀ n data, 0 ≤ env.out_next_block n data) (hlock : st.out_locked = false) :
    ∃ tested st1 calls,
      block_loop env recs.flatten (recs.flatten.length + 1) 0 0 st = Except.ok (tested, st1)
      ∧ st1.checks = st.checks ++ calls
      ∧ calls.map (fun c => c.1) = recs.take calls.length
      ∧ (∀ c ∈ calls, ∃ s, c.2.1 = (env.attack_check c.1 s).1)
      ∧ (∀ i c, i + 1 < calls.length → calls[i]? = some c → c.2.1 ≠ 0)
      ∧ (calls.length = recs.length ∨ ∃ c, calls.getLast? = some c ∧ c.2.1 = 0)
      ∧ tested = calls.countP (fun c => decide (c.2.1 ≠ E_ATTK_RECORD_INVALID))
      ∧ (env.free_block recs.flatten = 0 →
          ∃ st2, worker_loop env [recs.flatten] st = Except.ok st2
            ∧ st2.attk._s.records_tested = (st.attk._s.records_tested + tested) % 2 ^ 64) := by
  have hfuel : recs.length < recs.flatten.length + 1 :=
    Nat.lt_succ_of_le (length_le_flatten hR hrecs)
  obtain ⟨tested, st1, calls, h1, h2, h3, h4, h5, h6, h7, _, _, h10⟩ :=
    block_loop_spec env hR hsink recs [] (recs.flatten.length + 1) 0 st hrecs hfuel hlock
  simp only [List.nil_append, List.length_nil, Nat.zero_add] at h1 h4
  refine ⟨tested, st1, calls, h1, h2, h3, h10, h5, h6, h4, fun hfree => ?_⟩
  simp only [worker_loop, h1, hfree, ne_eq, not_true_eq_false, if_false]
  split
  · exact ⟨_, rfl, by simp only [h7.2]⟩
  · exact ⟨_, rfl, by simp only [h7.2]⟩

/-- C7 on the block `[3,3] [9,9] [1,1] [7,7]`: the checker sees the first
three records and two of them are counted. -/
theorem block_records_tested_witness :
    tally_of (block_loop demo_env [[3, 3], [9, 9], [1, 1], [7, 7]].flatten
        ([[3, 3], [9, 9], [1, 1], [7, 7]].flatten.length + 1) 0 0
        (worker_init demo_env demo_attk queue_init)) = some 2
    ∧ ∃ tested st1 calls,
      block_loop demo_env [[3, 3], [9, 9], [1, 1], [7, 7]].flatten
          ([[3, 3], [9, 9], [1, 1], [7, 7]].flatten.length + 1) 0 0
          (worker_init demo_env demo_attk queue_init) = Except.ok (tested, st1)
      ∧ st1.checks = (worker_init demo_env demo_attk queue_init).checks ++ calls
      ∧ calls.map (fun c => c.1) = [[3, 3], [9, 9], [1, 1], [7, 7]].take calls.length
      ∧ (∀ c ∈ calls, ∃ s, c.2.1 = (demo_env.attack_check c.1 s).1)
      ∧ (∀ i c, i + 1 < calls.length → calls[i]? = some c → c.2.1 ≠ 0)
      ∧ (calls.length = [[3, 3], [9, 9], [1, 1], [7, 7]].length
          ∨ ∃ c, calls.getLast? = some c ∧ c.2.1 = 0)
      ∧ tested = calls.countP (fun c => decide (c.2.1 ≠ E_ATTK_RECORD_INVALID))
      ∧ (demo_env.free_block [[3, 3], [9, 9], [1, 1], [7, 7]].flatten = 0 →
          ∃ st2, worker_loop demo_env [[[3, 3], [9, 9], [1, 1], [7, 7]].flatten]
              (worker_init demo_env demo_attk queue_init) = Except.ok st2
            ∧ st2.attk._s.records_tested
                = ((worker_init demo_env demo_attk queue_init).attk._s.records_tested + tested)
                  % 2 ^ 64) :=
  ⟨by decide,
    block_records_tested demo_env [[3, 3], [9, 9], [1, 1], [7, 7]]
      (worker_init demo_env demo_attk queue_init) (by decide) (by decide)
      (fun _ data => by simp [demo_env]) rfl⟩

/-! ## Client thread: what reaches the sink -/

theorem length_flatten_of_length {l : List (List Nat)} {n : Nat}
    (h : ∀ s ∈ l, s.length = n) : l.flatten.length = n * l.length := by
  induction l with
  | nil => simp
  | cons a l ih =>
    have h1 := h a (by simp)
    have h2 := ih (fun s hs => h s (by simp [hs]))
    simp only [List.flatten_cons, List.length_append, List.length_cons, h1, h2]
    ring

theorem sink_inv_mod (env : worker_env) (S : Nat) (st : worker_st) (a : attack_st) (q : queue)
    (hi : sink_inv env S st) : sink_inv env S { st with attk := a, q := q } := hi

theorem install_answer_installed (env : worker_env) (st : worker_st)
    (h : st.attk._s.result_size ≠ 0) : (install_answer env st).attk = st.attk := by
  unfold install_answer
  by_cases hz : st.check_retval = 0
  · simp [hz, h]
  · simp [hz]

theorem install_all_installed (env : worker_env) :
    ∀ (ws : List worker_st) (a : attack_st), a._s.result_size ≠ 0 → install_all env a ws = a
  | [], _, _ => rfl
  | w :: ws, a, h => by
    have h1 : (install_answer env { w with attk := a }).attk = a :=
      install_answer_installed env { w with attk := a } h
    rw [install_all, h1]
    exact install_all_installed env ws a h

/-- Setting the answer with a sink, if there is one, whose records have a
positive size.  For a client thread over blocks of records of
`record_size > 0` bytes that reaches the statements setting the answer, and
for any attack structure `a` it finds there under the attack mutex: if a
result is already installed (`result_size` not 0) or the thread has no
match, the attack structure is left unchanged; if it has a match and no
result is installed, the installed result has `record_size` bytes, equal to
an input record on which the checker returned 0; and once a result is
installed, no later client thread changes the attack structure. -/
theorem result_installed_once (env : worker_env) (recss : List (List (List Nat)))
    (attk0 : attack_st) (q0 : queue) (st : worker_st) (a : attack_st)
    (hR : 0 < env.record_size)
    (hrecs : ∀ recs ∈ recss, ∀ r ∈ recs, r.length = env.record_size)
    (hout : ∀ S, env.file_out = some S → 0 < S)
    (hbody : worker_body env (recss.map List.flatten) (worker_init env attk0 q0)
      = Except.ok st) :
    (a._s.result_size ≠ 0 → (install_answer env { st with attk := a }).attk = a)
      ∧ (st.check_retval ≠ 0 → (install_answer env { st with attk := a }).attk = a)
      ∧ (st.check_retval = 0 → a._s.result_size = 0 →
          ∃ r, (install_answer env { st with attk := a }).attk._s.result = some r
            ∧ (install_answer env { st with attk := a }).attk._s.result_size = env.record_size
            ∧ (install_answer env { st with attk := a }).attk._s.result_size ≠ 0
            ∧ r.length = env.record_size
            ∧ r ∈ recss.flatten
            ∧ ∃ s, (env.attack_check r s).1 = 0)
      ∧ (∀ ws : List worker_st, a._s.result_size ≠ 0 → install_all env a ws = a) := by
  have h0 : answer_inv env recss.flatten (worker_init env attk0 q0) := by
    refine ⟨fun S _ hl => ?_, fun _ => rfl, fun c hc => ?_, fun hz => ?_⟩
    · simp [worker_init] at hl
    · simp [worker_init] at hc
    · simp [worker_init, E_ATTK_RECORD_INVALID] at hz
  have hans := worker_body_answer env recss _ st hR hrecs hout h0 hbody
  refine ⟨fun h => install_answer_installed env { st with attk := a } h, fun h => ?_,
    fun hz hfree => ?_, fun ws h => install_all_installed env ws a h⟩
  · simp [install_answer, h]
  · obtain ⟨hmem, hlen, s, hs⟩ := hans hz
    refine ⟨st.result, ?_, ?_, ?_, hlen, hmem, s, hs⟩
    · simp [install_answer, hz, hfree]
    · simp [install_answer, hz, hfree]
    · simp only [install_answer, hz, hfree, if_true]
      omega

/-- Setting the answer on `demo_recss`: the thread finds no result installed
and installs the record `[1, 1]`; a thread that comes after it changes
nothing. -/
theorem result_installed_once_witness :
    worker_body demo_env (demo_recss.map List.flatten) (worker_init demo_env demo_attk queue_init)
      = Except.ok demo_body_st
    ∧ (install_answer demo_env { demo_body_st with attk := demo_attk }).attk._s.result
        = some [1, 1]
    ∧ (∃ r, (install_answer demo_env { demo_body_st with attk := demo_attk }).attk._s.result
          = some r
        ∧ (install_answer demo_env { demo_body_st with attk := demo_attk }).attk._s.result_size
          = demo_env.record_size
        ∧ (install_answer demo_env { demo_body_st with attk := demo_attk }).attk._s.result_size
          ≠ 0
        ∧ r.length = demo_env.record_size
        ∧ r ∈ demo_recss.flatten
        ∧ ∃ s, (demo_env.attack_check r s).1 = 0) :=
  ⟨rfl, by decide,
    (result_installed_once demo_env demo_recss demo_attk queue_init demo_body_st demo_attk
      (by decide) (by decide)
      (fun S h => by
        have : 1 = S := by simpa [demo_env] using h
        omega)
      rfl).2.2.1 (by decide) (by decide)⟩

/-- C8, the claim fails in the code: a client thread with input records of
two bytes and a sink with records of size 0 whose `next_block` fails.  The
output buffer is full at once; at the record `[1, 1]`, on which the checker
answers 0, the failed write leaves the loop over the records before the
record is copied into `result`.  The output pointer has not moved, so the
statements that write out the rest are passed over, and the thread installs
`result` as it was allocated: two bytes 0, equal to no record of the block,
and to no record the checker answered 0 on. -/
theorem result_installed_unset :
    (∃ st, attack_client_t zero_sink_env [[1, 1, 7, 7]] demo_attk queue_init = Except.ok st
        ∧ st.checks = [([1, 1], 0, [])]
        ∧ st.out_calls = [[]]
        ∧ st.attk.error = E_ATTK_SYSTEM ∧ st.attk.e_state = E_STATE_OUTPUT_FILE
        ∧ st.attk._s.result = some [0, 0]
        ∧ st.attk._s.result_size = 2)
    ∧ [0, 0] ∉ [[1, 1], [7, 7]]
    ∧ (∀ s, (zero_sink_env.attack_check [0, 0] s).1 ≠ 0) :=
  ⟨⟨_, rfl, by decide, by decide, by decide, by decide, by decide, by decide⟩, by decide,
    fun s => by simp [zero_sink_env, demo_check, E_ATTK_RECORD_NO_MATCH]⟩

/-! ## Record files, word lists and the main thread -/

theorem write_at_zero_full (field got : List Nat) (n : Nat) (h : got.length = n) :
    (write_at field 0 got).take n = got := by
  unfold write_at
  simp [List.take_append_eq_append_take, h]

theorem read_into_full (data : List Nat) (pos n : Nat) (field : List Nat)
    (h : pos + n ≤ data.length) :
    read_into { data := data, pos := pos } field n
      = ({ data := data, pos := pos + n }, (data.drop pos).take n) := by
  have hl : ((data.drop pos).take n).length = n := by
    rw [List.length_take, List.length_drop]; omega
  unfold read_into
  simp only [hl]
  rw [write_at_zero_full _ _ _ hl]

theorem read_header_full (b : Bool) (content : List Nat) (h0 : read_file_header_st)
    (h : 268 ≤ content.length) :
    read_header b content h0
      = ({ data := content, pos := if b then 268 else 266 },
         { magic := content.take 4
           description := (content.drop 4).take 256
           file_order := (content.drop 260).take 4
           record_size := (content.drop 264).take 2
           reserved := if b then (content.drop 266).take 2 else h0.reserved }) := by
  unfold read_header
  simp only []
  rw [read_into_full content 0 4 _ (by omega)]
  simp only [Nat.zero_add]
  rw [read_into_full content 4 256 _ (by omega)]
  simp only []
  rw [read_into_full content 260 4 _ (by omega)]
  simp only []
  rw [read_into_full content 264 2 _ (by omega)]
  cases b
  · simp
  · simp only [if_true]
    rw [read_into_full content 266 2 _ (by omega)]
    simp


theorem c_str_eq_iff (a b : List Nat) :
    c_str a = c_str b ↔
      (c_strlen a = c_strlen b ∧ a.take (c_strlen a) = b.take (c_strlen a)) := by
  unfold c_str
  constructor
  · intro h
    have hl : c_strlen a = c_strlen b := by
      have := congrArg List.length h
      rw [List.length_take, List.length_take] at this
      have ha : c_strlen a ≤ a.length := List.indexOf_le_length
      have hb : c_strlen b ≤ b.length := List.indexOf_le_length
      omega
    exact ⟨hl, by rw [h, hl]⟩
  · rintro ⟨hl, ht⟩
    rw [ht, hl]

theorem c_strlen_append (s t : List Nat) (h : 0 ∉ s) :
    c_strlen (s ++ t) = s.length + c_strlen t := by
  unfold c_strlen
  induction s with
  | nil => simp
  | cons a s ih =>
    have ha : a ≠ 0 := fun e => h (by simp [e])
    have hs : 0 ∉ s := fun e => h (by simp [e])
    rw [List.cons_append, List.indexOf_cons_ne _ ha, ih hs]
    simp; omega

theorem c_strlen_cons_zero (t : List Nat) : c_strlen (0 :: t) = 0 := by
  simp [c_strlen]

theorem c_strlen_cons_ne (v : Nat) (t : List Nat) (h : v ≠ 0) :
    c_strlen (v :: t) = c_strlen t + 1 := by
  unfold c_strlen
  rw [List.indexOf_cons_ne _ h]

theorem c_str_not_mem (field : List Nat) : 0 ∉ c_str field := by
  unfold c_str c_strlen
  induction field with
  | nil => simp
  | cons a s ih =>
    by_cases ha : a = 0
    · subst ha; simp
    · rw [List.indexOf_cons_ne _ ha, List.take_succ_cons]
      intro hm
      rcases List.mem_cons.mp hm with h | h
      · exact ha h.symm
      · exact ih h

theorem c_str_decomp (field : List Nat) (h : c_strlen field < field.length) :
    ∃ rest, field = c_str field ++ 0 :: rest := by
  unfold c_str c_strlen at *
  induction field with
  | nil => simp at h
  | cons a s ih =>
    by_cases ha : a = 0
    · subst ha; exact ⟨s, by simp⟩
    · rw [List.indexOf_cons_ne _ ha] at h ⊢
      obtain ⟨rest, hr⟩ := ih (by simpa using h)
      refine ⟨rest, ?_⟩
      rw [List.take_succ_cons, List.cons_append, ← hr]

theorem ntohl_set_ne (b : List Nat) (i v : Nat) (hb : b.length = 4) (hi : i < 4)
    (hv : v ≠ b.getD i 0) : ntohl (b.set i v) ≠ ntohl b := by
  match b, hb with
  | [b0, b1, b2, b3], _ =>
    unfold ntohl
    interval_cases i <;> simp at hv ⊢ <;> omega

theorem init_description_split (junk desc : List Nat) (hl : desc.length < 256) :
    ∃ t, write_at (List.replicate 256 0) 0 ((desc ++ [0] ++ junk).take 255) = desc ++ 0 :: t := by
  have hz : (List.replicate 256 0).drop 255 = [0] := by
    rw [List.drop_replicate]
    rfl
  generalize List.replicate 256 0 = z at hz ⊢
  unfold write_at
  by_cases h : desc.length = 255
  · refine ⟨[], ?_⟩
    have h1 : (desc ++ [0] ++ junk).take 255 = desc := by
      rw [List.append_assoc, List.take_append_eq_append_take, h]
      simp [← h]
    rw [h1, h]
    simp [hz]
  · have h1 : (desc ++ [0] ++ junk).take 255 = desc ++ 0 :: junk.take (254 - desc.length) := by
      rw [List.append_assoc, List.take_append_eq_append_take, List.take_of_length_le (by omega)]
      have : 255 - desc.length = (254 - desc.length) + 1 := by omega
      rw [this]
      simp
    rw [h1]
    exact ⟨junk.take (254 - desc.length)
      ++ z.drop (0 + (desc ++ 0 :: junk.take (254 - desc.length)).length), by simp⟩

theorem read_file_init_fields (junk : List Nat) (h0 : read_file_header_st) (rpb : Nat) (fp : Int)
    (content desc : List Nat) (skip count : Nat) (hfp : 0 ≤ fp) (hlen : 268 ≤ content.length) :
    read_file_init junk h0 rpb fp (some content) desc skip count
      = { record_size := ntohs ((content.drop 264).take 2)
          records_per_block := rpb
          total_records := 0
          file_data := { fp := 0
                         description := write_at (List.replicate 256 0) 0
                           ((desc ++ [0] ++ junk).take 255)
                         file_order := ntohl ((content.drop 260).take 4)
                         skip_records := skip % 2 ^ 64
                         max_records := count % 2 ^ 64
                         current_record := 0 } } := by
  unfold read_file_init sys_open
  have : ¬ ((if (some content : Option (List Nat)) = none then (-1 : Int) else fp) < 0) := by
    simp; omega
  simp only [this, if_false, Option.getD_some]
  rw [read_header_full false content h0 hlen]

theorem read_header_magic (content : List Nat) (h0 : read_file_header_st)
    (h : 4 ≤ content.length) : (read_header true content h0).2.magic = content.take 4 := by
  unfold read_header
  simp only []
  rw [read_into_full content 0 4 _ (by omega)]
  simp

theorem read_open_file_magic (h1 : read_file_header_st) (fp fstat_ret : Int)
    (content : List Nat) (file : record_file_st) (hfp : 0 ≤ fp) (hlen : 4 ≤ content.length)
    (hbad : ntohl (content.take 4) ≠ READ_FILE_MAGIC) :
    ∃ f d, read_open_file h1 fp fstat_ret (some content) file
      = Except.ok (E_ATTK_FILE_INVALID, f, d) := by
  unfold read_open_file sys_open
  have : ¬ ((if (some content : Option (List Nat)) = none then (-1 : Int) else fp) < 0) := by
    simp; omega
  simp only [this, if_false, Option.getD_some]
  rw [read_header_magic content h1 hlen]
  simp only [hbad, ne_eq, not_false_eq_true, if_true]
  exact ⟨_, _, rfl⟩

theorem read_open_file_invalid (h1 : read_file_header_st) (fp fstat_ret : Int)
    (content : List Nat) (file : record_file_st) (hfp : 0 ≤ fp) (hlen : 268 ≤ content.length)
    (hbad : ntohl (content.take 4) ≠ READ_FILE_MAGIC
      ∨ ntohl ((content.drop 260).take 4) ≠ file.file_data.file_order
      ∨ c_str ((content.drop 4).take 256) ≠ c_str file.file_data.description) :
    ∃ f d, read_open_file h1 fp fstat_ret (some content) file
      = Except.ok (E_ATTK_FILE_INVALID, f, d) := by
  unfold read_open_file sys_open
  have : ¬ ((if (some content : Option (List Nat)) = none then (-1 : Int) else fp) < 0) := by
    simp; omega
  simp only [this, if_false, Option.getD_some]
  rw [read_header_full true content h1 hlen]
  simp only []
  simp only [ne_eq, c_str_eq_iff] at hbad
  by_cases a : ntohl (content.take 4) = READ_FILE_MAGIC
  · by_cases b : ntohl ((content.drop 260).take 4) = file.file_data.file_order
    · by_cases c : c_strlen ((content.drop 4).take 256) = c_strlen file.file_data.description
      · have d : ¬ ((content.drop 4).take 256).take (c_strlen ((content.drop 4).take 256))
            = file.file_data.description.take (c_strlen ((content.drop 4).take 256)) := by
          intro d
          rcases hbad with hb | hb | hb
          · exact hb a
          · exact hb b
          · exact hb ⟨c, d⟩
        rw [c] at d
        simp only [a, b, c, d, ne_eq, not_true_eq_false, not_false_eq_true, if_true, if_false]
        exact ⟨_, _, rfl⟩
      · simp only [a, b, c, ne_eq, not_true_eq_false, not_false_eq_true, if_true, if_false]
        exact ⟨_, _, rfl⟩
    · simp only [a, b, ne_eq, not_true_eq_false, not_false_eq_true, if_true, if_false]
      exact ⟨_, _, rfl⟩
  · simp only [a, ne_eq, not_false_eq_true, if_true]
    exact ⟨_, _, rfl⟩

theorem c_str_length (field : List Nat) : (c_str field).length = c_strlen field := by
  unfold c_str
  rw [List.length_take]
  have : c_strlen field ≤ field.length := List.indexOf_le_length
  omega

/-- A changed byte inside the description string, or its NUL, changes the
string. -/
theorem c_str_set_ne (D desc : List Nat) (j v : Nat) (hD : c_str D = desc)
    (hlt : desc.length < D.length) (hj : j ≤ desc.length) (hv : v ≠ D.getD j 0) :
    c_str (D.set j v) ≠ desc := by
  have hnm : 0 ∉ desc := hD ▸ c_str_not_mem D
  have hsl : c_strlen D = desc.length := by rw [← c_str_length, hD]
  obtain ⟨rest, hr⟩ := c_str_decomp D (by omega)
  rw [hD] at hr
  intro habs
  have hl : c_strlen (D.set j v) = desc.length := by rw [← c_str_length, habs]
  rcases Nat.lt_or_ge j desc.length with hjl | hjl
  · -- inside the string
    have h1 : D.set j v = desc.set j v ++ 0 :: rest := by
      rw [hr, List.set_append_left _ _ hjl]
    have h2 : (D.set j v).take desc.length = desc.set j v := by
      rw [h1, List.take_left' (by simp)]
    have h3 : desc.set j v = desc := by
      rw [← h2, ← hl]; exact habs
    have h4 : (desc.set j v).getD j 0 = v := by simp [hjl]
    rw [h3] at h4
    apply hv
    rw [hr, List.getD_append _ _ _ _ hjl, h4]
  · have hje : j = desc.length := by omega
    subst hje
    have h1 : D.set desc.length v = desc ++ v :: rest := by
      rw [hr, List.set_append_right _ _ (le_refl _)]
      simp
    have hv0 : v ≠ 0 := by
      intro e
      apply hv
      rw [hr, e, List.getD_append_right _ _ _ _ (le_refl _)]
      simp
    rw [h1, c_strlen_append _ _ hnm, c_strlen_cons_ne _ _ hv0] at hl
    omega

theorem c_str_append_zero (s t : List Nat) (h : 0 ∉ s) : c_str (s ++ 0 :: t) = s := by
  unfold c_str
  rw [c_strlen_append _ _ h, c_strlen_cons_zero, Nat.add_zero, List.take_left' rfl]

/-- C13 (as amended): for every record file of at least 268 bytes whose
magic number is right and whose description is the configured one, a change
to the value of a byte of the magic number, of the file order or of the
description up to and including its NUL makes `read_open_file`, configured
on the original file, return `E_ATTK_FILE_INVALID`; and it returns
`E_ATTK_FILE_INVALID` for every file whose magic number is not
`0x11BA77AC`.  The file is taken to open. -/
theorem read_open_file_tampered (junk : List Nat) (h0 h1 : read_file_header_st) (rpb : Nat)
    (fp fp2 fstat_ret : Int) (content desc : List Nat) (skip count i v : Nat)
    (hfp : 0 ≤ fp) (hfp2 : 0 ≤ fp2) (hlen : 268 ≤ content.length)
    (hmagic : ntohl (content.take 4) = READ_FILE_MAGIC)
    (hdl : desc.length < 256) (hdesc : c_str ((content.drop 4).take 256) = desc)
    (hi : i < 4 ∨ (4 ≤ i ∧ i ≤ 4 + desc.length) ∨ (260 ≤ i ∧ i < 264))
    (hv : v ≠ content.getD i 0) :
    (∃ f d, read_open_file h1 fp2 fstat_ret (some (content.set i v))
        (read_file_init junk h0 rpb fp (some content) desc skip count)
          = Except.ok (E_ATTK_FILE_INVALID, f, d))
    ∧ ∀ (other : List Nat) (file : record_file_st), 4 ≤ other.length →
        ntohl (other.take 4) ≠ READ_FILE_MAGIC →
        ∃ f d, read_open_file h1 fp2 fstat_ret (some other) file
          = Except.ok (E_ATTK_FILE_INVALID, f, d) := by
  refine ⟨?_, fun other file ho hm => read_open_file_magic h1 fp2 fstat_ret other file hfp2 ho hm⟩
  have hnm : 0 ∉ desc := hdesc ▸ c_str_not_mem _
  apply read_open_file_invalid h1 fp2 fstat_ret _ _ hfp2 (by rw [List.length_set]; exact hlen)
  rw [read_file_init_fields junk h0 rpb fp content desc skip count hfp hlen]
  simp only []
  obtain ⟨t, ht⟩ := init_description_split junk desc hdl
  rw [ht, c_str_append_zero _ _ hnm]
  rcases hi with hi | ⟨hi1, hi2⟩ | ⟨hi1, hi2⟩
  · left
    rw [List.set_take, ← hmagic]
    apply ntohl_set_ne _ _ _ (by rw [List.length_take]; omega) hi
    rw [List.getD_eq_getElem?_getD, List.getElem?_take_of_lt hi, ← List.getD_eq_getElem?_getD]
    exact hv
  · right; right
    have hD : ((content.set i v).drop 4).take 256 = ((content.drop 4).take 256).set (i - 4) v := by
      rw [List.drop_set, if_neg (by omega), List.set_take]
    rw [hD]
    apply c_str_set_ne _ _ _ _ hdesc (by rw [List.length_take, List.length_drop]; omega)
      (by omega)
    rw [List.getD_eq_getElem?_getD, List.getElem?_take_of_lt (by omega), List.getElem?_drop,
      ← List.getD_eq_getElem?_getD]
    have : 4 + (i - 4) = i := by omega
    rw [this]
    exact hv
  · right; left
    have hO : ((content.set i v).drop 260).take 4
        = ((content.drop 260).take 4).set (i - 260) v := by
      rw [List.drop_set, if_neg (by omega), List.set_take]
    rw [hO]
    apply ntohl_set_ne _ _ _ (by rw [List.length_take, List.length_drop]; omega) (by omega)
    rw [List.getD_eq_getElem?_getD, List.getElem?_take_of_lt (by omega), List.getElem?_drop,
      ← List.getD_eq_getElem?_getD]
    have : 260 + (i - 260) = i := by omega
    rw [this]
    exact hv

theorem write_loop_some (w : Nat → Int) (buf : List Nat) (buf_size : Nat) :
    ∀ fuel written counter disk, buf_size + 2 ≤ fuel + counter → counter ≤ buf_size →
      (write_loop w buf buf_size fuel written counter disk).isSome = true := by
  intro fuel
  induction fuel with
  | zero => intro written counter disk h1 h2; omega
  | succ fuel ih =>
    intro written counter disk h1 h2
    unfold write_loop
    split_ifs with a b c
    · rfl
    · exact ih _ _ _ (by omega) (by omega)
    · rfl
    · rfl

/-- `write_next_block` always comes back when the descriptor is positive. -/
theorem write_next_block_returns (w : Nat → Int) (file : sink_file_st) (disk buf : List Nat)
    (buf_size : Nat) (hfp : 0 < file.file_data.fp) :
    ∃ r, write_next_block w file disk buf buf_size = Except.ok r := by
  unfold write_next_block
  simp only [gt_iff_lt, hfp, if_true]
  have := write_loop_some w buf buf_size (buf_size + 2) 0 0 disk (by omega) (by omega)
  cases h : write_loop w buf buf_size (buf_size + 2) 0 0 disk with
  | none => rw [h] at this; simp at this
  | some r => exact ⟨r, rfl⟩

theorem write_next_block_all (file : sink_file_st) (disk buf : List Nat)
    (hfp : 0 < file.file_data.fp) :
    write_next_block (fun _ => (buf.length : Int)) file disk buf buf.length
      = Except.ok ((buf.length : Int), disk ++ buf) := by
  unfold write_next_block
  simp only [gt_iff_lt, hfp, if_true]
  rcases Nat.eq_zero_or_pos buf.length with h0 | hpos
  · have hb : buf = [] := List.length_eq_zero.mp h0
    subst hb
    simp [write_loop]
  · rw [show buf.length + 2 = (buf.length + 0) + 1 + 1 from rfl]
    unfold write_loop
    have h1 : ¬ (0 + 1 > buf.length) := by omega
    simp only [hpos, if_true, Int.natCast_nonneg, Int.toNat_ofNat, Nat.sub_zero, min_self,
      List.drop_zero, h1, if_false, Nat.zero_add]
    unfold write_loop
    simp

theorem write_blocks_all (file : sink_file_st) (hfp : 0 < file.file_data.fp) :
    ∀ (bufs : List (List Nat)) (disk : List Nat),
      write_blocks file bufs disk
        = Except.ok (bufs.map (fun b => (b.length : Int)), disk ++ bufs.flatten) := by
  intro bufs
  induction bufs with
  | nil => intro disk; simp [write_blocks]
  | cons b bufs ih =>
    intro disk
    unfold write_blocks
    rw [write_next_block_all file disk b hfp]
    simp only []
    rw [ih]
    simp

theorem flatten_take_uniform {n : Nat} :
    ∀ (l : List (List Nat)) (k : Nat), (∀ s ∈ l, s.length = n) →
      l.flatten.take (n * k) = (l.take k).flatten := by
  intro l
  induction l with
  | nil => intro k _; simp
  | cons a l ih =>
    intro k h
    cases k with
    | zero => simp
    | succ k =>
      have ha := h a (by simp)
      have := ih k (fun s hs => h s (by simp [hs]))
      rw [List.flatten_cons, List.take_succ_cons, List.flatten_cons,
        show n * (k + 1) = a.length + n * k by rw [ha]; ring,
        List.take_append, this]

/-- Full reads hand back the records of the file, `records_per_block` at a
time, and then a block of length 0. -/
theorem read_drain_records (ks : Nat → Int) (R rpb : Nat) (fp : Int) (hR : 0 < R)
    (hrpb : 0 < rpb) (hblock : R * rpb < 2 ^ 31) (hfp : 0 < fp)
    (hks : ∀ i, ((R * rpb : Nat) : Int) ≤ ks i) :
    ∀ (fuel : Nat) (recs : List (List Nat)) (pre : List Nat) (i : Nat) (file : record_file_st),
      recs.length < fuel → (∀ r ∈ recs, r.length = R) →
      file.record_size = R → file.records_per_block = rpb → file.file_data.fp = fp →
      file.file_data.max_records = 0 →
      ∃ groups : List (List (List Nat)),
        read_drain ks fuel i file { data := pre ++ recs.flatten, pos := pre.length }
          = Except.ok (0, groups.map List.flatten)
        ∧ groups.flatten = recs
        ∧ ∀ g ∈ groups, g ≠ [] ∧ g.length ≤ rpb := by
  intro fuel
  induction fuel with
  | zero => intro recs pre i file h; omega
  | succ fuel ih =>
    intro recs pre i file hlen hrecs hfR hfrpb hffp hmax
    have hgot : (((pre ++ recs.flatten).drop pre.length).take (R * rpb)).take (ks i).toNat
        = (recs.take rpb).flatten := by
      rw [List.drop_left, flatten_take_uniform recs rpb hrecs]
      apply List.take_of_length_le
      have h1 : ((recs.take rpb).flatten).length = R * (recs.take rpb).length :=
        length_flatten_of_length (fun s hs => hrecs s (List.mem_of_mem_take hs))
      have h2 : (recs.take rpb).length ≤ rpb := by rw [List.length_take]; omega
      have h3 := hks i
      have h4 : R * (recs.take rpb).length ≤ R * rpb := Nat.mul_le_mul_left R h2
      omega
    have hk : ¬ ks i < 0 := by have := hks i; omega
    have hreq : read_request file 0 = some (R * rpb) := by
      unfold read_request
      simp only [if_true, hmax, lt_self_iff_false, false_and, if_false, hfR, hfrpb]
      exact block_size_fit hblock
    unfold read_drain read_next_block
    simp only [hffp, gt_iff_lt, hfp, if_true, hfR, Nat.pos_iff_ne_zero.mp hR, if_false, hreq,
      hk, hgot, hmax, hfrpb]
    cases recs with
    | nil =>
      refine ⟨[], ?_, rfl, by simp⟩
      simp
    | cons r rest =>
      have hpos : 0 < ((r :: rest).take rpb).flatten.length := by
        obtain ⟨m, hm⟩ : ∃ m, rpb = m + 1 := ⟨rpb - 1, by omega⟩
        rw [hm, List.take_succ_cons, List.flatten_cons, List.length_append, hrecs r (by simp)]
        omega
      have hnot : ¬ ((((r :: rest).take rpb).flatten.length : Nat) : Int) ≤ 0 := by omega
      simp only [hnot, if_false]
      have hdata : pre ++ (r :: rest).flatten
          = (pre ++ ((r :: rest).take rpb).flatten) ++ ((r :: rest).drop rpb).flatten := by
        rw [List.append_assoc, ← List.flatten_append, List.take_append_drop]
      have hposn : pre.length + ((r :: rest).take rpb).flatten.length
          = (pre ++ ((r :: rest).take rpb).flatten).length := by simp
      have hdl : ((r :: rest).drop rpb).length < fuel := by
        rw [List.length_drop]
        simp only [List.length_cons] at hlen ⊢
        omega
      obtain ⟨groups, hg1, hg2, hg3⟩ := ih ((r :: rest).drop rpb)
        (pre ++ ((r :: rest).take rpb).flatten) (i + 1)
        { record_size := R, records_per_block := rpb, total_records := file.total_records,
          file_data :=
            { fp := fp, description := file.file_data.description,
              file_order := file.file_data.file_order,
              skip_records := file.file_data.skip_records, max_records := 0,
              current_record :=
                (file.file_data.current_record
                  + ((r :: rest).take rpb).flatten.length / R) % 2 ^ 64 } }
        hdl (fun s hs => hrecs s (List.mem_of_mem_drop hs)) rfl rfl rfl rfl
      rw [hdata, hposn, hg1]
      refine ⟨(r :: rest).take rpb :: groups, rfl, ?_, ?_⟩
      · rw [List.flatten_cons, hg2, List.take_append_drop]
      · intro g hg
        rcases List.mem_cons.mp hg with h | h
        · subst h
          refine ⟨?_, by rw [List.length_take]; omega⟩
          intro e
          rw [e] at hpos
          simp at hpos
        · exact hg3 g h

theorem ntohl_htonl (n : Nat) (h : n < 2 ^ 32) : ntohl (htonl n) = n := by
  unfold ntohl htonl
  norm_num at h ⊢
  omega

theorem ntohs_htons (n : Nat) (h : n < 2 ^ 16) : ntohs (htons n) = n := by
  unfold ntohs htons
  norm_num at h ⊢
  omega

theorem header_slices (M D O S V P : List Nat) (hM : M.length = 4) (hD : D.length = 256)
    (hO : O.length = 4) (hS : S.length = 2) :
    (M ++ D ++ O ++ S ++ V ++ P).take 4 = M
    ∧ ((M ++ D ++ O ++ S ++ V ++ P).drop 4).take 256 = D
    ∧ ((M ++ D ++ O ++ S ++ V ++ P).drop 260).take 4 = O
    ∧ ((M ++ D ++ O ++ S ++ V ++ P).drop 264).take 2 = S := by
  have e1 : M ++ D ++ O ++ S ++ V ++ P = M ++ (D ++ (O ++ (S ++ (V ++ P)))) := by
    simp only [List.append_assoc]
  have e2 : M ++ D ++ O ++ S ++ V ++ P = (M ++ D) ++ (O ++ (S ++ (V ++ P))) := by
    simp only [List.append_assoc]
  have e3 : M ++ D ++ O ++ S ++ V ++ P = (M ++ D ++ O) ++ (S ++ (V ++ P)) := by
    simp only [List.append_assoc]
  refine ⟨?_, ?_, ?_, ?_⟩
  · rw [e1, List.take_left' hM]
  · rw [e1, List.drop_left' hM, List.take_left' hD]
  · rw [e2, List.drop_left' (by simp [hM, hD]), List.take_left' hO]
  · rw [e3, List.drop_left' (by simp [hM, hD, hO]), List.take_left' hS]

/-- The description field of a fresh header holds the description and its
NUL. -/
theorem fresh_description (desc : List Nat) (order R : Nat) (hdl : desc.length < 256) :
    (fresh_header (write_file_init desc order R)).description.length = 256
    ∧ ∃ t, (fresh_header (write_file_init desc order R)).description = desc ++ 0 :: t := by
  unfold fresh_header write_file_init header_zero memcpy write_at
  simp only [List.take_zero, List.nil_append, Nat.zero_add]
  rw [List.drop_replicate, List.drop_replicate]
  constructor
  · simp only [List.length_append, List.length_take, List.length_replicate]
    omega
  · have h1 : 256 - desc.length = (255 - desc.length) + 1 := by omega
    rw [List.take_append_eq_append_take, List.take_of_length_le (by omega), h1,
      List.replicate_succ]
    have h2 : 255 - desc.length = ((255 - desc.length) - 1) + 1 ∨ 255 - desc.length = 0 := by
      omega
    rcases h2 with h2 | h2
    · rw [h2, List.take_succ_cons]
      exact ⟨_, by rw [List.append_assoc, List.cons_append]⟩
    · rw [h2]
      simp only [List.take_zero, List.append_nil]
      exact ⟨[], rfl⟩

theorem read_open_file_accepts (h1 : read_file_header_st) (fp fstat_ret : Int)
    (content : List Nat) (file : record_file_st) (hfp : 0 ≤ fp) (hlen : 268 ≤ content.length)
    (hm : ntohl (content.take 4) = READ_FILE_MAGIC)
    (ho : ntohl ((content.drop 260).take 4) = file.file_data.file_order)
    (hd : c_str ((content.drop 4).take 256) = c_str file.file_data.description)
    (hmax : file.file_data.max_records = 0) (hstat : fstat_ret ≠ -1)
    (hR : ntohs ((content.drop 264).take 2) ≠ 0) :
    read_open_file h1 fp fstat_ret (some content) file
      = Except.ok (0,
          { record_size := ntohs ((content.drop 264).take 2)
            records_per_block := file.records_per_block
            total_records := content.length / ntohs ((content.drop 264).take 2)
            file_data := { file.file_data with fp := fp } },
          { data := content, pos := 268 }) := by
  unfold read_open_file sys_open
  have : ¬ ((if (some content : Option (List Nat)) = none then (-1 : Int) else fp) < 0) := by
    simp; omega
  simp only [this, if_false, Option.getD_some]
  rw [read_header_full true content h1 hlen]
  rw [c_str_eq_iff] at hd
  obtain ⟨hd1, hd2⟩ := hd
  simp only [hm, ho, hd1, ne_eq, not_true_eq_false, if_false, hmax, if_true, hstat, hR]
  rw [hd1] at hd2
  simp only [hd2, not_true_eq_false, if_false]

/-- C12 (as amended): for every description shorter than 256 bytes, every
file order, every record size of at least 1 and every sequence of records,
the file the sink creates on an absent path and fills through
`write_next_block` is accepted by the record-file source set up with the
same description and at least one record per block, the block size
`record_size * records_per_block` below `2 ^ 31`; the source reports the
same record size and file order and, its reads delivering all the bytes
asked for, returns the same records in the same order, `records_per_block`
at a time, until a block of length 0.  The system calls are taken to
succeed. -/
theorem sink_source_roundtrip (junk : List Nat) (h0 h1 : read_file_header_st) (errno : Nat)
    (fp fp2 fstat_ret : Int) (desc : List Nat) (order R rpb : Nat)
    (recss : List (List (List Nat))) (ks : Nat → Int)
    (hfp : 0 < fp) (hfp2 : 0 < fp2) (hstat : fstat_ret ≠ -1)
    (hdl : desc.length < 256) (hnul : 0 ∉ desc) (horder : order < 2 ^ 32)
    (hR : 0 < R) (hR16 : R < 2 ^ 16) (hrpb : 0 < rpb) (hblock : R * rpb < 2 ^ 31)
    (hrecs : ∀ g ∈ recss, ∀ r ∈ g, r.length = R)
    (hks : ∀ i, ((R * rpb : Nat) : Int) ≤ ks i) :
    ∃ sink hdr disk,
      write_open_file errno fp none (write_file_init desc order R) = (0, sink, some hdr)
      ∧ write_blocks sink (recss.map List.flatten) hdr
          = Except.ok ((recss.map List.flatten).map (fun b => (b.length : Int)), disk)
      ∧ (read_file_init junk h0 rpb fp2 (some disk) desc 0 0).record_size = R
      ∧ (read_file_init junk h0 rpb fp2 (some disk) desc 0 0).file_data.file_order = order
      ∧ ∃ src fd,
          read_open_file h1 fp2 fstat_ret (some disk)
            (read_file_init junk h0 rpb fp2 (some disk) desc 0 0) = Except.ok (0, src, fd)
          ∧ src.record_size = R ∧ src.file_data.file_order = order
          ∧ ∃ N, ∀ fuel, N ≤ fuel → ∃ groups : List (List (List Nat)),
              read_drain ks fuel 0 src fd = Except.ok (0, groups.map List.flatten)
              ∧ groups.flatten = recss.flatten
              ∧ ∀ g ∈ groups, g ≠ [] ∧ g.length ≤ rpb := by
  have hR' : R % 2 ^ 16 = R := Nat.mod_eq_of_lt hR16
  have ho' : order % 2 ^ 32 = order := Nat.mod_eq_of_lt horder
  obtain ⟨hDl, tD, hD⟩ := fresh_description desc order R hdl
  -- the header that is written
  set hd := fresh_header (write_file_init desc order R) with hhd
  have hmg : hd.magic = htonl READ_FILE_MAGIC := rfl
  have hfo : hd.file_order = htonl order := by
    show htonl (order % 2 ^ 32) = htonl order
    rw [ho']
  have hrs : hd.record_size = htons R := by
    show htons (R % 2 ^ 16) = htons R
    rw [hR']
  have hrv : hd.reserved = List.replicate 2 0 := rfl
  set hdr := hd.magic ++ hd.description ++ hd.file_order ++ hd.record_size ++ hd.reserved
    with hhdr
  have hhl : hdr.length = 268 := by
    rw [hhdr]
    simp only [List.length_append, hDl, hmg, hfo, hrs, hrv, htonl, htons, List.length_cons,
      List.length_nil, List.length_replicate]
  set payload := (recss.map List.flatten).flatten with hpl
  have hsl := header_slices hd.magic hd.description hd.file_order hd.record_size hd.reserved
    payload (by rw [hmg]; rfl) hDl (by rw [hfo]; rfl) (by rw [hrs]; rfl)
  rw [← hhdr] at hsl
  obtain ⟨s1, s2, s3, s4⟩ := hsl
  have hlen : 268 ≤ (hdr ++ payload).length := by rw [List.length_append]; omega
  have hinit := read_file_init_fields junk h0 rpb fp2 (hdr ++ payload) desc 0 0
    (le_of_lt hfp2) hlen
  have hrsz : ntohs (((hdr ++ payload).drop 264).take 2) = R := by
    rw [s4, hrs, ntohs_htons R hR16]
  have hord : ntohl (((hdr ++ payload).drop 260).take 4) = order := by
    rw [s3, hfo, ntohl_htonl order horder]
  have hmag : ntohl ((hdr ++ payload).take 4) = READ_FILE_MAGIC := by
    rw [s1, hmg]
    exact ntohl_htonl _ (by norm_num [READ_FILE_MAGIC])
  obtain ⟨tC, hC⟩ := init_description_split junk desc hdl
  have hdesc : c_str (((hdr ++ payload).drop 4).take 256)
      = c_str (read_file_init junk h0 rpb fp2 (some (hdr ++ payload)) desc 0 0).file_data.description := by
    rw [hinit, s2, hD]
    simp only []
    rw [hC, c_str_append_zero _ _ hnul, c_str_append_zero _ _ hnul]
  have hopen := read_open_file_accepts h1 fp2 fstat_ret (hdr ++ payload)
    (read_file_init junk h0 rpb fp2 (some (hdr ++ payload)) desc 0 0) (le_of_lt hfp2) hlen hmag
    (by rw [hinit]) hdesc (by rw [hinit]; rfl) hstat (by rw [hrsz]; omega)
  have hrecs' : ∀ r ∈ recss.flatten, r.length = R := by
    intro r hr
    obtain ⟨g, hg, hrg⟩ := List.mem_flatten.mp hr
    exact hrecs g hg r hrg
  have hpay : payload = recss.flatten.flatten := by
    rw [hpl, List.flatten_flatten]
  refine ⟨{ (write_file_init desc order R) with
      file_data := { (write_file_init desc order R).file_data with fp := fp } }, hdr,
    hdr ++ payload, ?_, ?_, ?_, ?_, ?_⟩
  · unfold write_open_file
    have : ¬ fp < 0 := by omega
    simp only [if_true, this, if_false]
  · exact write_blocks_all _ hfp _ _
  · rw [hinit]; exact hrsz
  · rw [hinit]; exact hord
  · refine ⟨_, _, hopen, hrsz, ?_, recss.flatten.length + 1, ?_⟩
    · rw [hinit]; exact hord
    · intro fuel hfuel
      have := read_drain_records ks R rpb fp2 hR hrpb hblock hfp2 hks fuel recss.flatten hdr 0
        { record_size := ntohs (((hdr ++ payload).drop 264).take 2)
          records_per_block :=
            (read_file_init junk h0 rpb fp2 (some (hdr ++ payload)) desc 0 0).records_per_block
          total_records := (hdr ++ payload).length / ntohs (((hdr ++ payload).drop 264).take 2)
          file_data :=
            { (read_file_init junk h0 rpb fp2 (some (hdr ++ payload)) desc 0 0).file_data with
              fp := fp2 } }
        (by omega) hrecs' hrsz (by rw [hinit]) rfl (by rw [hinit]; rfl)
      rw [← hpay, hhl] at this
      exact this

theorem fgets_chars_line : ∀ (l : List Nat) (n : Nat) (rest : List Nat), 10 ∉ l → l.length < n →
    fgets_chars n (l ++ 10 :: rest) = (l ++ [10], false) := by
  intro l
  induction l with
  | nil =>
    intro n rest _ hn
    obtain ⟨m, rfl⟩ : ∃ m, n = m + 1 := ⟨n - 1, by simp at hn; omega⟩
    simp [fgets_chars]
  | cons a l ih =>
    intro n rest h10 hn
    obtain ⟨m, rfl⟩ : ∃ m, n = m + 1 := ⟨n - 1, by simp at hn; omega⟩
    have ha : a ≠ 10 := fun e => h10 (by simp [e])
    have hl : 10 ∉ l := fun e => h10 (by simp [e])
    rw [List.cons_append, fgets_chars]
    simp only [ha, if_false]
    rw [ih m rest hl (by simp at hn; omega)]
    simp

theorem fgets_chars_full : ∀ (c : List Nat) (n : Nat) (rest : List Nat), 10 ∉ c → c.length = n →
    fgets_chars n (c ++ rest) = (c, false) := by
  intro c
  induction c with
  | nil =>
    intro n rest _ hn
    simp at hn
    subst hn
    simp [fgets_chars]
  | cons a l ih =>
    intro n rest h10 hn
    obtain ⟨m, rfl⟩ : ∃ m, n = m + 1 := ⟨n - 1, by simp at hn; omega⟩
    have ha : a ≠ 10 := fun e => h10 (by simp [e])
    have hl : 10 ∉ l := fun e => h10 (by simp [e])
    rw [List.cons_append, fgets_chars]
    simp only [ha, if_false]
    rw [ih m rest hl (by simp at hn; omega)]

theorem fgets_chars_eof : ∀ (l : List Nat) (n : Nat), 10 ∉ l → l.length < n →
    fgets_chars n l = (l, true) := by
  intro l
  induction l with
  | nil =>
    intro n _ hn
    obtain ⟨m, rfl⟩ : ∃ m, n = m + 1 := ⟨n - 1, by simp at hn; omega⟩
    simp [fgets_chars]
  | cons a l ih =>
    intro n h10 hn
    obtain ⟨m, rfl⟩ : ∃ m, n = m + 1 := ⟨n - 1, by simp at hn; omega⟩
    have ha : a ≠ 10 := fun e => h10 (by simp [e])
    have hl : 10 ∉ l := fun e => h10 (by simp [e])
    rw [fgets_chars]
    simp only [ha, if_false]
    rw [ih m hl (by simp at hn; omega)]

theorem c_strlen_replicate_zero (k : Nat) : c_strlen (List.replicate k 0) = 0 := by
  cases k with
  | zero => rfl
  | succ k => rw [List.replicate_succ, c_strlen_cons_zero]

theorem c_strlen_buffer (chars : List Nat) (k : Nat) (h : 0 ∉ chars) :
    c_strlen (chars ++ List.replicate k 0) = chars.length := by
  rw [c_strlen_append _ _ h, c_strlen_replicate_zero, Nat.add_zero]

/-- The last character of a buffer that holds a whole line. -/
theorem last_char_line (pre : Nat) (l : List Nat) (k : Nat) (h0 : 0 ∉ l) :
    last_char pre ((l ++ [10]) ++ List.replicate k 0) = 10 := by
  have h : 0 ∉ l ++ [10] := by simp [h0]
  unfold last_char
  rw [c_strlen_buffer _ _ h]
  simp only [List.length_append, List.length_singleton, Nat.add_one_ne_zero, if_false,
    Nat.add_sub_cancel]
  rw [List.append_assoc, List.getD_append_right _ _ _ _ (le_refl _)]
  simp

/-- The last character of a buffer whose string does not end in a newline. -/
theorem last_char_no_newline (pre : Nat) (c : List Nat) (k : Nat) (h0 : 0 ∉ c) (h10 : 10 ∉ c)
    (hne : c ≠ []) : last_char pre (c ++ List.replicate k 0) ≠ 10 := by
  unfold last_char
  rw [c_strlen_buffer _ _ h0]
  have hpos : 0 < c.length := List.length_pos.mpr hne
  simp only [Nat.pos_iff_ne_zero.mp hpos, if_false]
  rw [List.getD_append _ _ _ _ (by omega)]
  intro e
  apply h10
  rw [← e, List.getD_eq_getElem _ _ (by omega)]
  exact List.getElem_mem _

/-- The read buffer after a whole line was read and its newline cut. -/
theorem cut_line (l : List Nat) (k : Nat) (h0 : 0 ∉ l) :
    ((l ++ [10]) ++ List.replicate k 0).set (c_strlen ((l ++ [10]) ++ List.replicate k 0) - 1) 0
      = l ++ List.replicate (k + 1) 0 := by
  have h : 0 ∉ l ++ [10] := by simp [h0]
  rw [c_strlen_buffer _ _ h]
  simp only [List.length_append, List.length_singleton, Nat.add_sub_cancel]
  rw [List.append_assoc, List.set_append_right _ _ (le_refl _)]
  simp [List.replicate_succ]

theorem read_wl_loop_line (R size fuel pre curr pos : Nat) (data : List Nat)
    (out : List (List Nat)) (l rest : List Nat)
    (hdrop : data.drop pos = l ++ 10 :: rest) (hl : l.length < R) (h10 : 10 ∉ l) (h0 : 0 ∉ l)
    (hcurr : curr < size) :
    read_wl_loop R size (fuel + 1) pre curr { data := data, pos := pos, eof := false } out
      = read_wl_loop R size fuel pre (if l = [] then curr else curr + R)
          { data := data, pos := pos + (l.length + 1), eof := false }
          (if l = [] then out else out ++ [pad R l]) := by
  have h : 0 ∉ l ++ [10] := by simp [h0]
  rw [read_wl_loop]
  simp only [hcurr, if_true, Bool.false_eq_true, if_false, fgets, Nat.add_sub_cancel, hdrop,
    fgets_chars_line l R rest h10 hl, Bool.or_false, last_char_line pre l _ h0, ne_eq,
    not_true_eq_false, false_and]
  rw [cut_line l _ h0, c_strlen_buffer _ _ h]
  simp only [List.length_append, List.length_singleton, Nat.add_one_ne_zero, if_false]
  rw [c_strlen_buffer _ _ h0]
  by_cases hle : l = []
  · subst hle
    simp
  · have hpos : 0 < l.length := List.length_pos.mpr hle
    simp only [gt_iff_lt, hpos, if_true, hle, if_false]
    have : (l ++ List.replicate (R + 1 - (l.length + 1) + 1) 0).take R = pad R l := by
      unfold pad
      rw [List.take_append_eq_append_take, List.take_of_length_le (by omega),
        List.take_replicate]
      congr 2
      omega
    rw [this]

theorem read_wl_loop_eof (R size fuel pre curr : Nat) (fp : FILE) (out : List (List Nat))
    (h : fp.eof = true) :
    read_wl_loop R size (fuel + 1) pre curr fp out = some ((curr : Int), fp, out) := by
  rw [read_wl_loop]
  simp [h]

theorem unlines_cons (l : List Nat) (ls : List (List Nat)) :
    unlines (l :: ls) = l ++ 10 :: unlines ls := by
  simp [unlines]

theorem words_cons (l : List Nat) (ls : List (List Nat)) :
    words (l :: ls) = if l = [] then words ls else l :: words ls := by
  unfold words
  by_cases h : l = []
  · simp [h]
  · simp [h]

/-- The loop reads the lines in front of it one after the other while the
block has room. -/
theorem read_wl_loop_lines (R size : Nat) (data : List Nat) :
    ∀ (ls : List (List Nat)) (fuel pre curr pos : Nat) (out : List (List Nat)) (rest : List Nat),
      (∀ l ∈ ls, l.length < R ∧ 10 ∉ l ∧ 0 ∉ l) →
      data.drop pos = unlines ls ++ rest →
      curr + R * (words ls).length < size →
      read_wl_loop R size (fuel + ls.length) pre curr { data := data, pos := pos, eof := false } out
        = read_wl_loop R size fuel pre (curr + R * (words ls).length)
            { data := data, pos := pos + (unlines ls).length, eof := false }
            (out ++ (words ls).map (pad R)) := by
  intro ls
  induction ls with
  | nil =>
    intro fuel pre curr pos out rest _ _ _
    simp [words, unlines]
  | cons l ls ih =>
    intro fuel pre curr pos out rest hls hdrop hroom
    have hl := hls l (by simp)
    rw [unlines_cons, List.append_assoc, List.cons_append] at hdrop
    rw [words_cons] at hroom ⊢
    have hcurr : curr < size := by omega
    rw [List.length_cons, ← Nat.add_assoc,
      read_wl_loop_line R size _ pre curr pos data out l _ hdrop hl.1 hl.2.1 hl.2.2 hcurr]
    have hdrop2 : data.drop (pos + (l.length + 1)) = unlines ls ++ rest := by
      rw [← List.drop_drop, hdrop]
      rw [show l ++ 10 :: (unlines ls ++ rest) = (l ++ [10]) ++ (unlines ls ++ rest) by simp]
      rw [List.drop_left' (by simp)]
    by_cases hle : l = []
    · subst hle
      simp only [if_true] at hroom ⊢
      rw [ih fuel pre curr _ out rest (fun x hx => hls x (by simp [hx])) hdrop2 hroom]
      have e1 : pos + (([] : List Nat).length + 1) + (unlines ls).length
          = pos + (unlines ([] :: ls)).length := by
        rw [unlines_cons]; simp; omega
      rw [e1]
    · simp only [hle, if_false] at hroom ⊢
      have hroom2 : curr + R + R * (words ls).length < size := by
        rw [List.length_cons, Nat.mul_succ] at hroom; omega
      rw [ih fuel pre (curr + R) _ _ rest (fun x hx => hls x (by simp [hx])) hdrop2 hroom2]
      have e1 : pos + (l.length + 1) + (unlines ls).length
          = pos + (unlines (l :: ls)).length := by
        rw [unlines_cons]; simp; omega
      have e2 : curr + R + R * (words ls).length = curr + R * (l :: words ls).length := by
        rw [List.length_cons, Nat.mul_succ]; omega
      have e3 : out ++ [pad R l] ++ (words ls).map (pad R)
          = out ++ (l :: words ls).map (pad R) := by simp
      rw [e1, e2, e3]

/-- A line of `record_size` or more characters before the next newline
ends the function with `E_ATTK_RECORD_SIZE_INVALID`. -/
theorem read_wl_loop_long (R size fuel pre curr pos : Nat) (data : List Nat)
    (out : List (List Nat)) (long rest : List Nat) (hR : 0 < R)
    (hdrop : data.drop pos = long ++ rest) (hl : long.length = R) (h10 : 10 ∉ long)
    (h0 : 0 ∉ long) (hcurr : curr < size) :
    read_wl_loop R size (fuel + 1) pre curr { data := data, pos := pos, eof := false } out
      = some (E_ATTK_RECORD_SIZE_INVALID, { data := data, pos := pos + R, eof := false }, out) := by
  have hne : long ≠ [] := by
    intro e
    rw [e] at hl
    simp at hl
    omega
  rw [read_wl_loop]
  simp only [hcurr, if_true, Bool.false_eq_true, if_false, fgets, Nat.add_sub_cancel, hdrop,
    fgets_chars_full long R rest h10 hl, Bool.or_false, ne_eq,
    last_char_no_newline pre long _ h0 h10 hne, not_false_eq_true, and_self, hl]

/-- What follows the last newline is read without an error when it is
shorter than `record_size`. -/
theorem read_wl_loop_last (R size fuel pre curr pos : Nat) (data : List Nat)
    (out : List (List Nat)) (last : List Nat)
    (hdrop : data.drop pos = last) (hl : last.length < R) (h10 : 10 ∉ last) :
    ∃ (k : Nat) (fp : FILE) (out1 : List (List Nat)),
      read_wl_loop R size (fuel + 2) pre curr { data := data, pos := pos, eof := false } out
        = some ((k : Int), fp, out1) := by
  rw [read_wl_loop]
  by_cases hcurr : curr < size
  · simp only [hcurr, if_true, Bool.false_eq_true, if_false, fgets, Nat.add_sub_cancel, hdrop,
      fgets_chars_eof last R h10 hl, Bool.or_true, Bool.true_eq_false, and_false]
    split_ifs
    all_goals exact ⟨_, _, _, read_wl_loop_eof R size fuel _ _ _ _ rfl⟩
  · simp only [hcurr, if_false]
    exact ⟨_, _, _, rfl⟩

theorem length_le_unlines (ls : List (List Nat)) : ls.length ≤ (unlines ls).length := by
  induction ls with
  | nil => simp [unlines]
  | cons l ls ih =>
    rw [unlines_cons]
    simp only [List.length_cons, List.length_append]
    omega

/-- Lines shorter than `record_size` never end the loop with an error. -/
theorem read_wl_loop_short (R size : Nat) (data : List Nat) :
    ∀ (ls : List (List Nat)) (fuel pre curr pos : Nat) (out : List (List Nat)) (last : List Nat),
      (∀ l ∈ ls, l.length < R ∧ 10 ∉ l ∧ 0 ∉ l) →
      data.drop pos = unlines ls ++ last → last.length < R → 10 ∉ last →
      ls.length + 2 ≤ fuel →
      ∃ (k : Nat) (fp : FILE) (out1 : List (List Nat)),
        read_wl_loop R size fuel pre curr { data := data, pos := pos, eof := false } out
          = some ((k : Int), fp, out1) := by
  intro ls
  induction ls with
  | nil =>
    intro fuel pre curr pos out last _ hdrop hl h10 hfuel
    obtain ⟨f, rfl⟩ : ∃ f, fuel = f + 2 := ⟨fuel - 2, by simp at hfuel; omega⟩
    exact read_wl_loop_last R size f pre curr pos data out last (by simpa [unlines] using hdrop)
      hl h10
  | cons l ls ih =>
    intro fuel pre curr pos out last hls hdrop hl h10 hfuel
    obtain ⟨f, rfl⟩ : ∃ f, fuel = f + 1 := ⟨fuel - 1, by simp at hfuel; omega⟩
    by_cases hcurr : curr < size
    · have hl1 := hls l (by simp)
      rw [unlines_cons, List.append_assoc, List.cons_append] at hdrop
      rw [read_wl_loop_line R size f pre curr pos data out l _ hdrop hl1.1 hl1.2.1 hl1.2.2 hcurr]
      have hdrop2 : data.drop (pos + (l.length + 1)) = unlines ls ++ last := by
        rw [← List.drop_drop, hdrop]
        rw [show l ++ 10 :: (unlines ls ++ last) = (l ++ [10]) ++ (unlines ls ++ last) by simp]
        rw [List.drop_left' (by simp)]
      exact ih f pre _ _ _ last (fun x hx => hls x (by simp [hx])) hdrop2 hl h10
        (by simp at hfuel; omega)
    · rw [read_wl_loop]
      simp only [hcurr, if_false]
      exact ⟨_, _, _, rfl⟩

/-- C15 (as amended): on a text without NUL bytes read from the start of a
line, with a record size of at least 1, `read_wl_next_block` returns
`E_ATTK_RECORD_SIZE_INVALID` when it gets to a line of `record_size` or more
bytes (the lines in front of it being shorter and leaving room in the block
of `size` bytes), and it does not return that error when every line it can
read is at most `record_size - 1` bytes long: it returns a length, unless
the block it was to allocate has a negative size, where it stops at the
first line it copies. -/
theorem read_wl_record_size (pre R rpb buf_size pos : Nat) (data : List Nat)
    (ls : List (List Nat)) (hR : 0 < R)
    (hshort : ∀ l ∈ ls, l.length < R ∧ 10 ∉ l ∧ 0 ∉ l) :
    (∀ (long rest : List Nat) (size : Nat), data.drop pos = unlines ls ++ long ++ rest →
        long.length = R → 10 ∉ long → 0 ∉ long →
        (if buf_size = 0 then block_size R rpb else some (buf_size / R * R)) = some size →
        R * (words ls).length < size →
        ∃ f out, read_wl_next_block pre
            { record_size := R, records_per_block := rpb,
              file_data := { fp := some { data := data, pos := pos, eof := false } } } buf_size
          = Except.ok (E_ATTK_RECORD_SIZE_INVALID, f, out))
    ∧ (∀ last : List Nat, data.drop pos = unlines ls ++ last → last.length < R → 10 ∉ last →
        (∃ (k : Nat) (f : wordlist_file_st) (out : List (List Nat)), read_wl_next_block pre
            { record_size := R, records_per_block := rpb,
              file_data := { fp := some { data := data, pos := pos, eof := false } } } buf_size
          = Except.ok ((k : Int), f, out))
        ∨ (buf_size = 0 ∧ block_size R rpb = none ∧ read_wl_next_block pre
            { record_size := R, records_per_block := rpb,
              file_data := { fp := some { data := data, pos := pos, eof := false } } } buf_size
          = Except.error halt.null_write)) := by
  have hR0 : R ≠ 0 := by omega
  constructor
  · intro long rest size hdrop hl h10 h0 hsized hsize
    have hlen : (data.drop pos).length = data.length - pos := List.length_drop _ _
    have h1 := length_le_unlines ls
    rw [hdrop] at hlen
    simp only [List.length_append] at hlen
    obtain ⟨f, hf⟩ : ∃ f, data.length - pos + 2 = (f + 1) + ls.length :=
      ⟨data.length - pos + 1 - ls.length, by omega⟩
    unfold read_wl_next_block
    simp only [hR0, and_false, if_false, hf, hsized]
    rw [read_wl_loop_lines R _ data ls (f + 1) pre 0 pos [] (long ++ rest) hshort
      (by rw [hdrop, List.append_assoc]) (by simpa using hsize)]
    have hdrop2 : data.drop (pos + (unlines ls).length) = long ++ rest := by
      rw [← List.drop_drop, hdrop, List.append_assoc, List.drop_left]
    rw [read_wl_loop_long R _ f pre _ _ data _ long rest hR hdrop2 hl h10 h0
      (by simpa using hsize)]
    exact ⟨_, _, rfl⟩
  · intro last hdrop hl h10
    have hlen : (data.drop pos).length = data.length - pos := List.length_drop _ _
    have h1 := length_le_unlines ls
    rw [hdrop] at hlen
    simp only [List.length_append] at hlen
    have hloop := fun size => read_wl_loop_short R size data ls (data.length - pos + 2) pre 0
      pos [] last hshort hdrop hl h10 (by omega)
    unfold read_wl_next_block
    simp only [hR0, and_false, if_false]
    cases hsz : (if buf_size = 0 then block_size R rpb else some (buf_size / R * R)) with
    | some size =>
      obtain ⟨k, fp, out1, h⟩ := hloop size
      simp only [h]
      exact Or.inl ⟨_, _, _, rfl⟩
    | none =>
      have hb : buf_size = 0 := by
        by_contra hne
        rw [if_neg hne] at hsz
        cases hsz
      rw [if_pos hb] at hsz
      obtain ⟨k, fp, out1, h⟩ := hloop (2 ^ 64 - (2 ^ 32 - R * rpb % 2 ^ 32))
      simp only [h]
      cases out1 with
      | nil => exact Or.inl ⟨_, _, _, rfl⟩
      | cons o os => exact Or.inr ⟨hb, hsz, rfl⟩

/-- C11 at an input file whose first `next_block` fails with
`E_ATTK_RECORD_SIZE_INVALID` and whose `close_file` then fails with -1: once
the first pair is installed the second failure reaches "Set an error" again,
the assertion `attk_st->error == 0` fails and the thread does not end;
compiled without assertions the second failure replaces the pair
(`E_ATTK_RECORD_SIZE_INVALID`, input) that a successful `close_file` would
have left in place. -/
theorem attack_main_second_failure :
    attack_main_t (twice_failing true (-1)) 5 demo_attk = Except.error halt.assertion
    ∧ (attack_main_t (twice_failing false (-1)) 5 demo_attk).map
          (fun a => (a.error, a.e_state)) = Except.ok (-1, E_STATE_INPUT_FILE)
    ∧ (attack_main_t (twice_failing true 0) 5 demo_attk).map
          (fun a => (a.error, a.e_state))
        = Except.ok (E_ATTK_RECORD_SIZE_INVALID, E_STATE_INPUT_FILE) :=
  ⟨rfl, rfl, rfl⟩

/-- C14 at the word list "cat", "lion", "ox" whose last line has no newline,
with records of five bytes: the third record is "o", the last byte of the
line is cut as if it were the newline; of the list "a", "b" without a final
newline only "a" is returned. -/
theorem read_wl_final_line_cut :
    read_wl_drain 0 3 (demo_wordlist demo_words)
      = Except.ok (0, [[99, 97, 116, 0, 0], [108, 105, 111, 110, 0], [111, 0, 0, 0, 0]])
    ∧ read_wl_drain 0 3 (demo_wordlist [97, 10, 98]) = Except.ok (0, [[97, 0, 0, 0, 0]]) :=
  ⟨rfl, rfl⟩

/-- C18 at a buffer of one byte and a `write` that stores nothing at its
first call and the byte at its second: no call fails, the byte is in the
file, and `write_next_block` returns `E_ATTK_SYSTEM`, having called `write`
twice for a `buf_size` of 1. -/
theorem write_next_block_counter :
    write_next_block stall_once { (demo_sink 1) with file_data :=
        { (demo_sink 1).file_data with fp := 3 } } [] [7] 1
      = Except.ok (E_ATTK_SYSTEM, [7])
    ∧ ∀ k, 0 ≤ stall_once k := by
  refine ⟨rfl, fun k => ?_⟩
  unfold stall_once
  split <;> decide

/-- C19 at the source for alphabet "ab", start "a", end "bb": into a block
it allocates `bf_next_block` writes "a" and "b" followed by NUL bytes, into a
buffer of the caller filled with "x" it writes "axx" and "bxx": the bytes
after the strings stay as they were. -/
theorem bf_next_block_caller_buffer :
    bf_next_block_buf demo_bf [] 0
      = Except.ok ({ demo_bf with file_data := { demo_bf.file_data with last := [98] } },
          [97, 0, 0, 98, 0, 0], 6)
    ∧ bf_next_block_buf demo_bf (List.replicate 6 120) 6
      = Except.ok ({ demo_bf with file_data := { demo_bf.file_data with last := [98] } },
          [97, 120, 120, 98, 120, 120], 6) :=
  ⟨rfl, rfl⟩

/-- C12 for the description "d", file order 1, three records of two bytes
written in two blocks and read back two per block. -/
theorem sink_source_roundtrip_witness :
    ∃ sink hdr disk,
      write_open_file 0 3 none (write_file_init [100] 1 2) = (0, sink, some hdr)
      ∧ write_blocks sink ([[[1, 2], [3, 4]], [[5, 6]]].map List.flatten) hdr
          = Except.ok (([[[1, 2], [3, 4]], [[5, 6]]].map List.flatten).map
              (fun b => (b.length : Int)), disk)
      ∧ (read_file_init [] header_zero 2 4 (some disk) [100] 0 0).record_size = 2
      ∧ (read_file_init [] header_zero 2 4 (some disk) [100] 0 0).file_data.file_order = 1
      ∧ ∃ src fd,
          read_open_file header_zero 4 0 (some disk)
            (read_file_init [] header_zero 2 4 (some disk) [100] 0 0) = Except.ok (0, src, fd)
          ∧ src.record_size = 2 ∧ src.file_data.file_order = 1
          ∧ ∃ N, ∀ fuel, N ≤ fuel → ∃ groups : List (List (List Nat)),
              read_drain (fun _ => 4) fuel 0 src fd = Except.ok (0, groups.map List.flatten)
              ∧ groups.flatten = [[[1, 2], [3, 4]], [[5, 6]]].flatten
              ∧ ∀ g ∈ groups, g ≠ [] ∧ g.length ≤ 2 :=
  sink_source_roundtrip [] header_zero header_zero 0 3 4 0 [100] 1 2 2
    [[[1, 2], [3, 4]], [[5, 6]]] (fun _ => 4) (by decide) (by decide) (by decide) (by decide)
    (by decide) (by decide) (by decide) (by decide) (by decide) (by decide) (by decide)
    (fun _ => (by decide : ((2 * 2 : Nat) : Int) ≤ 4))

set_option maxRecDepth 100000 in
/-- C12 fails for a record size of 0, where `read_open_file` divides the
file size by the record size; for a source with 0 records per block, whose
first block has length 0; under a `read` that delivers one byte at a time,
where the blocks are not the records; and where the product of the record
size and `records_per_block` does not fit an `int`: with records of 3 bytes
and 1431655766 records per block the product wraps to 2 and the blocks are
pairs of bytes, with records of 2 bytes and `2 ^ 30` records per block it is
negative and the first call fails. -/
theorem sink_source_counterexample :
    read_open_file header_zero 4 0 (some (demo_header 0)) (demo_source 2 (demo_header 0))
        = Except.error halt.division
    ∧ (∃ f d, read_open_file header_zero 4 0 (some demo_record_file)
          (demo_source 0 demo_record_file) = Except.ok (0, f, d)
        ∧ read_drain (fun _ => 100) 5 0 f d = Except.ok (0, []))
    ∧ (∃ f d, read_open_file header_zero 4 0 (some demo_record_file)
          (demo_source 1 demo_record_file) = Except.ok (0, f, d)
        ∧ read_drain (fun _ => 1) 9 0 f d = Except.ok (0, [[1], [2], [3], [4], [5], [6]]))
    ∧ (∃ f d, read_open_file header_zero 4 0 (some (demo_header 3 ++ [1, 2, 3, 4, 5, 6]))
          (demo_source 1431655766 (demo_header 3 ++ [1, 2, 3, 4, 5, 6])) = Except.ok (0, f, d)
        ∧ f.record_size = 3
        ∧ read_drain (fun _ => 100) 5 0 f d = Except.ok (0, [[1, 2], [3, 4], [5, 6]]))
    ∧ (∃ f d, read_open_file header_zero 4 0 (some demo_record_file)
          (demo_source 1073741824 demo_record_file) = Except.ok (0, f, d)
        ∧ read_drain (fun _ => 100) 5 0 f d = Except.ok (-1, [])) :=
  ⟨rfl, ⟨_, _, rfl, rfl⟩, ⟨_, _, rfl, rfl⟩, ⟨_, _, rfl, rfl, rfl⟩, ⟨_, _, rfl, rfl⟩⟩

set_option maxRecDepth 100000 in
/-- C13 on `demo_record_file` with the last byte of the magic number set to
0. -/
theorem read_open_file_tampered_witness :
    (∃ f d, read_open_file header_zero 4 0 (some (demo_record_file.set 3 0))
        (read_file_init [] header_zero 1 4 (some demo_record_file) [100] 0 0)
          = Except.ok (E_ATTK_FILE_INVALID, f, d))
    ∧ ∀ (other : List Nat) (file : record_file_st), 4 ≤ other.length →
        ntohl (other.take 4) ≠ READ_FILE_MAGIC →
        ∃ f d, read_open_file header_zero 4 0 (some other) file
          = Except.ok (E_ATTK_FILE_INVALID, f, d) :=
  read_open_file_tampered [] header_zero header_zero 1 4 4 0 demo_record_file [100] 0 0 3 0
    (by decide) (by decide) (by decide) rfl (by decide) rfl (Or.inl (by decide)) (by decide)

set_option maxRecDepth 100000 in
/-- C13 fails for the bytes that `read_open_file` does not compare: with a
byte of `reserved`, of `record_size` or of the description behind its NUL
changed, the file is opened with return value 0. -/
theorem read_open_file_tamper_counterexample :
    (∃ f d, read_open_file header_zero 4 0 (some (demo_record_file.set 267 1))
        (demo_source 1 demo_record_file) = Except.ok (0, f, d))
    ∧ (∃ f d, read_open_file header_zero 4 0 (some (demo_record_file.set 265 3))
        (demo_source 1 demo_record_file) = Except.ok (0, f, d) ∧ f.record_size = 3)
    ∧ (∃ f d, read_open_file header_zero 4 0 (some (demo_record_file.set 9 7))
        (demo_source 1 demo_record_file) = Except.ok (0, f, d))
    ∧ demo_record_file.getD 267 0 = 0 ∧ demo_record_file.getD 265 0 = 2
    ∧ demo_record_file.getD 9 0 = 0 :=
  ⟨⟨_, _, rfl⟩, ⟨_, _, rfl, rfl⟩, ⟨_, _, rfl⟩, rfl, rfl, rfl⟩

/-- C15 on two word lists with records of five bytes, three per block: the
line "cdefgh" of six bytes is answered with `E_ATTK_RECORD_SIZE_INVALID`;
the lines "ab", "" and "cd" are answered with a length. -/
theorem read_wl_record_size_witness :
    (∃ f out, read_wl_next_block 0
        (demo_wordlist [97, 98, 10, 10, 99, 100, 101, 102, 103, 104, 10, 105, 10]) 0
          = Except.ok (E_ATTK_RECORD_SIZE_INVALID, f, out))
    ∧ ((∃ (k : Nat) (f : wordlist_file_st) (out : List (List Nat)),
        read_wl_next_block 0 (demo_wordlist [97, 98, 10, 10, 99, 100]) 0
          = Except.ok ((k : Int), f, out))
      ∨ ((0 : Nat) = 0 ∧ block_size 5 3 = none
        ∧ read_wl_next_block 0 (demo_wordlist [97, 98, 10, 10, 99, 100]) 0
          = Except.error halt.null_write))
    ∧ read_wl_next_block 0 (demo_wordlist [97, 98, 10, 10, 99, 100]) 0
        = Except.ok (10, demo_wordlist_at [97, 98, 10, 10, 99, 100] 6 true,
            [[97, 98, 0, 0, 0], [99, 0, 0, 0, 0]]) :=
  ⟨(read_wl_record_size 0 5 3 0 0 [97, 98, 10, 10, 99, 100, 101, 102, 103, 104, 10, 105, 10]
      [[97, 98], []] (by decide) (by decide)).1 [99, 100, 101, 102, 103] [104, 10, 105, 10] 15
      rfl rfl (by decide) (by decide) rfl (by decide),
    (read_wl_record_size 0 5 3 0 0 [97, 98, 10, 10, 99, 100] [[97, 98], []] (by decide)
      (by decide)).2 [99, 100] rfl (by decide) (by decide), rfl⟩

/-- C15, the claim as it was written fails on a line with a NUL byte: of
the word list "a\0", "b", with records of five bytes, every line has at
most four bytes, and `read_wl_next_block` returns
`E_ATTK_RECORD_SIZE_INVALID`: `strlen` ends at the NUL, so the last
character it looks at is not the newline. -/
theorem read_wl_record_size_counterexample :
    text_lines [97, 0, 10, 98, 10] = [[97, 0], [98], []]
    ∧ (∀ l ∈ text_lines [97, 0, 10, 98, 10], l.length ≤ 5 - 1)
    ∧ read_wl_next_block 0 (demo_wordlist [97, 0, 10, 98, 10]) 0
        = Except.ok (E_ATTK_RECORD_SIZE_INVALID, demo_wordlist_at [97, 0, 10, 98, 10] 3 false, [])
    ∧ read_wl_next_block 0 (demo_wordlist [97, 10, 98, 10]) 0
        = Except.ok (10, demo_wordlist_at [97, 10, 98, 10] 4 true,
            [[97, 0, 0, 0, 0], [98, 0, 0, 0, 0]]) :=
  ⟨by decide, by decide, rfl, rfl⟩

/-- What an `int` keeps of a count below `2 ^ 31`. -/
theorem add_int_of_small (t : Nat) : add_int_of 0 (t % 2 ^ 31) = t % 2 ^ 31 := by
  unfold add_int_of
  have h1 : t % 2 ^ 31 < 2 ^ 31 := Nat.mod_lt _ (by norm_num)
  have h2 : t % 2 ^ 31 % 2 ^ 32 = t % 2 ^ 31 := Nat.mod_eq_of_lt (by omega)
  rw [h2, if_pos h1, Nat.zero_add]
  exact Nat.mod_eq_of_lt (by omega)

/-- C21: the main thread takes `file_in->total_records`, a `uint64_t`, into
the `int` variable `total_records` and adds that to the `uint64_t` of the
attack state.  For the brute-force source over "ab" from "a" to 31 letters
"b", which holds `2 ^ 32 - 2` records, the attack state and `check_attack`
report `2 ^ 64 - 2`; a count of `2 ^ 31` gives `2 ^ 64 - 2 ^ 31`, a count of
`2 ^ 32` gives 0.  A count below `2 ^ 31` is kept. -/
theorem total_records_through_int :
    brute_force_init fileZero 2 [97] (List.replicate 31 98) [97, 98] = (0, demo_big)
    ∧ (bf_open_file demo_big).2.total_records = 4294967294
    ∧ (attack_main_t (empty_source (bf_open_file demo_big).2.total_records) 5 demo_attk).map
        (fun a => (check_attack a status0).2.total_records) = Except.ok 18446744073709551614
    ∧ (attack_main_t (empty_source (2 ^ 31)) 5 demo_attk).map
        (fun a => (check_attack a status0).2.total_records) = Except.ok (2 ^ 64 - 2 ^ 31)
    ∧ (attack_main_t (empty_source (2 ^ 32)) 5 demo_attk).map
        (fun a => (check_attack a status0).2.total_records) = Except.ok 0
    ∧ ∀ t, add_int_of 0 (t % 2 ^ 31) = t % 2 ^ 31 :=
  ⟨by decide, by decide, rfl, rfl, rfl, add_int_of_small⟩

/-- C22: `read_wl_open_file` leaves `total_records` at the 0 of
`read_word_list_init`, so the main thread adds 0 to the total of the attack
state; after a client thread has gone through the first block of the word
list "cat", "lion", "ox" the status snapshot holds `records_tested = 3` and
`total_records = 0`. -/
theorem wordlist_total_records_unset :
    read_wl_open_file 0 (some demo_text) (read_word_list_init 3 5)
      = some (0, demo_wordlist demo_text)
    ∧ (demo_wordlist demo_text).total_records = 0
    ∧ (feeder_open (empty_source (demo_wordlist demo_text).total_records)
        (feeder_init demo_attk)).map (fun r => r.2.2.attk) = Except.ok demo_attk
    ∧ (read_wl_next_block 0 (demo_wordlist demo_text) 0).map (fun r => (r.1, r.2.2))
        = Except.ok (15, [[99, 97, 116, 0, 0], [108, 105, 111, 110, 0], [111, 120, 0, 0, 0]])
    ∧ (attack_client_t words_env
          [[99, 97, 116, 0, 0, 108, 105, 111, 110, 0, 111, 120, 0, 0, 0]] demo_attk
          one_queue).map (fun st => check_attack st.attk status0)
        = Except.ok (0, { records_tested := 3, total_records := 0, result := none,
                          result_size := 0 }) :=
  ⟨rfl, rfl, rfl, rfl, rfl⟩

set_option maxRecDepth 100000 in
/-- C23: with no record limit `read_open_file` stores `st_size /
record_size`, the 268 bytes of the header counted in: for the file with
three records of two bytes after the header it stores 137, and the source
then delivers three records.  With a limit it stores the limit. -/
theorem read_open_file_counts_header :
    demo_record_file.length = 268 + 3 * 2
    ∧ (read_open_file header_zero 4 0 (some demo_record_file)
        (demo_source 1 demo_record_file)).map
          (fun r => (r.1, r.2.1.record_size, r.2.1.total_records)) = Except.ok (0, 2, 137)
    ∧ ((read_open_file header_zero 4 0 (some demo_record_file)
        (demo_source 1 demo_record_file)).bind
          (fun r => read_drain (fun _ => 2) 5 0 r.2.1 r.2.2))
        = Except.ok (0, [[1, 2], [3, 4], [5, 6]])
    ∧ (read_open_file header_zero 4 0 (some demo_record_file)
        (read_file_init [] header_zero 1 4 (some demo_record_file) [100] 0 2)).map
          (fun r => (r.1, r.2.1.record_size, r.2.1.total_records)) = Except.ok (0, 2, 2) :=
  ⟨rfl, rfl, rfl, rfl⟩

theorem attack_st_init_ge_one (t : Nat) (cb : Option (attack_st → Int)) :
    1 ≤ (attack_st_init t cb).2.1.threads := by
  simp only [attack_st_init]
  split
  · exact le_refl _
  · rename_i h
    have : 1 ≤ t % 2 ^ 16 := Nat.one_le_iff_ne_zero.mpr h
    exact_mod_cast this

/-- C24: `attack_st_init` turns a count of 0 into 1 and stores every other
count as it is, so the stored count is at least 1 but not bounded by
`MAX_THREADS`: for 5000 it stores 5000, the assertion `threads <=
MAX_THREADS` of the main thread fails, and without the assertion the loop
of `pthread_create` calls writes `client_t[4096]`, past the array. -/
theorem attack_st_init_threads :
    (∀ t cb, 1 ≤ (attack_st_init t cb).2.1.threads)
    ∧ (attack_st_init 0 none).2.1.threads = 1
    ∧ (attack_st_init 5000 none).2.1.threads = 5000
    ∧ feeder_start true (attack_st_init 5000 none).2.1 = Except.error halt.assertion
    ∧ attack_main_thread (attack_st_init 5000 (some (fun _ => 0))).2.1 (empty_source 6) 5
        (start_attack (attack_st_init 5000 (some (fun _ => 0))).2.2)
        = Except.error halt.assertion
    ∧ feeder_start false (attack_st_init 5000 none).2.1 = Except.ok (List.range 5000)
    ∧ MAX_THREADS ∈ List.range 5000 :=
  ⟨attack_st_init_ge_one, rfl, rfl, rfl, rfl, rfl, List.mem_range.mpr (by decide)⟩

/-- C25: `attack_main_t` calls `attk_st->callback` without a test for
`NULL`.  For an attack set up with a `NULL` callback the thread goes through
its shutdown (the attack is stopping, the input file closed) and then calls
through the `NULL` pointer: it never sets the state to stopped.  With a
callback the thread calls it once, on the structure whose state is still
stopping, and then sets the state to stopped. -/
theorem callback_called_through_null :
    attack_main_thread (attack_st_init 1 none).2.1 (empty_source 6) 5
        (start_attack (attack_st_init 1 none).2.2) = Except.error halt.null_call
    ∧ (attack_main_body (empty_source 6) 5 (start_attack (attack_st_init 1 none).2.2)).map
        (fun a => (a.state, a.error)) = Except.ok (ATTACK_STATE_STOPPING, 0)
    ∧ (∀ threads a, feeder_finish { threads := threads, callback := none } a
        = Except.error halt.null_call)
    ∧ (attack_main_thread (attack_st_init 1 (some (fun _ => 0))).2.1 (empty_source 6) 5
        (start_attack (attack_st_init 1 (some (fun _ => 0))).2.2)).map
          (fun r => (r.2.1.map (fun a => a.state), r.2.2.state))
        = Except.ok ([ATTACK_STATE_STOPPING], ATTACK_STATE_STOPPED) :=
  ⟨rfl, rfl, fun _ _ => rfl, rfl⟩

/-- C27: a client thread whose sink fails while it hands over its full
output buffer sets the error with the output stage and stops the queue, but
it leaves only the loop over the records of its block, and it keeps the
mutex of the output file.  With a block left in the queue the queue is
stopping, not stopped: the thread pops that block and calls the checker on
its records (here two records the checker finds invalid).  It then waits
for the mutex it holds, at the next record that is counted or else where it
writes out the rest of its output buffer. -/
theorem sink_failure_keeps_running :
    (block_loop failing_sink_env [3, 3, 4, 4] 5 0 0
        (worker_init failing_sink_env demo_attk one_queue)).map
          (fun r => (r.1, r.2.attk.error, r.2.attk.e_state, r.2.q.state, r.2.out_locked,
            r.2.checks.length))
        = Except.ok (2, E_ATTK_SYSTEM, E_STATE_OUTPUT_FILE, QUEUE_STATE_STOPPING, true, 2)
    ∧ (worker_loop failing_sink_env [[3, 3, 4, 4], [9, 9, 9, 9]]
        (worker_init failing_sink_env demo_attk one_queue)).map (fun st => st.checks)
        = Except.ok [([3, 3], -4, [3]), ([4, 4], -4, [4]), ([9, 9], -3, []), ([9, 9], -3, [])]
    ∧ attack_client_t failing_sink_env [[3, 3, 4, 4], [9, 9, 9, 9]] demo_attk one_queue
        = Except.error halt.deadlock
    ∧ attack_client_t failing_sink_env [[3, 3, 4, 4], [5, 5, 6, 6]] demo_attk one_queue
        = Except.error halt.deadlock
    ∧ attack_client_t failing_sink_env [[3, 3, 4, 4]] demo_attk queue_init
        = Except.error halt.deadlock :=
  ⟨rfl, rfl, rfl, rfl, rfl⟩

theorem find_inc_reads_all_max (c : Nat) :
    ∀ n, (-1 : Int) ∈ find_inc_reads (List.replicate n c) c n
  | 0 => by simp [find_inc_reads]
  | n + 1 => by
    have h : (List.replicate (n + 1) c).getD n 0 = c := by
      rw [List.getD_eq_getElem _ _ (by simp)]
      simp
    rw [find_inc_reads, if_pos h]
    refine List.mem_cons_of_mem _ ?_
    have ih := find_inc_reads_all_max c n
    have e : ∀ k, k ≤ n → find_inc_reads (List.replicate (n + 1) c) c k
        = find_inc_reads (List.replicate n c) c k := by
      intro k
      induction k with
      | zero => intro _; rfl
      | succ k ihk =>
        intro hk
        have h1 : (List.replicate (n + 1) c).getD k 0 = c := by
          rw [List.getD_eq_getElem _ _ (by simp; omega)]
          simp
        have h2 : (List.replicate n c).getD k 0 = c := by
          rw [List.getD_eq_getElem _ _ (by simp; omega)]
          simp
        rw [find_inc_reads, find_inc_reads, if_pos h1, if_pos h2, ihk (by omega)]
    rw [e n (le_refl _)]
    exact ih

/-- C29: the scan for the character to increase compares the byte in front
of `last` whenever every character of `last` is the last character of the
alphabet, and at once when `last` is empty: the test `curr_p <
bf_st->last` comes after the `memcmp` of the loop condition.  For alphabet
"ab", start "b", end "aa" the first call compares the offsets 0 and -1 of
`last` on its way from "b" to "aa". -/
theorem bf_scan_reads_before_last :
    brute_force_init fileZero 2 [98] [97, 97] [97, 98] = (0, demo_scan)
    ∧ (bf_next_block demo_scan).map (fun r => (r.2.1, r.2.2))
        = some ([[98, 0, 0], [97, 97, 0]], 6)
    ∧ bf_succ [97, 98] [97, 97] [98] = some [97, 97]
    ∧ bf_succ_reads [97, 98] [97, 97] [98] = [0, -1]
    ∧ (brute_force_init fileZero 1 [] [97] [97] = (0, cex_empty_one)
      ∧ bf_succ_reads [97] [97] [] = [-1])
    ∧ ∀ c n, (-1 : Int) ∈ find_inc_reads (List.replicate n c) c n :=
  ⟨by decide, by decide, by decide, by decide, ⟨by decide, by decide⟩, find_inc_reads_all_max⟩

/-- C30: on the word list "a" with its newline the second `fgets` of
`read_wl_next_block` finds the end of the file and leaves the cleared
`read_buf` empty; the function then reads and writes `read_buf` at index
`strlen(read_buf) - 1 = -1`.  `find_max_line_len` reads its buffer at index
-1 in its second pass and once more after its loop. -/
theorem last_index_before_buffer :
    read_wl_next_block_indexes 0 (demo_wordlist [97, 10]) = [1, -1]
    ∧ (read_wl_next_block 0 (demo_wordlist [97, 10]) 0).map (fun r => (r.1, r.2.2))
        = Except.ok (5, [[97, 0, 0, 0, 0]])
    ∧ find_max_line_len_indexes [97, 10] = [1, -1, -1]
    ∧ find_max_line_len 0 (some [97, 10]) = some 1 :=
  ⟨by rfl, rfl, by rfl, by rfl⟩

theorem digit_sum_add_val (alphabet : List Nat) :
    ∀ s, digit_sum alphabet s + (str_val alphabet s : Int) + 1 = (alphabet.length : Int) ^ s.length
  | [] => by simp [digit_sum, str_val]
  | c :: s => by
    have ih := digit_sum_add_val alphabet s
    simp only [digit_sum, str_val, List.length_cons, pow_succ]
    push_cast
    linear_combination ih

theorem length_sum_geom (r a : Nat) :
    ∀ n, (geom r (a + 1) : Int) + length_sum r a n = (geom r (a + n + 1) : Int)
  | 0 => by simp [length_sum]
  | n + 1 => by
    have ih := length_sum_geom r a n
    have hg : geom r (a + (n + 1) + 1) = geom r (a + n + 1) + r ^ (a + n + 1) := rfl
    rw [hg, length_sum]
    push_cast
    linear_combination ih

/-- The count of the specification is the number of positions from `start`
to `end` in the enumeration of all strings. -/
theorem spec_total_eq_ord {start end_ alphabet : List Nat} (hlen : start.length ≤ end_.length) :
    spec_total_records start end_ alphabet
      = (str_ord alphabet end_ : Int) - (str_ord alphabet start : Int) + 1 := by
  have h1 := digit_sum_add_val alphabet start
  have h2 := digit_sum_add_val alphabet end_
  have h3 := length_sum_geom alphabet.length start.length (end_.length - start.length)
  have e : start.length + (end_.length - start.length) + 1 = end_.length + 1 := by omega
  rw [e] at h3
  simp only [geom] at h3
  push_cast at h3
  simp only [spec_total_records, str_ord]
  push_cast
  linear_combination h1 - h2 + h3

/-- C26 (as amended): for every `(start, end, alphabet)` accepted by
`brute_force_init`, with `r = |alphabet|` and `rank(c)` the index of `c` in
the alphabet, the integer `1 + sum over positions i of start of
(r-1-rank(start[i]))*r^(len(start)-1-i) + sum over lengths l in
len(start)+1..len(end) of r^l - sum over positions i of end of
(r-1-rank(end[i]))*r^(len(end)-1-i)` is at least 1, and `bf_open_file`
returns 0 and sets `total_records` to that integer reduced modulo `2 ^ 64`:
to the integer itself when it is below `2 ^ 64`. -/
theorem bf_open_file_formula (file0 file : file_st) (rpb : Nat)
    (start end_ alphabet : List Nat)
    (hinit : brute_force_init file0 rpb start end_ alphabet = (0, file)) :
    (bf_open_file file).1 = 0
    ∧ 1 ≤ spec_total_records start end_ alphabet
    ∧ ((bf_open_file file).2.total_records : Int)
        = spec_total_records start end_ alphabet % 2 ^ 64
    ∧ (spec_total_records start end_ alphabet < 2 ^ 64 →
        ((bf_open_file file).2.total_records : Int) = spec_total_records start end_ alphabet) := by
  have hacc := init_ok_not_rejects hinit
  rw [brute_force_init_accepts hacc] at hinit
  have hfile := (Prod.mk.inj hinit).2
  obtain ⟨_, _, hlen, hord⟩ := accepted_ord_le hacc
  have htot := @bf_open_file_total start end_ alphabet hacc file (by rw [← hfile])
  have hspec : spec_total_records start end_ alphabet
      = ((str_ord alphabet end_ - str_ord alphabet start + 1 : Nat) : Int) := by
    rw [spec_total_eq_ord hlen]
    push_cast [Nat.cast_sub hord]
    ring
  have hmod : ((bf_open_file file).2.total_records : Int)
      = spec_total_records start end_ alphabet % 2 ^ 64 := by
    rw [htot, hspec]
    norm_cast
  refine ⟨rfl, ?_, hmod, fun hlt => ?_⟩
  · rw [hspec]
    exact_mod_cast Nat.le_add_left 1 _
  · rw [hmod]
    exact Int.emod_eq_of_lt (by rw [hspec]; exact Int.natCast_nonneg _) hlt

/-- C26 at alphabet "ab", start "a", end "bb": the count is 6. -/
theorem bf_open_file_formula_witness :
    brute_force_init fileZero 2 [97] [98, 98] [97, 98] = (0, demo_bf)
    ∧ (bf_open_file demo_bf).1 = 0
    ∧ 1 ≤ spec_total_records [97] [98, 98] [97, 98]
    ∧ ((bf_open_file demo_bf).2.total_records : Int)
        = spec_total_records [97] [98, 98] [97, 98] % 2 ^ 64
    ∧ (spec_total_records [97] [98, 98] [97, 98] < 2 ^ 64 →
        ((bf_open_file demo_bf).2.total_records : Int)
          = spec_total_records [97] [98, 98] [97, 98]) :=
  ⟨by decide, bf_open_file_formula fileZero demo_bf 2 [97] [98, 98] [97, 98] (by decide)⟩

set_option maxRecDepth 100000 in
/-- C26 as stated fails for alphabet "ab", start "a" and an end of 64
letters "b", which `brute_force_init` accepts: the integer of the formula
is `2 ^ 65 - 2`, and the 64-bit `total_records` holds `2 ^ 64 - 2`. -/
theorem bf_open_file_formula_counterexample :
    brute_force_init fileZero 1 [97] (List.replicate 64 98) [97, 98] = (0, cex_big)
    ∧ spec_total_records [97] (List.replicate 64 98) [97, 98] = 2 ^ 65 - 2
    ∧ (bf_open_file cex_big).2.total_records = 2 ^ 64 - 2 :=
  ⟨by decide, by decide, by decide⟩

/-! ## Queue: the order of the states -/

theorem queue_init_state_inv : state_inv queue_init := by
  constructor <;> intro h <;> simp [queue_init] at h

theorem queue_push_state {q q1 : queue} {inp size : Nat}
    (hp : queue_push q inp size = some q1) :
    q.state = QUEUE_STATE_ACTIVE ∧ q1.state = QUEUE_STATE_ACTIVE := by
  unfold queue_push at hp
  split at hp
  · rename_i hc
    have hq : _ = q1 := Option.some.inj hp
    subst hq
    exact ⟨hc.2.1, hc.2.1⟩
  · simp at hp

theorem queue_pop_state {q q1 : queue} {out size : Nat}
    (hp : queue_pop q = some (q1, out, size)) :
    state_inv q1 ∧ state_rank q.state ≤ state_rank q1.state
      ∧ (q.state ≠ QUEUE_STATE_ACTIVE → q1.state ≠ QUEUE_STATE_ACTIVE) := by
  unfold queue_pop at hp
  split at hp
  · rename_i hc
    obtain ⟨hns, hempty⟩ := hc
    have hq := (Prod.mk.inj (Option.some.inj hp)).1
    subst hq
    unfold state_inv
    simp only
    cases hs : q.state with
    | QUEUE_STATE_ACTIVE => simp [state_rank]
    | QUEUE_STATE_STOPPING =>
      by_cases h : (if q.head + 1 = QUEUE_SIZE then 0 else q.head + 1) = q.tail
      · simp [h, state_rank]
      · simp [h, state_rank, hempty]
    | QUEUE_STATE_STOPPED => exact absurd hs hns
  · simp at hp

theorem queue_stop_state {q : queue} {es : List (Nat × Nat)} (h : queue_holds q es)
    (hi : state_inv q) :
    state_inv (queue_stop q) ∧ state_rank q.state ≤ state_rank (queue_stop q).state
      ∧ (queue_stop q).state ≠ QUEUE_STATE_ACTIVE := by
  have he := h.empty_eq
  unfold queue_stop state_inv
  cases hs : q.state with
  | QUEUE_STATE_STOPPED =>
    simp only [ne_eq, not_true_eq_false, if_false, hs]
    exact ⟨⟨fun _ => hi.1 hs, fun hc => by simp at hc⟩, le_refl _, by simp⟩
  | QUEUE_STATE_ACTIVE =>
    by_cases h0 : es.length = 0
    · rw [if_pos h0] at he
      simp [he, state_rank]
    · rw [if_neg h0] at he
      simp [he, state_rank]
  | QUEUE_STATE_STOPPING =>
    have := hi.2 hs
    simp [this, state_rank]

/-- A run keeps the relation between state and emptiness and never moves
the state backwards. -/
theorem queue_run_state :
    ∀ (ops : List queue_op) (q q1 : queue) (es outs : List (Nat × Nat)),
      queue_holds q es → state_inv q → queue_run q ops = some (q1, outs) →
      state_inv q1 ∧ state_rank q.state ≤ state_rank q1.state
  | [], q, q1, es, outs, _, hi, hr => by
    simp only [queue_run, Option.some.injEq, Prod.mk.injEq] at hr
    obtain ⟨rfl, rfl⟩ := hr
    exact ⟨hi, le_refl _⟩
  | queue_op.push inp size :: ops, q, q1, es, outs, h, _, hr => by
    simp only [queue_run] at hr
    cases hp : queue_push q inp size with
    | none => simp [hp] at hr
    | some q2 =>
      simp only [hp] at hr
      obtain ⟨ha, ha2⟩ := queue_push_state hp
      have hi2 : state_inv q2 := by
        constructor <;> intro hc <;> rw [ha2] at hc <;> simp at hc
      have := queue_run_state ops q2 q1 _ outs (queue_push_holds h hp) hi2 hr
      refine ⟨this.1, ?_⟩
      rw [ha]
      exact Nat.zero_le _
  | queue_op.pop :: ops, q, q1, es, outs, h, hi, hr => by
    simp only [queue_run] at hr
    cases hp : queue_pop q with
    | none => simp [hp] at hr
    | some r =>
      obtain ⟨q2, out, size⟩ := r
      simp only [hp] at hr
      cases hrun : queue_run q2 ops with
      | none => simp [hrun] at hr
      | some r2 =>
        obtain ⟨q3, outs2⟩ := r2
        simp only [hrun, Option.map_some', Option.some.injEq, Prod.mk.injEq] at hr
        obtain ⟨rfl, rfl⟩ := hr
        obtain ⟨rest, _, hrest⟩ := queue_pop_holds h hp
        obtain ⟨hi2, hle, _⟩ := queue_pop_state hp
        have := queue_run_state ops q2 q3 rest outs2 hrest hi2 hrun
        exact ⟨this.1, le_trans hle this.2⟩
  | queue_op.stop :: ops, q, q1, es, outs, h, hi, hr => by
    simp only [queue_run] at hr
    obtain ⟨hi2, hle, _⟩ := queue_stop_state h hi
    have := queue_run_state ops (queue_stop q) q1 es outs (queue_stop_holds h) hi2 hr
    exact ⟨this.1, le_trans hle this.2⟩

/-- A run of two sequences of calls is the run of the first followed by the
run of the second. -/
theorem queue_run_append :
    ∀ (ops1 ops2 : List queue_op) (q q2 : queue) (outs : List (Nat × Nat)),
      queue_run q (ops1 ++ ops2) = some (q2, outs) →
      ∃ q1 outs1 outs2, queue_run q ops1 = some (q1, outs1)
        ∧ queue_run q1 ops2 = some (q2, outs2)
  | [], ops2, q, q2, outs, hr => ⟨q, [], outs, rfl, hr⟩
  | queue_op.push inp size :: ops, ops2, q, q2, outs, hr => by
    simp only [List.cons_append, queue_run] at hr ⊢
    cases hp : queue_push q inp size with
    | none => simp [hp] at hr
    | some q3 =>
      simp only [hp] at hr ⊢
      exact queue_run_append ops ops2 q3 q2 outs hr
  | queue_op.pop :: ops, ops2, q, q2, outs, hr => by
    simp only [List.cons_append, queue_run] at hr ⊢
    cases hp : queue_pop q with
    | none => simp [hp] at hr
    | some r =>
      obtain ⟨q3, out, size⟩ := r
      simp only [hp] at hr ⊢
      cases hrun : queue_run q3 (ops ++ ops2) with
      | none =>
        have hr2 : Option.map (fun r => (r.1, (out, size) :: r.2))
            (queue_run q3 (ops ++ ops2)) = some (q2, outs) := hr
        simp [hrun] at hr2
      | some r2 =>
        obtain ⟨q4, outs4⟩ := r2
        have hr2 : Option.map (fun r => (r.1, (out, size) :: r.2))
            (queue_run q3 (ops ++ ops2)) = some (q2, outs) := hr
        simp only [hrun, Option.map_some', Option.some.injEq, Prod.mk.injEq] at hr2
        obtain ⟨rfl, _⟩ := hr2
        obtain ⟨q1, o1, o2, h1, h2⟩ := queue_run_append ops ops2 q3 q4 outs4 hrun
        exact ⟨q1, (out, size) :: o1, o2, by simp [h1], h2⟩
  | queue_op.stop :: ops, ops2, q, q2, outs, hr => by
    simp only [List.cons_append, queue_run] at hr ⊢
    exact queue_run_append ops ops2 (queue_stop q) q2 outs hr

/-- Pops until empty on a queue that is not active end on a stopped and
empty queue. -/
theorem queue_pop_all_stopped :
    ∀ (es : List (Nat × Nat)) (q : queue) (fuel : Nat),
      queue_holds q es → state_inv q → q.state ≠ QUEUE_STATE_ACTIVE → es.length < fuel →
      ∃ q1, queue_pop_all fuel q = some q1 ∧ q1.state = QUEUE_STATE_STOPPED ∧ q1.empty = 1
  | [], q, fuel, h, hi, hna, hf => by
    have he : q.empty = 1 := by
      have := h.empty_eq
      simpa using this
    obtain ⟨n, rfl⟩ : ∃ n, fuel = n + 1 := ⟨fuel - 1, by simp at hf; omega⟩
    refine ⟨q, by simp [queue_pop_all, he], ?_, he⟩
    cases hs : q.state with
    | QUEUE_STATE_ACTIVE => exact absurd hs hna
    | QUEUE_STATE_STOPPING =>
      have := hi.2 hs
      omega
    | QUEUE_STATE_STOPPED => rfl
  | e :: rest, q, fuel, h, hi, hna, hf => by
    have he : q.empty = 0 := by
      have := h.empty_eq
      simpa using this
    obtain ⟨n, rfl⟩ : ∃ n, fuel = n + 1 := ⟨fuel - 1, by simp at hf; omega⟩
    have hns : q.state ≠ QUEUE_STATE_STOPPED := by
      intro hs
      have := hi.1 hs
      omega
    cases hp : queue_pop q with
    | none => simp [queue_pop, hns, he] at hp
    | some r =>
      obtain ⟨q2, out, size⟩ := r
      obtain ⟨rest2, hes, hrest⟩ := queue_pop_holds h hp
      obtain ⟨hi2, _, hna2⟩ := queue_pop_state hp
      have hrr : rest2 = rest := (List.cons.inj hes).2.symm
      subst hrr
      obtain ⟨q1, h1, h2, h3⟩ := queue_pop_all_stopped rest2 q2 n hrest hi2 (hna2 hna)
        (by simp only [List.length_cons] at hf; omega)
      exact ⟨q1, by simp [queue_pop_all, he, hp, h1], h2, h3⟩

/-- C28: in every queue state reached from `queue_init` by `queue_push`,
`queue_pop` and `queue_stop` calls in which no assertion fails, a stopped
queue is empty and a stopping queue is not; the state reached after any
first part of the calls is not ahead of the final state in the order
active, stopping, stopped; on a queue that is not empty the state is not
stopped and `queue_pop` passes its two assertions; and `queue_stop`
followed by pops until the queue is empty leaves a queue on which
`queue_destroy` passes its two assertions. -/
theorem queue_state_order (ops : List queue_op) (q : queue) (outs : List (Nat × Nat))
    (hrun : queue_run queue_init ops = some (q, outs)) :
    (q.state = QUEUE_STATE_STOPPED → q.empty = 1)
      ∧ (q.state = QUEUE_STATE_STOPPING → q.empty = 0)
      ∧ (∀ ops1 ops2, ops = ops1 ++ ops2 →
          ∃ q1 outs1, queue_run queue_init ops1 = some (q1, outs1)
            ∧ state_rank q1.state ≤ state_rank q.state)
      ∧ (q.empty = 0 → q.state ≠ QUEUE_STATE_STOPPED ∧ (queue_pop q).isSome = true)
      ∧ ∃ q1, queue_pop_all (QUEUE_SIZE + 1) (queue_stop q) = some q1
          ∧ q1.state = QUEUE_STATE_STOPPED ∧ q1.empty = 1
          ∧ (queue_destroy q1).isSome = true := by
  obtain ⟨_, _, hh⟩ := queue_run_holds ops queue_init q [] outs queue_init_holds hrun
  obtain ⟨hi, _⟩ := queue_run_state ops queue_init q [] outs queue_init_holds
    queue_init_state_inv hrun
  refine ⟨hi.1, hi.2, ?_, ?_, ?_⟩
  · intro ops1 ops2 hops
    subst hops
    obtain ⟨q1, o1, o2, h1, h2⟩ := queue_run_append ops1 ops2 queue_init q outs hrun
    obtain ⟨_, _, hh1⟩ := queue_run_holds ops1 queue_init q1 [] o1 queue_init_holds h1
    obtain ⟨hi1, _⟩ := queue_run_state ops1 queue_init q1 [] o1 queue_init_holds
      queue_init_state_inv h1
    exact ⟨q1, o1, h1, (queue_run_state ops2 q1 q _ o2 hh1 hi1 h2).2⟩
  · intro he
    have hns : q.state ≠ QUEUE_STATE_STOPPED := by
      intro hs
      have := hi.1 hs
      omega
    exact ⟨hns, by simp [queue_pop, hns, he]⟩
  · obtain ⟨hi2, _, hna⟩ := queue_stop_state hh hi
    have hc := hh.count_le
    obtain ⟨q1, h1, h2, h3⟩ := queue_pop_all_stopped _ (queue_stop q) (QUEUE_SIZE + 1)
      (queue_stop_holds hh) hi2 hna (by simp only [QUEUE_SIZE]; omega)
    exact ⟨q1, h1, h2, h3, by simp [queue_destroy, h2, h3]⟩

/-- C28 on two pushes followed by `queue_stop` and one pop: the queue is
stopping and holds one entry. -/
theorem queue_state_order_witness :
    queue_run queue_init
        [queue_op.push 5 1, queue_op.push 6 2, queue_op.stop, queue_op.pop]
      = some ({ stack := 0 :: 6 :: List.replicate 18 0,
                stack_sizes := 0 :: 2 :: List.replicate 18 0,
                head := 1, tail := 2, full := 0, empty := 0,
                state := QUEUE_STATE_STOPPING }, [(5, 1)])
    ∧ ∃ q1, queue_pop_all (QUEUE_SIZE + 1)
          (queue_stop { stack := 0 :: 6 :: List.replicate 18 0,
                        stack_sizes := 0 :: 2 :: List.replicate 18 0,
                        head := 1, tail := 2, full := 0, empty := 0,
                        state := QUEUE_STATE_STOPPING }) = some q1
        ∧ q1.state = QUEUE_STATE_STOPPED ∧ q1.empty = 1
        ∧ (queue_destroy q1).isSome = true :=
  ⟨by decide,
    (queue_state_order [queue_op.push 5 1, queue_op.push 6 2, queue_op.stop, queue_op.pop]
      _ [(5, 1)] (by decide)).2.2.2.2⟩

end Attk
